import Mathlib

/-!
# A hash map stored in a red-black tree ordered by key hash

A verification development for `hashmap.go`: the tree of `rbTreeNode`s kept by `rbTree`,
its operations `New`, `Insert`, `Get` and `Remove`, and the rebalancing helpers they call.

## How the Go program is represented

* A node is either a *sentinel* (the `&rbTreeNode{}` placeholders, whose `left` and `right`
  are `nil` and whose only field ever written is `color`) or a *real* node (created by
  `Insert`, whose `left` and `right` are never `nil`).
* A `*rbTreeNode` that points into the tree is a `ptr`: the node it points at together with
  the chain of its ancestors, nearest first.  Following `parent` pops the first ancestor,
  `parent == nil` is the empty chain, `n == n.parent.left` asks on which side the first
  ancestor holds `n`, and an assignment through the pointer rewrites the node in place.  The
  program pairs every assignment of a child link with the assignment of the matching `parent`
  link (`Insert`, `rotateLeft`, `rotateRight`, the splice in `Remove`), which is what makes the
  chain of ancestors the chain of `parent` links.  The node that the loop
  `for { if n.parent == nil ...; n = n.parent }` ends at is `crawl`.
* Every function returns an `Option`: `none` stands for a run that stops on a `nil`
  dereference.  Reading the payload (`keyHash`, `key`, ...) of a sentinel is also reported as
  `none`; the theorems show that neither happens in a map built by `Insert` and `Remove`.
* A Go map `map[interface{}]interface{}` is an association list; a `nil` map and an empty map
  are the same list.  The entry that `range` yields first is chosen by the extra argument `pick`
  of `Remove`, so that a statement for all `pick` is a statement for every iteration order.
* Hashes are integers (every `int64` is one) and are only compared.
* Keys are values of type `interface{}`.  In the first model of `Insert`, `Get` and `Remove`
  they are compared with a decidable equality, which is what `==` and the Go maps do on keys
  such as integers and strings.  The second model (`anykey`) takes what the runtime does on
  every key as a parameter: the result of `a == b`, which can be false for one and the same
  value (a NaN) or panic (two slices), and whether the key can be hashed.  On a key with
  `k == k` the two models are the same function (`Insert_regular`, `Get_regular`,
  `Remove_regular`).

## Contents

1. The data model and the functions of `hashmap.go`, one definition per function.
2. What is stated about them: the payloads of a tree from left to right, the five invariants of
   the specification, the red-black shape of a tree and of a chain of ancestors, validity.
3. Rotations and repairs keep the payloads in order (`*_entries`).
4. The insertion and deletion repairs succeed and restore the red-black shape (`*_RB`).
5. `Insert`, `Get` and `Remove` on a valid map (`Insert_spec`, `Get_spec`, `Remove_spec`), and
   validity of every reachable map.
6. The claims of the specification about `Insert`, `Get` and `Remove`, the scenario of the
   specification, and the calls that leave the links and the colours alone.
7. The replacement node; the calls made during a repair, with the nodes each of them relies on.
8. `rotateLeft` and `rotateRight` on nodes in memory (`cells`), where the `parent` links are
   fields that are written: the memory afterwards holds the rotated tree, and the rotations on
   pointers compute the same tree.
9. `Insert`, `Get` and `Remove` on keys of any dynamic type (`anykey`): every reachable map
   keeps the structure of the tree, and the claims that depend on how keys compare.
-/

namespace hashmap

/-! ## Data model -/

/-- The type `color` of the source: `black` is `false`, `red` is `true`. -/
inductive color where
  | black
  | red
  deriving DecidableEq, Repr

/-- The type `matchPosition` of the source. -/
inductive matchPosition where
  | greater
  | same
  | lower
  deriving DecidableEq, Repr

/-- The payload fields of an `rbTreeNode`: `keyHash`, `key`, `value`, `collisions`. -/
structure entry (K V : Type) where
  keyHash : Int
  key : K
  value : V
  collisions : List (K × V)
  deriving DecidableEq, Repr

/-- The struct `rbTreeNode` of the source, seen as a tree: a sentinel has no children and no payload,
a real node has both children. -/
inductive rbTreeNode (K V : Type) where
  | sentinel (color : color)
  | real (color : color) (left : rbTreeNode K V) (data : entry K V) (right : rbTreeNode K V)
  deriving DecidableEq, Repr

/-- One ancestor of a pointed-at node: its colour, its payload, its other child, and on which
side the pointed-at node hangs. -/
inductive frame (K V : Type) where
  | inLeft (color : color) (data : entry K V) (right : rbTreeNode K V)
  | inRight (color : color) (left : rbTreeNode K V) (data : entry K V)
  deriving DecidableEq, Repr

/-- A non-nil `*rbTreeNode` pointing into a tree: the node and its ancestors, nearest first. -/
structure ptr (K V : Type) where
  node : rbTreeNode K V
  up : List (frame K V)
  deriving DecidableEq, Repr

/-- The struct `rbTree` of the source; `root = none` is the `nil` root. -/
structure rbTree (K V : Type) where
  root : Option (rbTreeNode K V)
  hashFunc : K → Int

variable {K V : Type}

/-! ## Go maps as association lists -/

/-- The lookup `m[key]` with its presence flag. -/
def mapGet [DecidableEq K] : List (K × V) → K → Option V
  | [], _ => none
  | (k, v) :: m, key => if k = key then some v else mapGet m key

/-- The statement `delete(m, key)`. -/
def mapDelete [DecidableEq K] (m : List (K × V)) (key : K) : List (K × V) :=
  m.filter (fun p => decide (p.1 ≠ key))

/-- The assignment `m[key] = value`. -/
def mapSet [DecidableEq K] (m : List (K × V)) (key : K) (value : V) : List (K × V) :=
  (key, value) :: mapDelete m key

/-! ## Field access and pointer moves -/

/-- The field `color` of a node. -/
def rbTreeNode.colorOf : rbTreeNode K V → color
  | .sentinel c => c
  | .real c _ _ _ => c

/-- The assignment `node.color = c`. -/
def rbTreeNode.paint (c : color) : rbTreeNode K V → rbTreeNode K V
  | .sentinel _ => .sentinel c
  | .real _ l e r => .real c l e r

/-- The colour of the ancestor. -/
def frame.colorOf : frame K V → color
  | .inLeft c _ _ => c
  | .inRight c _ _ => c

/-- The other child of the ancestor. -/
def frame.sibling : frame K V → rbTreeNode K V
  | .inLeft _ _ r => r
  | .inRight _ l _ => l

/-- The assignment `parent.color = c` through a child. -/
def frame.paint (c : color) : frame K V → frame K V
  | .inLeft _ e r => .inLeft c e r
  | .inRight _ l e => .inRight c l e

/-- The assignment `sibling.color = c` through a child. -/
def frame.paintSibling (c : color) : frame K V → frame K V
  | .inLeft pc e r => .inLeft pc e (r.paint c)
  | .inRight pc l e => .inRight pc (l.paint c) e

/-- Overwrite the payload of the ancestor. -/
def frame.setData (d : entry K V) : frame K V → frame K V
  | .inLeft c _ r => .inLeft c d r
  | .inRight c l _ => .inRight c l d

/-- The ancestor as a node again, with `t` as the child on the recorded side. -/
def frame.plug : frame K V → rbTreeNode K V → rbTreeNode K V
  | .inLeft c e r, t => .real c t e r
  | .inRight c l e, t => .real c l e t

/-- The loop `for { if n.parent == nil { ... break }; n = n.parent }`: the top of the tree. -/
def crawl : rbTreeNode K V → List (frame K V) → rbTreeNode K V
  | t, [] => t
  | t, f :: up => crawl (f.plug t) up

/-- The pointer `p.left`; `none` when it is `nil`. -/
def ptr.goLeft : ptr K V → Option (ptr K V)
  | ⟨.real c l e r, up⟩ => some ⟨l, .inLeft c e r :: up⟩
  | ⟨.sentinel _, _⟩ => none

/-- The pointer `p.right`; `none` when it is `nil`. -/
def ptr.goRight : ptr K V → Option (ptr K V)
  | ⟨.real c l e r, up⟩ => some ⟨r, .inRight c l e :: up⟩
  | ⟨.sentinel _, _⟩ => none

/-- The function `isLeaf` of the source, on a non-nil node. -/
def isLeaf : rbTreeNode K V → Bool
  | .sentinel c => decide (c = color.black)
  | .real _ _ _ _ => false

/-- The function `getGrandparent`: `none` is `nil`. -/
def getGrandparent : ptr K V → Option (ptr K V)
  | ⟨n, f :: g :: up⟩ => some ⟨g.plug (f.plug n), up⟩
  | _ => none

/-- The function `getUncle`: `none` is `nil`. -/
def getUncle : ptr K V → Option (rbTreeNode K V)
  | ⟨_, _ :: g :: _⟩ => some g.sibling
  | _ => none

/-- The function `getSibling`: `none` is `nil`. -/
def getSibling : ptr K V → Option (rbTreeNode K V)
  | ⟨_, f :: _⟩ => some f.sibling
  | ⟨_, []⟩ => none

/-! ## Rotations -/

/-- The function `rotateLeft`; the result points at `root` again, which after a rotation is the left
child of the pivot. -/
def rotateLeft : ptr K V → Option (ptr K V)
  | ⟨.real c l e r, up⟩ =>
    if isLeaf r then some ⟨.real c l e r, up⟩
    else
      match r with
      | .real pc pl pe pr => some ⟨.real c l e pl, .inLeft pc pe pr :: up⟩
      | .sentinel _ => none
  | ⟨.sentinel _, _⟩ => none

/-- The function `rotateRight`; the result points at `root` again, which after a rotation is the
right child of the pivot. -/
def rotateRight : ptr K V → Option (ptr K V)
  | ⟨.real c l e r, up⟩ =>
    if isLeaf l then some ⟨.real c l e r, up⟩
    else
      match l with
      | .real pc pl pe pr => some ⟨.real c pr e r, .inRight pc pl pe :: up⟩
      | .sentinel _ => none
  | ⟨.sentinel _, _⟩ => none

/-! ## Insertion -/

/-- The function `findInsertionParent`: the node under which (or in which) the hash belongs, and
on which side. -/
def findInsertionParent : rbTreeNode K V → List (frame K V) → Int →
    Option (ptr K V × matchPosition)
  | .real c l e r, up, keyHash =>
    if keyHash > e.keyHash then
      if isLeaf r then some (⟨.real c l e r, up⟩, matchPosition.greater)
      else findInsertionParent r (.inRight c l e :: up) keyHash
    else if keyHash < e.keyHash then
      if isLeaf l then some (⟨.real c l e r, up⟩, matchPosition.lower)
      else findInsertionParent l (.inLeft c e r :: up) keyHash
    else some (⟨.real c l e r, up⟩, matchPosition.same)
  | .sentinel _, _, _ => none

/-- The function `insertCase5`: recolour parent and grandparent, rotate the grandparent. -/
def insertCase5 : ptr K V → Option (ptr K V)
  | ⟨n, f :: g :: up⟩ =>
    let grandparent : ptr K V := ⟨(g.paint color.red).plug ((f.paint color.black).plug n), up⟩
    match f with
    | .inLeft _ _ _ => rotateRight grandparent
    | .inRight _ _ _ => rotateLeft grandparent
  | _ => none

/-- The function `insertCase4`: when node and parent hang on opposite sides, rotate the parent
and continue from the former parent, which is `node.left` (or `node.right`) after the rotation
and `nil` when `node` was a black sentinel and nothing was rotated. -/
def insertCase4 : ptr K V → Option (ptr K V)
  | ⟨n, .inRight pc pl pe :: .inLeft gc ge gr :: up⟩ =>
    if isLeaf n then none
    else (rotateLeft ⟨.real pc pl pe n, .inLeft gc ge gr :: up⟩).bind insertCase5
  | ⟨n, .inLeft pc pe pr :: .inRight gc gl ge :: up⟩ =>
    if isLeaf n then none
    else (rotateRight ⟨.real pc n pe pr, .inRight gc gl ge :: up⟩).bind insertCase5
  | ⟨n, f :: g :: up⟩ => insertCase5 ⟨n, f :: g :: up⟩
  | _ => none

mutual

/-- The function `insertCase1`: a node without parent is painted black. -/
def insertCase1 : ptr K V → Option (ptr K V)
  | ⟨n, []⟩ => some ⟨n.paint color.black, []⟩
  | ⟨n, f :: up⟩ => insertCase2 n f up
termination_by p => (p.up.length, 2)

/-- The function `insertCase2`, for a node whose parent is `f`: nothing to do under a black parent. -/
def insertCase2 (n : rbTreeNode K V) (f : frame K V) (up : List (frame K V)) :
    Option (ptr K V) :=
  if f.colorOf = color.black then some ⟨n, f :: up⟩
  else insertCase3 n f up
termination_by (up.length + 1, 1)

/-- The function `insertCase3`, for a node whose parent is `f`: with a red uncle, recolour and
continue from the grandparent. -/
def insertCase3 (n : rbTreeNode K V) (f : frame K V) (up : List (frame K V)) :
    Option (ptr K V) :=
  match up with
  | g :: up2 =>
    if g.sibling.colorOf = color.red then
      insertCase1 ⟨((g.paintSibling color.black).paint color.red).plug ((f.paint color.black).plug n), up2⟩
    else insertCase4 ⟨n, f :: g :: up2⟩
  | [] => insertCase4 ⟨n, [f]⟩
termination_by (up.length + 1, 0)

end

/-! ## Lookup -/

/-- The function `findByKeyHash` on a non-nil node: `some none` is the result `(nil, false)`,
`some (some p)` is `(p, true)`.  The caller's `nil` root is handled by the caller. -/
def findByKeyHash : rbTreeNode K V → List (frame K V) → K → Int →
    Option (Option (ptr K V))
  | .real c l e r, up, key, keyHash =>
    if keyHash > e.keyHash ∧ ¬ isLeaf r then findByKeyHash r (.inRight c l e :: up) key keyHash
    else if keyHash < e.keyHash ∧ ¬ isLeaf l then findByKeyHash l (.inLeft c e r :: up) key keyHash
    else if keyHash = e.keyHash then some (some ⟨.real c l e r, up⟩)
    else some none
  | .sentinel _, _, _, _ => none

/-! ## Deletion -/

/-- The function `getLeftmostNode`. -/
def getLeftmostNode : rbTreeNode K V → List (frame K V) → Option (ptr K V)
  | .real c l e r, up =>
    if isLeaf l then some ⟨.real c l e r, up⟩
    else getLeftmostNode l (.inLeft c e r :: up)
  | .sentinel _, _ => none

/-- The function `getRightmostNode`. -/
def getRightmostNode : rbTreeNode K V → List (frame K V) → Option (ptr K V)
  | .real c l e r, up =>
    if isLeaf r then some ⟨.real c l e r, up⟩
    else getRightmostNode r (.inRight c l e :: up)
  | .sentinel _, _ => none

/-- The function `getReplacementNode`; the ancestors of the result end at `node`, which is the last
of them (or the result itself when there is none). -/
def getReplacementNode : rbTreeNode K V → Option (ptr K V)
  | .real c l e r =>
    if ¬ isLeaf r then getLeftmostNode r [.inRight c l e]
    else if ¬ isLeaf l then getRightmostNode l [.inLeft c e r]
    else some ⟨.real c l e r, []⟩
  | .sentinel _ => none

/-- Write a payload into the last ancestor of a chain. -/
def setLastData (d : entry K V) : List (frame K V) → List (frame K V)
  | [] => []
  | [f] => [f.setData d]
  | f :: g :: up => f :: setLastData d (g :: up)

/-- The function `copyNodeValue(fromNode, toNode)` where `toNode` is the last ancestor of
`fromNode` (or `fromNode` itself): the pointer `fromNode` once `toNode` holds its payload. -/
def copyNodeValue : ptr K V → Option (ptr K V)
  | ⟨.real c l e r, rel⟩ => some ⟨.real c l e r, setLastData e rel⟩
  | ⟨.sentinel _, _⟩ => none

/-- The test `sibling.color == black && sibling.left.color == black &&
sibling.right.color == black`, which reads the children of a black sibling. -/
def siblingFamilyBlack : rbTreeNode K V → Option Bool
  | .sentinel c => if c = color.black then none else some false
  | .real c l _ r =>
    some (decide (c = color.black) && decide (l.colorOf = color.black)
      && decide (r.colorOf = color.black))

/-- The function `deleteCase6`. -/
def deleteCase6 : ptr K V → Option (ptr K V)
  | ⟨n, .inLeft pc pe (.real _ sl se sr) :: up⟩ =>
    rotateLeft ⟨.real color.black n pe (.real pc sl se (sr.paint color.black)), up⟩
  | ⟨n, .inRight pc (.real _ sl se sr) pe :: up⟩ =>
    rotateRight ⟨.real color.black (.real pc (sl.paint color.black) se sr) pe n, up⟩
  | _ => none

/-- The function `deleteCase5`.  The sibling is rotated on its own and the subtree that results
is hung back under the parent, where `rotateRight` (`rotateLeft`) links the pivot. -/
def deleteCase5 : ptr K V → Option (ptr K V)
  | ⟨n, .inLeft pc pe s :: up⟩ =>
    if s.colorOf = color.black then
      match s with
      | .sentinel _ => none
      | .real _ sl se sr =>
        if sr.colorOf = color.black ∧ sl.colorOf = color.red then
          (rotateRight ⟨.real color.red (sl.paint color.black) se sr, []⟩).bind fun s1 =>
            deleteCase6 ⟨n, .inLeft pc pe (crawl s1.node s1.up) :: up⟩
        else deleteCase6 ⟨n, .inLeft pc pe s :: up⟩
    else deleteCase6 ⟨n, .inLeft pc pe s :: up⟩
  | ⟨n, .inRight pc s pe :: up⟩ =>
    if s.colorOf = color.black then
      match s with
      | .sentinel _ => none
      | .real _ sl se sr =>
        if sr.colorOf = color.red ∧ sl.colorOf = color.black then
          (rotateLeft ⟨.real color.red sl se (sr.paint color.black), []⟩).bind fun s1 =>
            deleteCase6 ⟨n, .inRight pc (crawl s1.node s1.up) pe :: up⟩
        else deleteCase6 ⟨n, .inRight pc s pe :: up⟩
    else deleteCase6 ⟨n, .inRight pc s pe :: up⟩
  | ⟨_, []⟩ => none

/-- The function `deleteCase4`. -/
def deleteCase4 : ptr K V → Option (ptr K V)
  | ⟨n, f :: up⟩ =>
    match (if f.colorOf = color.red then siblingFamilyBlack f.sibling else some false) with
    | none => none
    | some true => some ⟨n, (f.paintSibling color.red).paint color.black :: up⟩
    | some false => deleteCase5 ⟨n, f :: up⟩
  | ⟨_, []⟩ => none

/-- The first half of `deleteCase2`: under a red sibling, recolour parent and sibling and rotate
the parent; the result points at `node`, still the same child of its parent. -/
def deleteCase2Rotate (n : rbTreeNode K V) (f : frame K V) (up : List (frame K V)) :
    Option (ptr K V) :=
  if f.sibling.colorOf = color.red then
    match f with
    | .inLeft _ pe s =>
      (rotateLeft ⟨.real color.red n pe (s.paint color.black), up⟩).bind ptr.goLeft
    | .inRight _ s pe =>
      (rotateRight ⟨.real color.red (s.paint color.black) pe n, up⟩).bind ptr.goRight
  else some ⟨n, f :: up⟩

/-- A bound on the calls still to come in the deletion repair, by the entry point reached. -/
def deleteMeasure (stage : Nat) (up : List (frame K V)) : Nat :=
  match stage, up with
  | 0, f :: rest => if f.colorOf = color.black then 3 * (rest.length + 1) else 0
  | 0, [] => 0
  | k, up => 3 * up.length + k

set_option linter.unusedVariables false in
mutual

/-- The function `deleteCase1`: a node without parent needs no repair. -/
def deleteCase1 : ptr K V → Option (ptr K V)
  | ⟨n, []⟩ => some ⟨n, []⟩
  | ⟨n, f :: up⟩ => deleteCase2 n f up
termination_by p => deleteMeasure 2 p.up
decreasing_by
  simp [deleteMeasure]

/-- The function `deleteCase2`, for a node whose parent is `f`. -/
def deleteCase2 (n : rbTreeNode K V) (f : frame K V) (up : List (frame K V)) :
    Option (ptr K V) :=
  match h : deleteCase2Rotate n f up with
  | none => none
  | some p => deleteCase3 p
termination_by deleteMeasure 1 (f :: up)
decreasing_by
  unfold deleteCase2Rotate at h
  split at h
  · cases f with
    | inLeft pc pe s =>
      cases s <;>
      · simp [rotateLeft, isLeaf, rbTreeNode.paint, ptr.goLeft] at h
        subst h
        simp [deleteMeasure, frame.colorOf]
    | inRight pc s pe =>
      cases s <;>
      · simp [rotateRight, isLeaf, rbTreeNode.paint, ptr.goRight] at h
        subst h
        simp [deleteMeasure, frame.colorOf]
  · cases h
    simp only [deleteMeasure]
    split <;> simp

/-- The function `deleteCase3`: with a black parent and a black sibling with black children, paint
the sibling red and continue from the parent. -/
def deleteCase3 : ptr K V → Option (ptr K V)
  | ⟨n, f :: up⟩ =>
    if hc : f.colorOf = color.black then
      match siblingFamilyBlack f.sibling with
      | none => none
      | some true => deleteCase1 ⟨(f.paintSibling color.red).plug n, up⟩
      | some false => deleteCase4 ⟨n, f :: up⟩
    else deleteCase4 ⟨n, f :: up⟩
  | ⟨_, []⟩ => none
termination_by p => deleteMeasure 0 p.up
decreasing_by
  simp only [deleteMeasure, hc, if_true]
  omega

end

/-! ## The public operations -/

/-- The function `New`. -/
def New (hashFunc : K → Int) : rbTree K V :=
  ⟨none, hashFunc⟩

/-- The assignment `rb.root = r`. -/
def rbTree.setRoot (rb : rbTree K V) (r : Option (rbTreeNode K V)) : rbTree K V :=
  ⟨r, rb.hashFunc⟩

/-- The method `Insert`. -/
def Insert [DecidableEq K] (rb : rbTree K V) (key : K) (value : V) : Option (rbTree K V) :=
  let keyHash := rb.hashFunc key
  let child : rbTreeNode K V :=
    .real color.red (.sentinel color.black) ⟨keyHash, key, value, []⟩ (.sentinel color.black)
  match rb.root with
  | none =>
    (insertCase1 ⟨child, []⟩).map fun p => rb.setRoot (some (crawl p.node p.up))
  | some root =>
    match findInsertionParent root [] keyHash with
    | none => none
    | some (⟨.sentinel _, _⟩, _) => none
    | some (⟨.real c l e _, up⟩, matchPosition.greater) =>
      (insertCase1 ⟨child, .inRight c l e :: up⟩).map fun p =>
        rb.setRoot (some (crawl p.node p.up))
    | some (⟨.real c _ e r, up⟩, matchPosition.lower) =>
      (insertCase1 ⟨child, .inLeft c e r :: up⟩).map fun p =>
        rb.setRoot (some (crawl p.node p.up))
    | some (⟨.real c l e r, up⟩, matchPosition.same) =>
      if key = e.key then
        some (rb.setRoot (some (crawl (.real c l { e with value := value } r) up)))
      else
        some (rb.setRoot (some (crawl
          (.real c l { e with collisions := mapSet e.collisions key value } r) up)))

/-- The method `Get`: the value (`none` is `nil`) and the flag `found`. -/
def Get [DecidableEq K] (rb : rbTree K V) (key : K) : Option (Option V × Bool) :=
  match rb.root with
  | none => some (none, false)
  | some root =>
    match findByKeyHash root [] key (rb.hashFunc key) with
    | none => none
    | some none => some (none, false)
    | some (some ⟨.sentinel _, _⟩) => none
    | some (some ⟨.real _ _ e _, _⟩) =>
      if e.key = key then some (some e.value, true)
      else
        match mapGet e.collisions key with
        | some v => some (some v, true)
        | none => some (none, false)

/-- The loop `for k, v := range node.collisions { node.key = k; node.value = v; break }`, where
`pick` selects the entry that `range` yields first. -/
def promote (pick : Nat) (e : entry K V) : entry K V :=
  match e.collisions.get? (pick % e.collisions.length) with
  | some (k, v) => { e with key := k, value := v }
  | none => e

/-- The method `Remove`: the map afterwards and the boolean result. -/
def Remove [DecidableEq K] (rb : rbTree K V) (pick : Nat) (key : K) :
    Option (rbTree K V × Bool) :=
  match rb.root with
  | none => some (rb, true)
  | some root =>
    match findByKeyHash root [] key (rb.hashFunc key) with
    | none => none
    | some none => some (rb, true)
    | some (some ⟨.sentinel _, _⟩) => none
    | some (some ⟨.real c l e r, up⟩) =>
      if e.collisions.length > 0 then
        let e1 := if key = e.key then promote pick e else e
        let key1 := if key = e.key then e1.key else key
        some (rb.setRoot (some (crawl
          (.real c l { e1 with collisions := mapDelete e1.collisions key1 } r) up)), true)
      else
        match (getReplacementNode (.real c l e r)).bind copyNodeValue with
        | none => none
        | some ⟨.sentinel _, _⟩ => none
        | some ⟨.real rc rl re rr, rel⟩ =>
          let replacementNodeChild := if isLeaf rr then rl else rr
          if rc = color.red then
            -- `rb.root` is not reassigned: it still points at the node it pointed at
            match rel ++ up with
            | [] => some (rb.setRoot (some (.real rc rl re rr)), true)
            | f :: rest => some (rb.setRoot (some (crawl replacementNodeChild (f :: rest))), true)
          else if replacementNodeChild.colorOf = color.red then
            match rel ++ up with
            | [] =>
              some (rb.setRoot (some (if isLeaf rr then .real rc (rl.paint color.black) re rr
                else .real rc rl re (rr.paint color.black))), true)
            | f :: rest =>
              some (rb.setRoot (some (crawl (replacementNodeChild.paint color.black) (f :: rest))),
                true)
          else
            (deleteCase1 ⟨replacementNodeChild, rel ++ up⟩).map fun p =>
              let top := crawl p.node p.up
              (rb.setRoot (if isLeaf top then none else some top), true)

/-! ## Sequences of calls -/

/-- One call of `Insert` or `Remove`. -/
inductive call (K V : Type) where
  | insert (key : K) (value : V)
  | remove (key : K) (pick : Nat)

/-- Perform one call. -/
def perform [DecidableEq K] (rb : rbTree K V) : call K V → Option (rbTree K V)
  | .insert key value => Insert rb key value
  | .remove key pick => (Remove rb pick key).map Prod.fst

/-- Perform the calls of a list from left to right. -/
def performAll [DecidableEq K] (rb : rbTree K V) : List (call K V) → Option (rbTree K V)
  | [] => some rb
  | c :: cs => (perform rb c).bind fun rb1 => performAll rb1 cs

/-- The maps reachable from `New(h)` by a sequence of `Insert` and `Remove` calls. -/
def Reachable [DecidableEq K] (h : K → Int) (rb : rbTree K V) : Prop :=
  ∃ cs : List (call K V), performAll (New h) cs = some rb

/-! ## The hash function of the tests -/

/-- The hash function of `hashmap_test.go`: a non-zero multiple of five is hashed to its
predecessor, every other number to itself. -/
def testHash (v : Int) : Int :=
  if v ≠ 0 ∧ v % 5 = 0 then v - 1 else v

/-- The map after `Insert(4, "a")` and `Insert(5, "b")` under `testHash`: both keys hash to `4`,
so the map is one node that holds `5` among its collisions. -/
def collided : rbTree Int String :=
  ⟨some (.real color.black (.sentinel color.black) ⟨4, 4, "a", [(5, "b")]⟩
    (.sentinel color.black)), testHash⟩

/-! ## What a tree stores -/

/-- The payloads of the real nodes of a tree, from left to right. -/
def entries : rbTreeNode K V → List (entry K V)
  | .sentinel _ => []
  | .real _ l e r => entries l ++ e :: entries r

/-- The payloads that lie to the left of a pointed-at node, from left to right. -/
def entriesBefore : List (frame K V) → List (entry K V)
  | [] => []
  | .inLeft _ _ _ :: up => entriesBefore up
  | .inRight _ l e :: up => entriesBefore up ++ (entries l ++ [e])

/-- The payloads that lie to the right of a pointed-at node, from left to right. -/
def entriesAfter : List (frame K V) → List (entry K V)
  | [] => []
  | .inLeft _ e r :: up => e :: entries r ++ entriesAfter up
  | .inRight _ _ _ :: up => entriesAfter up

/-- The payloads stored in a map, from left to right. -/
def rbTree.contents (rb : rbTree K V) : List (entry K V) :=
  match rb.root with
  | none => []
  | some t => entries t

/-- What `Get` reads in one payload: the primary value, or the value among the collisions. -/
def entry.find [DecidableEq K] (e : entry K V) (key : K) : Option V × Bool :=
  if e.key = key then (some e.value, true)
  else
    match mapGet e.collisions key with
    | some v => (some v, true)
    | none => (none, false)

/-- The payload that `Insert` leaves in a node whose hash is the hash of the key. -/
def entry.store [DecidableEq K] (e : entry K V) (key : K) (value : V) : entry K V :=
  if key = e.key then { e with value := value }
  else { e with collisions := mapSet e.collisions key value }

/-- The payload that `Remove` leaves in a node that holds collisions. -/
def entry.drop [DecidableEq K] (e : entry K V) (pick : Nat) (key : K) : entry K V :=
  let e1 := if key = e.key then promote pick e else e
  let key1 := if key = e.key then e1.key else key
  { e1 with collisions := mapDelete e1.collisions key1 }

/-- What `Get` reads in a list of payloads: the first payload with the hash decides. -/
def lookup [DecidableEq K] (es : List (entry K V)) (keyHash : Int) (key : K) : Option V × Bool :=
  match es.find? (fun e => decide (e.keyHash = keyHash)) with
  | some e => e.find key
  | none => (none, false)

/-- The keys stored in a payload: the primary key and the keys of the collisions. -/
def entry.keys (e : entry K V) : List K :=
  e.key :: e.collisions.map Prod.fst

/-! ## The invariants of section 3 of the specification -/

/-- The hashes of the real nodes of a tree. -/
def hashes (t : rbTreeNode K V) : List Int :=
  (entries t).map entry.keyHash

/-- Invariant 4: in every real node, the hashes of the left subtree are smaller and the hashes of
the right subtree are greater than the hash of the node. -/
def hashOrdered : rbTreeNode K V → Prop
  | .sentinel _ => True
  | .real _ l e r =>
    (∀ x ∈ hashes l, x < e.keyHash) ∧ (∀ x ∈ hashes r, e.keyHash < x) ∧
      hashOrdered l ∧ hashOrdered r

/-- The number of black nodes on each path from a node down to a sentinel, the node and the sentinel
included. -/
def blackCounts : rbTreeNode K V → List Nat
  | .sentinel c => [if c = color.black then 1 else 0]
  | .real c l _ r =>
    (blackCounts l ++ blackCounts r).map fun n => if c = color.black then n + 1 else n

/-- A tree and all the subtrees below it. -/
def subtrees : rbTreeNode K V → List (rbTreeNode K V)
  | .sentinel c => [.sentinel c]
  | .real c l e r => .real c l e r :: (subtrees l ++ subtrees r)

/-- Invariant 3: from every node, all paths down to a sentinel count the same number of black
nodes. -/
def equalBlackHeight (t : rbTreeNode K V) : Prop :=
  ∀ s ∈ subtrees t, ∀ a ∈ blackCounts s, ∀ b ∈ blackCounts s, a = b

/-- Invariant 2: no red node has a red child. -/
def noRedRed : rbTreeNode K V → Prop
  | .sentinel _ => True
  | .real c l _ r =>
    (c = color.red → l.colorOf ≠ color.red ∧ r.colorOf ≠ color.red) ∧ noRedRed l ∧ noRedRed r

/-- Invariant 2, read upwards: every node below a red node is not red itself when it is a child of
that node; `parentRed` tells whether the parent of `t` is red. -/
def noRedUnderRed : Bool → rbTreeNode K V → Prop
  | parentRed, .sentinel c => ¬ (parentRed = true ∧ c = color.red)
  | parentRed, .real c l _ r =>
    ¬ (parentRed = true ∧ c = color.red) ∧
      noRedUnderRed (decide (c = color.red)) l ∧ noRedUnderRed (decide (c = color.red)) r

/-- Invariant 5, for one payload: its keys hash to its `keyHash`, its primary key is not a
key of its collisions, and (as in any Go map) no key occurs twice among the collisions. -/
def entry.wellKeyed (h : K → Int) (e : entry K V) : Prop :=
  (∀ k ∈ e.keys, h k = e.keyHash) ∧ e.key ∉ e.collisions.map Prod.fst ∧
    (e.collisions.map Prod.fst).Nodup

/-! ## Red-black shape, for a tree and for the ancestors of a pointer -/

/-- The tree is a red-black tree below a root of the given colour, with the given number of black
real nodes on every path; all its sentinels are black. -/
inductive RB : rbTreeNode K V → color → Nat → Prop
  | leaf : RB (.sentinel color.black) color.black 0
  | red {l r : rbTreeNode K V} {e : entry K V} {n : Nat} :
    RB l color.black n → RB r color.black n → RB (.real color.red l e r) color.red n
  | black {l r : rbTreeNode K V} {e : entry K V} {c1 c2 : color} {n : Nat} :
    RB l c1 n → RB r c2 n → RB (.real color.black l e r) color.black (n + 1)

/-- The ancestors form a red-black tree with a black root once the pointed-at place holds a
red-black tree of the given root colour and black height. -/
inductive RBPath : List (frame K V) → color → Nat → Prop
  | top {n : Nat} : RBPath [] color.black n
  | redLeft {up : List (frame K V)} {e : entry K V} {r : rbTreeNode K V} {n : Nat} :
    RB r color.black n → RBPath up color.red n → RBPath (.inLeft color.red e r :: up) color.black n
  | redRight {up : List (frame K V)} {e : entry K V} {l : rbTreeNode K V} {n : Nat} :
    RB l color.black n → RBPath up color.red n → RBPath (.inRight color.red l e :: up) color.black n
  | blackLeft {up : List (frame K V)} {e : entry K V} {r : rbTreeNode K V} {c c2 : color}
      {n : Nat} :
    RB r c2 n → RBPath up color.black (n + 1) → RBPath (.inLeft color.black e r :: up) c n
  | blackRight {up : List (frame K V)} {e : entry K V} {l : rbTreeNode K V} {c c1 : color}
      {n : Nat} :
    RB l c1 n → RBPath up color.black (n + 1) → RBPath (.inRight color.black l e :: up) c n

/-- The payloads are strictly increasing by hash. -/
def increasing (es : List (entry K V)) : Prop :=
  es.Pairwise fun a b => a.keyHash < b.keyHash

/-- The invariant kept by `Insert` and `Remove`: the root, when there is one, is a real black node
above a red-black tree, and the payloads are increasing by hash and well keyed. -/
def rbTree.valid (h : K → Int) (rb : rbTree K V) : Prop :=
  rb.hashFunc = h ∧
    (∀ t, rb.root = some t → isLeaf t = false ∧ ∃ n, RB t color.black n) ∧
    increasing rb.contents ∧ ∀ e ∈ rb.contents, e.wellKeyed h

/-- The part of `rbTree.valid` that does not look at the keys: the root, when there is one, is a
real black node above a red-black tree, and the payloads are increasing by hash. -/
def rbTree.structured (h : K → Int) (rb : rbTree K V) : Prop :=
  rb.hashFunc = h ∧
    (∀ t, rb.root = some t → isLeaf t = false ∧ ∃ n, RB t color.black n) ∧
    increasing rb.contents

/-! ## Further definitions: the scenario of the specification, changes that keep the links,
the calls made during a repair -/

/-- The map after `Insert(5, "a")` and `Insert(6, "b")` under `testHash`: `5` is hashed to `4` and
`6` to `6`, so the map has two nodes. -/
def afterInserts : rbTree Int String :=
  ⟨some (.real color.black (.sentinel color.black) ⟨4, 5, "a", []⟩
    (.real color.red (.sentinel color.black) ⟨6, 6, "b", []⟩ (.sentinel color.black))), testHash⟩

/-- The map of the scenario after `Remove(5)`: the payload of the node of `6` has moved into the
root. -/
def afterRemoveFive : rbTree Int String :=
  ⟨some (.real color.black (.sentinel color.black) ⟨6, 6, "b", []⟩ (.sentinel color.black)),
    testHash⟩

/-- The map after `Insert(4, "a")` under `testHash`: one node without collisions. -/
def onlyFour : rbTree Int String :=
  ⟨some (.real color.black (.sentinel color.black) ⟨4, 4, "a", []⟩ (.sentinel color.black)),
    testHash⟩

/-- Rewrite the payload of every real node, keeping the links and the colours. -/
def rbTreeNode.mapData (F : entry K V → entry K V) : rbTreeNode K V → rbTreeNode K V
  | .sentinel c => .sentinel c
  | .real c l e r => .real c (l.mapData F) (F e) (r.mapData F)

/-- Rewrite the payload of an ancestor and of the nodes below its other child. -/
def frame.mapData (F : entry K V → entry K V) : frame K V → frame K V
  | .inLeft c e r => .inLeft c (F e) (r.mapData F)
  | .inRight c l e => .inRight c (l.mapData F) (F e)

/-- The two trees have the same links and the same colours; only payloads may differ. -/
def sameShape : rbTreeNode K V → rbTreeNode K V → Prop
  | .sentinel c, .sentinel c2 => c = c2
  | .real c l _ r, .real c2 l2 _ r2 => c = c2 ∧ sameShape l l2 ∧ sameShape r r2
  | .sentinel _, .real _ _ _ _ => False
  | .real _ _ _ _, .sentinel _ => False

/-- Every sentinel of the tree is black, as `&rbTreeNode{}` is. -/
def sentinelsBlack : rbTreeNode K V → Prop
  | .sentinel c => c = color.black
  | .real _ l _ r => sentinelsBlack l ∧ sentinelsBlack r

/-- The tree of `afterInserts`: the node of `5` with the node of `6` as its right child. -/
def afterInsertsTree : rbTreeNode Int String :=
  .real color.black (.sentinel color.black) ⟨4, 5, "a", []⟩
    (.real color.red (.sentinel color.black) ⟨6, 6, "b", []⟩ (.sentinel color.black))

/-- The repair functions of the source, by name. -/
inductive routine where
  | insertCase1
  | insertCase2
  | insertCase3
  | insertCase4
  | insertCase5
  | deleteCase1
  | deleteCase2
  | deleteCase3
  | deleteCase4
  | deleteCase5
  | deleteCase6
  deriving DecidableEq, Repr

/-- Run the named repair function on a node. -/
def routine.run : routine → ptr K V → Option (ptr K V)
  | .insertCase1, p => hashmap.insertCase1 p
  | .insertCase2, ⟨n, f :: up⟩ => hashmap.insertCase2 n f up
  | .insertCase2, ⟨_, []⟩ => none
  | .insertCase3, ⟨n, f :: up⟩ => hashmap.insertCase3 n f up
  | .insertCase3, ⟨n, []⟩ => hashmap.insertCase4 ⟨n, []⟩
  | .insertCase4, p => hashmap.insertCase4 p
  | .insertCase5, p => hashmap.insertCase5 p
  | .deleteCase1, p => hashmap.deleteCase1 p
  | .deleteCase2, ⟨n, f :: up⟩ => hashmap.deleteCase2 n f up
  | .deleteCase2, ⟨_, []⟩ => none
  | .deleteCase3, p => hashmap.deleteCase3 p
  | .deleteCase4, p => hashmap.deleteCase4 p
  | .deleteCase5, p => hashmap.deleteCase5 p
  | .deleteCase6, p => hashmap.deleteCase6 p

/-- The call that the body of the named repair function ends with on a node, when it ends with a
call: the function called and the node passed to it. -/
def routine.next : routine → ptr K V → Option (routine × ptr K V)
  | .insertCase1, ⟨_, []⟩ => none
  | .insertCase1, ⟨n, f :: up⟩ => some (.insertCase2, ⟨n, f :: up⟩)
  | .insertCase2, ⟨n, f :: up⟩ =>
    if f.colorOf = color.black then none else some (.insertCase3, ⟨n, f :: up⟩)
  | .insertCase2, ⟨_, []⟩ => none
  | .insertCase3, ⟨n, f :: g :: up⟩ =>
    if g.sibling.colorOf = color.red then
      some (.insertCase1,
        ⟨((g.paintSibling color.black).paint color.red).plug ((f.paint color.black).plug n), up⟩)
    else some (.insertCase4, ⟨n, f :: g :: up⟩)
  | .insertCase3, ⟨n, [f]⟩ => some (.insertCase4, ⟨n, [f]⟩)
  | .insertCase3, ⟨n, []⟩ => some (.insertCase4, ⟨n, []⟩)
  | .insertCase4, ⟨n, .inRight pc pl pe :: .inLeft gc ge gr :: up⟩ =>
    if isLeaf n then none
    else (rotateLeft ⟨.real pc pl pe n, .inLeft gc ge gr :: up⟩).map fun p => (.insertCase5, p)
  | .insertCase4, ⟨n, .inLeft pc pe pr :: .inRight gc gl ge :: up⟩ =>
    if isLeaf n then none
    else (rotateRight ⟨.real pc n pe pr, .inRight gc gl ge :: up⟩).map fun p => (.insertCase5, p)
  | .insertCase4, ⟨n, .inLeft pc pe pr :: .inLeft gc ge gr :: up⟩ =>
    some (.insertCase5, ⟨n, .inLeft pc pe pr :: .inLeft gc ge gr :: up⟩)
  | .insertCase4, ⟨n, .inRight pc pl pe :: .inRight gc gl ge :: up⟩ =>
    some (.insertCase5, ⟨n, .inRight pc pl pe :: .inRight gc gl ge :: up⟩)
  | .insertCase4, ⟨_, [_]⟩ => none
  | .insertCase4, ⟨_, []⟩ => none
  | .insertCase5, _ => none
  | .deleteCase1, ⟨_, []⟩ => none
  | .deleteCase1, ⟨n, f :: up⟩ => some (.deleteCase2, ⟨n, f :: up⟩)
  | .deleteCase2, ⟨n, f :: up⟩ => (deleteCase2Rotate n f up).map fun p => (.deleteCase3, p)
  | .deleteCase2, ⟨_, []⟩ => none
  | .deleteCase3, ⟨n, f :: up⟩ =>
    if f.colorOf = color.black then
      match siblingFamilyBlack f.sibling with
      | none => none
      | some true => some (.deleteCase1, ⟨(f.paintSibling color.red).plug n, up⟩)
      | some false => some (.deleteCase4, ⟨n, f :: up⟩)
    else some (.deleteCase4, ⟨n, f :: up⟩)
  | .deleteCase3, ⟨_, []⟩ => none
  | .deleteCase4, ⟨n, f :: up⟩ =>
    match (if f.colorOf = color.red then siblingFamilyBlack f.sibling else some false) with
    | none => none
    | some true => none
    | some false => some (.deleteCase5, ⟨n, f :: up⟩)
  | .deleteCase4, ⟨_, []⟩ => none
  | .deleteCase5, ⟨n, .inLeft pc pe s :: up⟩ =>
    if s.colorOf = color.black then
      match s with
      | .sentinel _ => none
      | .real _ sl se sr =>
        if sr.colorOf = color.black ∧ sl.colorOf = color.red then
          (rotateRight ⟨.real color.red (sl.paint color.black) se sr, []⟩).map fun s1 =>
            (.deleteCase6, ⟨n, .inLeft pc pe (crawl s1.node s1.up) :: up⟩)
        else some (.deleteCase6, ⟨n, .inLeft pc pe s :: up⟩)
    else some (.deleteCase6, ⟨n, .inLeft pc pe s :: up⟩)
  | .deleteCase5, ⟨n, .inRight pc s pe :: up⟩ =>
    if s.colorOf = color.black then
      match s with
      | .sentinel _ => none
      | .real _ sl se sr =>
        if sr.colorOf = color.red ∧ sl.colorOf = color.black then
          (rotateLeft ⟨.real color.red sl se (sr.paint color.black), []⟩).map fun s1 =>
            (.deleteCase6, ⟨n, .inRight pc (crawl s1.node s1.up) pe :: up⟩)
        else some (.deleteCase6, ⟨n, .inRight pc s pe :: up⟩)
    else some (.deleteCase6, ⟨n, .inRight pc s pe :: up⟩)
  | .deleteCase5, ⟨_, []⟩ => none
  | .deleteCase6, _ => none

/-- The calls made, directly or through other calls, when the named function runs on a node. -/
inductive reaches : routine × ptr K V → routine × ptr K V → Prop
  | here (c : routine × ptr K V) : reaches c c
  | call {f g : routine} {p q : ptr K V} {c : routine × ptr K V} :
    f.next p = some (g, q) → reaches (g, q) c → reaches (f, p) c

/-- The node that `Insert` passes to `insertCase1`: the new child, as the root or under the parent
found; `none` when `Insert` does not get there. -/
def insertStart [DecidableEq K] (rb : rbTree K V) (key : K) (value : V) : Option (ptr K V) :=
  let child : rbTreeNode K V :=
    .real color.red (.sentinel color.black) ⟨rb.hashFunc key, key, value, []⟩
      (.sentinel color.black)
  match rb.root with
  | none => some ⟨child, []⟩
  | some root =>
    match findInsertionParent root [] (rb.hashFunc key) with
    | some (⟨.real c l e _, up⟩, matchPosition.greater) => some ⟨child, .inRight c l e :: up⟩
    | some (⟨.real c _ e r, up⟩, matchPosition.lower) => some ⟨child, .inLeft c e r :: up⟩
    | _ => none

/-- The node that `Remove` passes to `deleteCase1`: the child that took the place of a black
replacement node; `none` when `Remove` does not get there. -/
def removeStart [DecidableEq K] (rb : rbTree K V) (key : K) : Option (ptr K V) :=
  match rb.root with
  | none => none
  | some root =>
    match findByKeyHash root [] key (rb.hashFunc key) with
    | some (some ⟨.real c l e r, up⟩) =>
      if e.collisions.length > 0 then none
      else
        match (getReplacementNode (.real c l e r)).bind copyNodeValue with
        | some ⟨.real rc rl _ rr, rel⟩ =>
          if rc = color.red then none
          else if (if isLeaf rr then rl else rr).colorOf = color.red then none
          else some ⟨if isLeaf rr then rl else rr, rel ++ up⟩
        | _ => none
    | _ => none

/-- The map after `Insert(1, "a")` and `Insert(2, "b")` under `testHash`. -/
def oneTwo : rbTree Int String :=
  ⟨some (.real color.black (.sentinel color.black) ⟨1, 1, "a", []⟩
    (.real color.red (.sentinel color.black) ⟨2, 2, "b", []⟩ (.sentinel color.black))), testHash⟩

/-- The map after `Insert(1, "a")`, `Insert(2, "b")`, `Insert(3, "c")` and `Insert(4, "d")` under
`testHash`. -/
def oneToFour : rbTree Int String :=
  ⟨some (.real color.black
    (.real color.black (.sentinel color.black) ⟨1, 1, "a", []⟩ (.sentinel color.black))
    ⟨2, 2, "b", []⟩
    (.real color.black (.sentinel color.black) ⟨3, 3, "c", []⟩
      (.real color.red (.sentinel color.black) ⟨4, 4, "d", []⟩ (.sentinel color.black)))),
    testHash⟩

/-- The node that `Insert(3, "c")` passes to `insertCase1` on `oneTwo`: the new red node, as the
right child of the node of `2`. -/
def oneTwoStart : ptr Int String :=
  ⟨.real color.red (.sentinel color.black) ⟨3, 3, "c", []⟩ (.sentinel color.black),
    [.inRight color.red (.sentinel color.black) ⟨2, 2, "b", []⟩,
      .inRight color.black (.sentinel color.black) ⟨1, 1, "a", []⟩]⟩

/-- The node that `Remove(1)` passes to `deleteCase1` on `oneToFour`: the sentinel that took the
place of the node of `1`. -/
def oneToFourStart : ptr Int String :=
  ⟨.sentinel color.black,
    [.inLeft color.black ⟨2, 2, "b", []⟩
      (.real color.black (.sentinel color.black) ⟨3, 3, "c", []⟩
        (.real color.red (.sentinel color.black) ⟨4, 4, "d", []⟩ (.sentinel color.black)))]⟩

/-! ## Rotations on nodes in memory

The functions `rotateLeft` and `rotateRight` once more, this time on nodes that live at addresses
and hold the addresses of their parent and children, to state what they do to the `parent`
links.  The payload of a node (`keyHash`, `key`, `value`, `collisions`) is one value of a
type `D`; the rotations never read or write it. -/

namespace cells

variable {D : Type}

/-- An `rbTreeNode` in memory; `none` is the `nil` pointer. -/
structure cell (D : Type) where
  color : color
  data : D
  parent : Option Nat
  left : Option Nat
  right : Option Nat

/-- The memory: what is stored at each address. -/
def memory (D : Type) : Type :=
  Nat → Option (cell D)

/-- Store a node at an address. -/
def memory.store (m : memory D) (a : Nat) (c : cell D) : memory D :=
  fun b => if b = a then some c else m b

/-- The assignment `a.parent = v`; `none` when `a` is not the address of a node. -/
def setParent (m : memory D) (a : Nat) (v : Option Nat) : Option (memory D) :=
  (m a).map fun c => m.store a { c with parent := v }

/-- The assignment `a.left = v`. -/
def setLeft (m : memory D) (a : Nat) (v : Option Nat) : Option (memory D) :=
  (m a).map fun c => m.store a { c with left := v }

/-- The assignment `a.right = v`. -/
def setRight (m : memory D) (a : Nat) (v : Option Nat) : Option (memory D) :=
  (m a).map fun c => m.store a { c with right := v }

/-- The function `isLeaf` of the source on a pointer; `none` when the pointer is `nil`. -/
def isLeaf (m : memory D) (node : Option Nat) : Option Bool :=
  node.bind fun a => (m a).map fun c =>
    c.left.isNone && c.right.isNone && decide (c.color = color.black)

/-- The function `rotateLeft` of the source, statement by statement. -/
def rotateLeft (m : memory D) (root : Nat) : Option (memory D) := do
  let pivot := (← m root).right
  if (← isLeaf m pivot) then
    return m
  let rootParent := (← m root).parent
  let m1 ←
    match rootParent with
    | some rp => do
      if (← m rp).left = some root then setLeft m rp pivot
      else if (← m rp).right = some root then setRight m rp pivot
      else pure m
    | none => pure m
  let pivotLeftChild := (← m1 (← (← m1 root).right)).left
  let m2 ← setParent m1 (← pivot) rootParent
  let m3 ← setParent m2 root pivot
  let m4 ← setLeft m3 (← pivot) (some root)
  let m5 ← setRight m4 root pivotLeftChild
  setParent m5 (← pivotLeftChild) (some root)

/-- The function `rotateRight` of the source, statement by statement. -/
def rotateRight (m : memory D) (root : Nat) : Option (memory D) := do
  let pivot := (← m root).left
  if (← isLeaf m (← m root).left) then
    return m
  let rootParent := (← m root).parent
  let m1 ←
    match rootParent with
    | some rp => do
      if (← m rp).right = some root then setRight m rp pivot
      else if (← m rp).left = some root then setLeft m rp pivot
      else pure m
    | none => pure m
  let pivotRightChild := (← m1 (← (← m1 root).left)).right
  let m2 ← setParent m1 (← pivot) (← m1 root).parent
  let m3 ← setParent m2 root pivot
  let m4 ← setRight m3 (← pivot) (some root)
  let m5 ← setLeft m4 root pivotRightChild
  setParent m5 (← pivotRightChild) (some root)

/-- What `rotateLeft` does to the child links of the parent of the rotated node: the link that
holds `old` is set to `new`, `left` being looked at first. -/
def cell.replaceChild (old new : Nat) (c : cell D) : cell D :=
  if c.left = some old then { c with left := some new }
  else if c.right = some old then { c with right := some new }
  else c

/-- A tree laid out in memory: the address of every node, and for a real node its colour, its
payload and the layouts of its children. -/
inductive layout (D : Type) where
  | sentinel (addr : Nat)
  | real (addr : Nat) (color : color) (left : layout D) (data : D) (right : layout D)

/-- The address of the top node. -/
def layout.addr : layout D → Nat
  | .sentinel a => a
  | .real a _ _ _ _ => a

/-- The addresses of all nodes, sentinels included. -/
def layout.addrs : layout D → List Nat
  | .sentinel a => [a]
  | .real a _ l _ r => a :: (l.addrs ++ r.addrs)

/-- The addresses of the real nodes. -/
def layout.realAddrs : layout D → List Nat
  | .sentinel _ => []
  | .real a _ l _ r => a :: (l.realAddrs ++ r.realAddrs)

/-- The real nodes from left to right: address, colour and payload. -/
def layout.inorder : layout D → List (Nat × color × D)
  | .sentinel _ => []
  | .real a c l d r => l.inorder ++ (a, c, d) :: r.inorder

/-- The memory holds the tree: a sentinel is a black node without children; a real node has the
colour and payload of the layout, its `left` and `right` are the addresses of its children, which
the memory holds in turn, and its `parent` is the given pointer, so that the `parent` link of
every real child is the node whose child link points at it. -/
def holds (m : memory D) : Option Nat → layout D → Prop
  | _, .sentinel a =>
    ∃ c, m a = some c ∧ c.color = color.black ∧ c.left = none ∧ c.right = none
  | par, .real a col l d r =>
    m a = some ⟨col, d, par, some l.addr, some r.addr⟩ ∧ holds m (some a) l ∧ holds m (some a) r

/-- The tree after a left rotation of the real node at address `x`: its right child, when real,
takes its place, with the node as left child and the former left child of the pivot as the right
child of the node. -/
def layout.rotateLeftAt (x : Nat) : layout D → layout D
  | .sentinel a => .sentinel a
  | .real a c l d r =>
    if a = x then
      match r with
      | .real p pc pl pd pr => .real p pc (.real a c l d pl) pd pr
      | .sentinel ra => .real a c l d (.sentinel ra)
    else .real a c (l.rotateLeftAt x) d (r.rotateLeftAt x)

/-- The tree after a right rotation of the real node at address `x`. -/
def layout.rotateRightAt (x : Nat) : layout D → layout D
  | .sentinel a => .sentinel a
  | .real a c l d r =>
    if a = x then
      match l with
      | .real p pc pl pd pr => .real p pc pl pd (.real a c pr d r)
      | .sentinel la => .real a c (.sentinel la) d r
    else .real a c (l.rotateRightAt x) d (r.rotateRightAt x)

/-- The subtree whose top node is at address `x`. -/
def layout.find (x : Nat) : layout D → Option (layout D)
  | .sentinel a => if a = x then some (.sentinel a) else none
  | .real a c l d r =>
    if a = x then some (.real a c l d r)
    else (l.find x).orElse fun _ => r.find x

/-- A memory with two real nodes, the black node `"a"` at address 0 and its red right child
`"b"` at address 2, and their three sentinels at the addresses 1, 3 and 4. -/
def exampleMemory : memory String := fun a =>
  match a with
  | 0 => some ⟨color.black, "a", none, some 1, some 2⟩
  | 1 => some ⟨color.black, "", none, none, none⟩
  | 2 => some ⟨color.red, "b", some 0, some 3, some 4⟩
  | 3 => some ⟨color.black, "", none, none, none⟩
  | 4 => some ⟨color.black, "", none, none, none⟩
  | _ => none

/-- The tree that `exampleMemory` holds. -/
def exampleLayout : layout String :=
  .real 0 color.black (.sentinel 1) "a" (.real 2 color.red (.sentinel 3) "b" (.sentinel 4))

/-- The tree that a layout of payloads stands for: the addresses are forgotten, a sentinel is the
black node without children. -/
def layout.erase : layout (entry K V) → rbTreeNode K V
  | .sentinel _ => .sentinel color.black
  | .real _ c l d r => .real c l.erase d r.erase

/-- The pointer to the real node at address `x`, below the ancestors `up`: the tree under the
node and the chain of its ancestors, nearest first. -/
def layout.locate (x : Nat) : layout (entry K V) → List (frame K V) → Option (ptr K V)
  | .sentinel _, _ => none
  | .real a c l d r, up =>
    if a = x then some ⟨(layout.real a c l d r).erase, up⟩
    else (l.locate x (.inLeft c d r.erase :: up)).orElse
      fun _ => r.locate x (.inRight c l.erase d :: up)

end cells

/-! ## The operations on keys of any dynamic type

The keys of the map are values of type `interface{}`.  The definitions above compare keys with an
equality, which is what Go's `==` and Go's maps do on keys such as integers and strings.  Here
`Insert`, `Get` and `Remove` are given once more with what the Go runtime does on every key: a
comparison `a == b` can be false although `a` and `b` are the same value (a NaN of type
`float64`), and it panics when both values have the same uncomparable dynamic type (a slice); a map
operation panics on a key that cannot be hashed.  The functions that do not compare keys
(`findInsertionParent`, `insertCase1`, `findByKeyHash`, `deleteCase1`, ...) are the ones above. -/

/-- The key of a call. -/
def call.key : call K V → K
  | .insert key _ => key
  | .remove key _ => key

namespace anykey

/-- What the Go runtime does with the keys. -/
structure keyOps (K : Type) where
  /-- The comparison `a == b` of two `interface{}` values; `none` when it panics. -/
  eq : K → K → Option Bool
  /-- Whether `m[k]`, `m[k] = v` and `delete(m, k)` run without a panic on the key `k`. -/
  hashable : K → Bool

/-- The lookup `m[key]` with its presence flag; `none` when it panics.  An entry is found when its
key is `==` to `key`. -/
def mapGet (ops : keyOps K) (m : List (K × V)) (key : K) : Option (Option V) :=
  if ops.hashable key then
    some ((m.find? fun p => ops.eq p.1 key == some true).map Prod.snd)
  else none

/-- The statement `delete(m, key)`; `none` when it panics. -/
def mapDelete (ops : keyOps K) (m : List (K × V)) (key : K) : Option (List (K × V)) :=
  if ops.hashable key then some (m.filter fun p => !(ops.eq p.1 key == some true))
  else none

/-- The assignment `m[key] = value`; `none` when it panics. -/
def mapSet (ops : keyOps K) (m : List (K × V)) (key : K) (value : V) :
    Option (List (K × V)) :=
  (mapDelete ops m key).map fun m1 => (key, value) :: m1

/-- The method `Insert`. -/
def Insert (ops : keyOps K) (rb : rbTree K V) (key : K) (value : V) : Option (rbTree K V) :=
  let keyHash := rb.hashFunc key
  let child : rbTreeNode K V :=
    .real color.red (.sentinel color.black) ⟨keyHash, key, value, []⟩ (.sentinel color.black)
  match rb.root with
  | none =>
    (insertCase1 ⟨child, []⟩).map fun p => rb.setRoot (some (crawl p.node p.up))
  | some root =>
    match findInsertionParent root [] keyHash with
    | none => none
    | some (⟨.sentinel _, _⟩, _) => none
    | some (⟨.real c l e _, up⟩, matchPosition.greater) =>
      (insertCase1 ⟨child, .inRight c l e :: up⟩).map fun p =>
        rb.setRoot (some (crawl p.node p.up))
    | some (⟨.real c _ e r, up⟩, matchPosition.lower) =>
      (insertCase1 ⟨child, .inLeft c e r :: up⟩).map fun p =>
        rb.setRoot (some (crawl p.node p.up))
    | some (⟨.real c l e r, up⟩, matchPosition.same) =>
      match ops.eq key e.key with
      | none => none
      | some true =>
        some (rb.setRoot (some (crawl (.real c l { e with value := value } r) up)))
      | some false =>
        (mapSet ops e.collisions key value).map fun m =>
          rb.setRoot (some (crawl (.real c l { e with collisions := m } r) up))

/-- The method `Get`: the value (`none` is `nil`) and the flag `found`. -/
def Get (ops : keyOps K) (rb : rbTree K V) (key : K) : Option (Option V × Bool) :=
  match rb.root with
  | none => some (none, false)
  | some root =>
    match findByKeyHash root [] key (rb.hashFunc key) with
    | none => none
    | some none => some (none, false)
    | some (some ⟨.sentinel _, _⟩) => none
    | some (some ⟨.real _ _ e _, _⟩) =>
      match ops.eq e.key key with
      | none => none
      | some true => some (some e.value, true)
      | some false =>
        match mapGet ops e.collisions key with
        | none => none
        | some (some v) => some (some v, true)
        | some none => some (none, false)

/-- The method `Remove`: the map afterwards and the boolean result. -/
def Remove (ops : keyOps K) (rb : rbTree K V) (pick : Nat) (key : K) :
    Option (rbTree K V × Bool) :=
  match rb.root with
  | none => some (rb, true)
  | some root =>
    match findByKeyHash root [] key (rb.hashFunc key) with
    | none => none
    | some none => some (rb, true)
    | some (some ⟨.sentinel _, _⟩) => none
    | some (some ⟨.real c l e r, up⟩) =>
      if e.collisions.length > 0 then
        match ops.eq key e.key with
        | none => none
        | some b =>
          let e1 := if b then promote pick e else e
          let key1 := if b then e1.key else key
          (mapDelete ops e1.collisions key1).map fun m =>
            (rb.setRoot (some (crawl (.real c l { e1 with collisions := m } r) up)), true)
      else
        match (getReplacementNode (.real c l e r)).bind copyNodeValue with
        | none => none
        | some ⟨.sentinel _, _⟩ => none
        | some ⟨.real rc rl re rr, rel⟩ =>
          let replacementNodeChild := if isLeaf rr then rl else rr
          if rc = color.red then
            -- `rb.root` is not reassigned: it still points at the node it pointed at
            match rel ++ up with
            | [] => some (rb.setRoot (some (.real rc rl re rr)), true)
            | f :: rest => some (rb.setRoot (some (crawl replacementNodeChild (f :: rest))), true)
          else if replacementNodeChild.colorOf = color.red then
            match rel ++ up with
            | [] =>
              some (rb.setRoot (some (if isLeaf rr then .real rc (rl.paint color.black) re rr
                else .real rc rl re (rr.paint color.black))), true)
            | f :: rest =>
              some (rb.setRoot (some (crawl (replacementNodeChild.paint color.black) (f :: rest))),
                true)
          else
            (deleteCase1 ⟨replacementNodeChild, rel ++ up⟩).map fun p =>
              let top := crawl p.node p.up
              (rb.setRoot (if isLeaf top then none else some top), true)

/-- Perform one call. -/
def perform (ops : keyOps K) (rb : rbTree K V) : call K V → Option (rbTree K V)
  | .insert key value => Insert ops rb key value
  | .remove key pick => (Remove ops rb pick key).map Prod.fst

/-- Perform the calls of a list from left to right. -/
def performAll (ops : keyOps K) (rb : rbTree K V) : List (call K V) → Option (rbTree K V)
  | [] => some rb
  | c :: cs => (perform ops rb c).bind fun rb1 => performAll ops rb1 cs

/-- The maps reachable from `New(h)` by a sequence of `Insert` and `Remove` calls that return. -/
def Reachable (ops : keyOps K) (h : K → Int) (rb : rbTree K V) : Prop :=
  ∃ cs : List (call K V), performAll ops (New h) cs = some rb

/-- The payload that `Insert` leaves in a node whose hash is the hash of the key; `none` when the
comparison or the map assignment panics. -/
def store (ops : keyOps K) (e : entry K V) (key : K) (value : V) : Option (entry K V) :=
  match ops.eq key e.key with
  | none => none
  | some true => some { e with value := value }
  | some false => (mapSet ops e.collisions key value).map fun m => { e with collisions := m }

/-- What `Get` reads in one payload. -/
def find (ops : keyOps K) (e : entry K V) (key : K) : Option (Option V × Bool) :=
  match ops.eq e.key key with
  | none => none
  | some true => some (some e.value, true)
  | some false =>
    match mapGet ops e.collisions key with
    | none => none
    | some (some v) => some (some v, true)
    | some none => some (none, false)

/-- The payload that `Remove` leaves in a node that holds collisions. -/
def drop (ops : keyOps K) (e : entry K V) (pick : Nat) (key : K) : Option (entry K V) :=
  match ops.eq key e.key with
  | none => none
  | some b =>
    let e1 := if b then promote pick e else e
    let key1 := if b then e1.key else key
    (mapDelete ops e1.collisions key1).map fun m => { e1 with collisions := m }

/-- A key `k` with `k == k`: it can be hashed, its comparison with any key does not panic, and it
is `==` to itself only (two values that are `==` are one key). -/
def regular [DecidableEq K] (ops : keyOps K) (k : K) : Prop :=
  ops.hashable k = true ∧
    ∀ x, ops.eq k x = some (decide (k = x)) ∧ ops.eq x k = some (decide (x = k))

/-- A comparable key: it can be hashed and its comparison with any key does not panic. -/
def comparable (ops : keyOps K) (k : K) : Prop :=
  ops.hashable k = true ∧ ∀ x, ops.eq k x ≠ none ∧ ops.eq x k ≠ none

/-- The invariant kept by `Insert` and `Remove` on keys of any kind: the structure of the tree,
and keys among the collisions that can be hashed (they were stored by a map assignment). -/
def sound (ops : keyOps K) (h : K → Int) (rb : rbTree K V) : Prop :=
  rb.structured h ∧ ∀ e ∈ rb.contents, ∀ p ∈ e.collisions, ops.hashable p.1 = true

/-- The keys on which `==` is equality: every key is regular. -/
def identityOps [DecidableEq K] : keyOps K :=
  ⟨fun a b => some (decide (a = b)), fun _ => true⟩

/-- Three kinds of Go values used as keys: an `int`, a NaN of type `float64`, and a slice. -/
inductive goValue where
  | int (n : Int)
  | nan
  | slice
  deriving DecidableEq, Repr

/-- Go's `==` on these values: two integers are compared, a NaN is not `==` to itself, comparing
two slices panics, values of different dynamic types are not `==`; a slice cannot be hashed. -/
def goValue.ops : keyOps goValue :=
  ⟨fun a b =>
    match a, b with
    | .int m, .int n => some (decide (m = n))
    | .slice, .slice => none
    | _, _ => some false,
   fun a =>
    match a with
    | .slice => false
    | _ => true⟩

/-- A hash function that sends every key to the same hash. -/
def zeroHash : goValue → Int :=
  fun _ => 0

/-- The map after `Insert(NaN, "a")` under `zeroHash`: one node whose key is the NaN. -/
def nanOnly : rbTree goValue String :=
  ⟨some (.real color.black (.sentinel color.black) ⟨0, .nan, "a", []⟩ (.sentinel color.black)),
    zeroHash⟩

/-- The map after `Insert(s, "a")` under `zeroHash`, for a slice `s`: one node whose key is the
slice. -/
def sliceOnly : rbTree goValue String :=
  ⟨some (.real color.black (.sentinel color.black) ⟨0, .slice, "a", []⟩ (.sentinel color.black)),
    zeroHash⟩

/-- The map after `Insert(1, "a")` and `Insert(NaN, "b")` under `zeroHash`: one node with the
primary key `1` that holds the NaN among its collisions. -/
def nanCollided : rbTree goValue String :=
  ⟨some (.real color.black (.sentinel color.black) ⟨0, .int 1, "a", [(.nan, "b")]⟩
    (.sentinel color.black)), zeroHash⟩

/-- The payload of the node of `nanCollided`. -/
def nanCollidedEntry : entry goValue String :=
  ⟨0, .int 1, "a", [(.nan, "b")]⟩

/-- The tree of `nanCollided`. -/
def nanCollidedTree : rbTreeNode goValue String :=
  .real color.black (.sentinel color.black) nanCollidedEntry (.sentinel color.black)

/-- What `Remove(1)` leaves of `nanCollided`: the NaN is the primary key and is still a key of the
collisions. -/
def nanPromoted : rbTree goValue String :=
  ⟨some (.real color.black (.sentinel color.black) ⟨0, .nan, "b", [(.nan, "b")]⟩
    (.sentinel color.black)), zeroHash⟩

/-- The node that `Insert(6, "e")` passes to `insertCase1` on `oneToFour`: the new red node, as
the right child of the red node of `4`. -/
def oneToFourInsertStart : ptr Int String :=
  ⟨.real color.red (.sentinel color.black) ⟨6, 6, "e", []⟩ (.sentinel color.black),
    [.inRight color.red (.sentinel color.black) ⟨4, 4, "d", []⟩,
      .inRight color.black (.sentinel color.black) ⟨3, 3, "c", []⟩,
      .inRight color.black
        (.real color.black (.sentinel color.black) ⟨1, 1, "a", []⟩ (.sentinel color.black))
        ⟨2, 2, "b", []⟩]⟩

end anykey

/-! ## The payloads of a tree under pointer moves, recolouring and rotation -/

@[simp] theorem entries_paint (c : color) (t : rbTreeNode K V) : entries (t.paint c) = entries t := by
  cases t <;> rfl

theorem entries_crawl (t : rbTreeNode K V) (up : List (frame K V)) :
    entries (crawl t up) = entriesBefore up ++ entries t ++ entriesAfter up := by
  induction up generalizing t with
  | nil => simp [crawl, entriesBefore, entriesAfter]
  | cons f up ih =>
    cases f <;> simp [crawl, frame.plug, ih, entries, entriesBefore, entriesAfter]

theorem crawl_append (t : rbTreeNode K V) (rel up : List (frame K V)) :
    crawl t (rel ++ up) = crawl (crawl t rel) up := by
  induction rel generalizing t with
  | nil => rfl
  | cons f rel ih => simp [crawl, ih]

theorem getSibling_cons (n : rbTreeNode K V) (f : frame K V) (up : List (frame K V)) :
    getSibling ⟨n, f :: up⟩ = some f.sibling := rfl

theorem getUncle_cons (n : rbTreeNode K V) (f g : frame K V) (up : List (frame K V)) :
    getUncle ⟨n, f :: g :: up⟩ = some g.sibling := rfl

theorem getGrandparent_cons (n : rbTreeNode K V) (f g : frame K V) (up : List (frame K V)) :
    getGrandparent ⟨n, f :: g :: up⟩ = some ⟨g.plug (f.plug n), up⟩ := rfl

theorem rotateLeft_entries {p q : ptr K V} (h : rotateLeft p = some q) :
    entries (crawl q.node q.up) = entries (crawl p.node p.up) := by
  rcases p with ⟨n, up⟩
  cases n with
  | sentinel c => simp [rotateLeft] at h
  | real c l e r =>
    cases r with
    | sentinel rc =>
      by_cases hc : rc = color.black <;> simp [rotateLeft, isLeaf, hc] at h
      subst h; subst hc; rfl
    | real rc rl re rr =>
      simp [rotateLeft, isLeaf] at h
      subst h
      simp [entries_crawl, entries, entriesBefore, entriesAfter]

theorem rotateRight_entries {p q : ptr K V} (h : rotateRight p = some q) :
    entries (crawl q.node q.up) = entries (crawl p.node p.up) := by
  rcases p with ⟨n, up⟩
  cases n with
  | sentinel c => simp [rotateRight] at h
  | real c l e r =>
    cases l with
    | sentinel rc =>
      by_cases hc : rc = color.black <;> simp [rotateRight, isLeaf, hc] at h
      subst h; subst hc; rfl
    | real rc rl re rr =>
      simp [rotateRight, isLeaf] at h
      subst h
      simp [entries_crawl, entries, entriesBefore, entriesAfter]

theorem insertCase5_entries {p q : ptr K V} (h : insertCase5 p = some q) :
    entries (crawl q.node q.up) = entries (crawl p.node p.up) := by
  rcases p with ⟨n, up⟩
  match up, h with
  | f :: g :: up, h =>
    cases f <;> cases g <;> simp only [insertCase5] at h
    all_goals
      first
      | rw [rotateRight_entries h]
      | rw [rotateLeft_entries h]
    all_goals
      simp [entries_crawl, entries, entriesBefore, entriesAfter, frame.plug, frame.paint]
  | [_], h => simp [insertCase5] at h
  | [], h => simp [insertCase5] at h

theorem insertCase4_entries {p q : ptr K V} (h : insertCase4 p = some q) :
    entries (crawl q.node q.up) = entries (crawl p.node p.up) := by
  rcases p with ⟨n, up⟩
  match up, h with
  | [], h => simp [insertCase4] at h
  | [_], h => simp [insertCase4] at h
  | .inRight pc pl pe :: .inLeft gc ge gr :: up, h =>
    simp only [insertCase4] at h
    split at h
    · cases h
    · rcases Option.bind_eq_some.mp h with ⟨m, hm, hq⟩
      rw [insertCase5_entries hq, rotateLeft_entries hm]
      simp [entries_crawl, entries, entriesBefore, entriesAfter]
  | .inLeft pc pe pr :: .inRight gc gl ge :: up, h =>
    simp only [insertCase4] at h
    split at h
    · cases h
    · rcases Option.bind_eq_some.mp h with ⟨m, hm, hq⟩
      rw [insertCase5_entries hq, rotateRight_entries hm]
      simp [entries_crawl, entries, entriesBefore, entriesAfter]
  | .inLeft pc pe pr :: .inLeft gc ge gr :: up, h =>
    simp only [insertCase4] at h
    exact insertCase5_entries h
  | .inRight pc pl pe :: .inRight gc gl ge :: up, h =>
    simp only [insertCase4] at h
    exact insertCase5_entries h

theorem insertCase1_entries (p q : ptr K V) (h : insertCase1 p = some q) :
    entries (crawl q.node q.up) = entries (crawl p.node p.up) := by
  rcases p with ⟨n, up⟩
  obtain ⟨len, hlen⟩ : ∃ len, up.length = len := ⟨_, rfl⟩
  induction len using Nat.strong_induction_on generalizing n up q with
  | _ len ih =>
    match up, h with
    | [], h =>
      simp [insertCase1] at h
      subst h
      simp [crawl]
    | f :: up, h =>
      rw [insertCase1, insertCase2] at h
      split at h
      · cases h; rfl
      · match up, h with
        | [], h =>
          rw [insertCase3] at h
          exact insertCase4_entries h
        | g :: up2, h =>
          rw [insertCase3] at h
          split at h
          · rw [ih up2.length (by simp at hlen; omega) _ _ _ h rfl]
            cases f <;> cases g <;>
              simp [entries_crawl, entries, entriesBefore, entriesAfter, frame.plug, frame.paint,
                frame.paintSibling]
          · exact insertCase4_entries h

theorem deleteCase6_entries {p q : ptr K V} (h : deleteCase6 p = some q) :
    entries (crawl q.node q.up) = entries (crawl p.node p.up) := by
  rcases p with ⟨n, up⟩
  match up, h with
  | [], h => simp [deleteCase6] at h
  | .inLeft pc pe (.sentinel sc) :: up, h => simp [deleteCase6] at h
  | .inRight pc (.sentinel sc) pe :: up, h => simp [deleteCase6] at h
  | .inLeft pc pe (.real sc sl se sr) :: up, h =>
    simp only [deleteCase6] at h
    rw [rotateLeft_entries h]
    simp [entries_crawl, entries, entriesBefore, entriesAfter]
  | .inRight pc (.real sc sl se sr) pe :: up, h =>
    simp only [deleteCase6] at h
    rw [rotateRight_entries h]
    simp [entries_crawl, entries, entriesBefore, entriesAfter]

theorem deleteCase5_entries {p q : ptr K V} (h : deleteCase5 p = some q) :
    entries (crawl q.node q.up) = entries (crawl p.node p.up) := by
  rcases p with ⟨n, up⟩
  match up, h with
  | [], h => simp [deleteCase5] at h
  | .inLeft pc pe s :: up, h =>
    simp only [deleteCase5] at h
    split at h
    · cases s with
      | sentinel sc => simp at h
      | real sc sl se sr =>
        simp only at h
        split at h
        · rcases Option.bind_eq_some.mp h with ⟨m, hm, hq⟩
          rw [deleteCase6_entries hq]
          have hr := rotateRight_entries hm
          generalize crawl m.node m.up = T at hr ⊢
          simp [crawl, entries] at hr
          simp [entries_crawl, entries, entriesBefore, entriesAfter, hr]
        · exact deleteCase6_entries h
    · exact deleteCase6_entries h
  | .inRight pc s pe :: up, h =>
    simp only [deleteCase5] at h
    split at h
    · cases s with
      | sentinel sc => simp at h
      | real sc sl se sr =>
        simp only at h
        split at h
        · rcases Option.bind_eq_some.mp h with ⟨m, hm, hq⟩
          rw [deleteCase6_entries hq]
          have hr := rotateLeft_entries hm
          generalize crawl m.node m.up = T at hr ⊢
          simp [crawl, entries] at hr
          simp [entries_crawl, entries, entriesBefore, entriesAfter, hr]
        · exact deleteCase6_entries h
    · exact deleteCase6_entries h

theorem deleteCase4_entries {p q : ptr K V} (h : deleteCase4 p = some q) :
    entries (crawl q.node q.up) = entries (crawl p.node p.up) := by
  rcases p with ⟨n, up⟩
  match up, h with
  | [], h => simp [deleteCase4] at h
  | f :: up, h =>
    simp only [deleteCase4] at h
    split at h
    · cases h
    · cases h
      cases f <;>
        simp [entries_crawl, entriesBefore, entriesAfter, frame.paint, frame.paintSibling]
    · exact deleteCase5_entries h

theorem deleteCase2Rotate_entries {n : rbTreeNode K V} {f : frame K V} {up : List (frame K V)}
    {q : ptr K V} (h : deleteCase2Rotate n f up = some q) :
    entries (crawl q.node q.up) = entries (crawl n (f :: up)) := by
  unfold deleteCase2Rotate at h
  split at h
  · cases f with
    | inLeft pc pe s =>
      rcases Option.bind_eq_some.mp h with ⟨m, hm, hq⟩
      have hr := rotateLeft_entries hm
      rcases m with ⟨mn, mup⟩
      cases mn with
      | sentinel c => simp [ptr.goLeft] at hq
      | real c l e r =>
        simp [ptr.goLeft] at hq
        subst hq
        simp [entries_crawl, entries, entriesBefore, entriesAfter] at hr ⊢
        simpa using hr
    | inRight pc s pe =>
      rcases Option.bind_eq_some.mp h with ⟨m, hm, hq⟩
      have hr := rotateRight_entries hm
      rcases m with ⟨mn, mup⟩
      cases mn with
      | sentinel c => simp [ptr.goRight] at hq
      | real c l e r =>
        simp [ptr.goRight] at hq
        subst hq
        simp [entries_crawl, entries, entriesBefore, entriesAfter] at hr ⊢
        simpa using hr
  · cases h; rfl

theorem deleteCase2Rotate_cases {n : rbTreeNode K V} {f : frame K V} {up : List (frame K V)}
    {q : ptr K V} (h : deleteCase2Rotate n f up = some q) :
    q = ⟨n, f :: up⟩ ∨ ∃ g rest, q.up = g :: rest ∧ g.colorOf = color.red := by
  unfold deleteCase2Rotate at h
  split at h
  · right
    cases f with
    | inLeft pc pe s =>
      cases s <;>
      · simp [rotateLeft, isLeaf, rbTreeNode.paint, ptr.goLeft] at h
        subst h
        simp [frame.colorOf]
    | inRight pc s pe =>
      cases s <;>
      · simp [rotateRight, isLeaf, rbTreeNode.paint, ptr.goRight] at h
        subst h
        simp [frame.colorOf]
  · left
    cases h; rfl

theorem deleteCase3_red {n : rbTreeNode K V} {g : frame K V} {rest : List (frame K V)}
    (hg : g.colorOf = color.red) :
    deleteCase3 ⟨n, g :: rest⟩ = deleteCase4 ⟨n, g :: rest⟩ := by
  rw [deleteCase3]
  simp [hg]

theorem deleteCase1_entries (p q : ptr K V) (h : deleteCase1 p = some q) :
    entries (crawl q.node q.up) = entries (crawl p.node p.up) := by
  rcases p with ⟨n, up⟩
  induction up generalizing n q with
  | nil =>
    simp [deleteCase1] at h
    subst h; rfl
  | cons f up ih =>
    rw [deleteCase1, deleteCase2] at h
    split at h
    · cases h
    · rename_i m hm
      have hrot := deleteCase2Rotate_entries hm
      rcases deleteCase2Rotate_cases hm with hsame | ⟨g, rest, hup, hg⟩
      · subst hsame
        rw [deleteCase3] at h
        split at h
        · split at h
          · cases h
          · rw [ih _ _ h]
            cases f <;> simp [entries_crawl, entries, entriesBefore, entriesAfter,
              frame.plug, frame.paintSibling]
          · exact deleteCase4_entries h
        · exact deleteCase4_entries h
      · rcases m with ⟨mn, mup⟩
        simp only at hup
        subst hup
        rw [deleteCase3_red hg] at h
        rw [deleteCase4_entries h, hrot]

/-! ## Red-black shape: filling and opening a chain of ancestors -/

theorem RB.colorOf_eq {t : rbTreeNode K V} {c : color} {n : Nat} (h : RB t c n) :
    t.colorOf = c := by
  cases h <;> rfl

theorem RB.isLeaf_iff {t : rbTreeNode K V} {c : color} {n : Nat} (h : RB t c n) :
    isLeaf t = true ↔ t = .sentinel color.black := by
  cases h <;> simp [isLeaf]

theorem RB.real_of_pos {t : rbTreeNode K V} {c : color} {n : Nat} (h : RB t c (n + 1)) :
    ∃ tc l e r, t = .real tc l e r := by
  cases h <;> exact ⟨_, _, _, _, rfl⟩

theorem RB.real_of_red {t : rbTreeNode K V} {n : Nat} (h : RB t color.red n) :
    ∃ l e r, t = .real color.red l e r ∧ RB l color.black n ∧ RB r color.black n := by
  cases h with
  | red hl hr => exact ⟨_, _, _, rfl, hl, hr⟩

theorem RBPath.weaken {up : List (frame K V)} {c : color} {n : Nat} (h : RBPath up c n) :
    RBPath up color.black n := by
  cases h with
  | top => exact .top
  | redLeft hr hup => exact .redLeft hr hup
  | redRight hl hup => exact .redRight hl hup
  | blackLeft hr hup => exact .blackLeft hr hup
  | blackRight hl hup => exact .blackRight hl hup

theorem RBPath.fill {up : List (frame K V)} {c : color} {n : Nat} {t : rbTreeNode K V}
    (hup : RBPath up c n) (ht : RB t c n) : ∃ m, RB (crawl t up) color.black m := by
  induction up generalizing t c n with
  | nil =>
    cases hup
    exact ⟨_, ht⟩
  | cons f up ih =>
    cases hup with
    | redLeft hr hup => exact ih hup (RB.red ht hr)
    | redRight hl hup => exact ih hup (RB.red hl ht)
    | blackLeft hr hup => exact ih hup (RB.black ht hr)
    | blackRight hl hup => exact ih hup (RB.black hl ht)

theorem RBPath.fill_black {up : List (frame K V)} {c : color} {n : Nat} {t : rbTreeNode K V}
    (hup : RBPath up c n) (ht : RB t color.black n) : ∃ m, RB (crawl t up) color.black m :=
  hup.weaken.fill ht

theorem RB.open {up : List (frame K V)} {t : rbTreeNode K V} {m : Nat}
    (h : RB (crawl t up) color.black m) : ∃ c n, RB t c n ∧ RBPath up c n := by
  induction up generalizing t with
  | nil => exact ⟨_, _, h, .top⟩
  | cons f up ih =>
    obtain ⟨c, n, hf, hup⟩ := ih (t := f.plug t) h
    cases f with
    | inLeft pc pe pr =>
      cases hf with
      | red hl hr => exact ⟨_, _, hl, .redLeft hr hup⟩
      | black hl hr => exact ⟨_, _, hl, .blackLeft hr hup⟩
    | inRight pc pl pe =>
      cases hf with
      | red hl hr => exact ⟨_, _, hr, .redRight hl hup⟩
      | black hl hr => exact ⟨_, _, hr, .blackRight hl hup⟩

theorem crawl_cons_real (t : rbTreeNode K V) (f : frame K V) (up : List (frame K V)) :
    ∃ c l e r, crawl t (f :: up) = .real c l e r := by
  induction up generalizing t f with
  | nil => cases f <;> exact ⟨_, _, _, _, rfl⟩
  | cons g up ih => exact ih (f.plug t) g

theorem crawl_real (c : color) (l : rbTreeNode K V) (e : entry K V) (r : rbTreeNode K V)
    (up : List (frame K V)) : ∃ c2 l2 e2 r2, crawl (.real c l e r) up = .real c2 l2 e2 r2 := by
  cases up with
  | nil => exact ⟨_, _, _, _, rfl⟩
  | cons f up => exact crawl_cons_real _ f up

/-! ## Red-black shape: the insertion repair -/

theorem insertCase1_RB (n : rbTreeNode K V) (up : List (frame K V)) (k : Nat)
    (hn : RB n color.red k) (hup : RBPath up color.black k) :
    ∃ q, insertCase1 ⟨n, up⟩ = some q ∧ ∃ m, RB (crawl q.node q.up) color.black m := by
  obtain ⟨len, hlen⟩ : ∃ len, up.length = len := ⟨_, rfl⟩
  induction len using Nat.strong_induction_on generalizing n up k with
  | _ len ih =>
    obtain ⟨nl, ne, nr, rfl, hnl, hnr⟩ := hn.real_of_red
    cases hup with
    | top =>
      rw [insertCase1]
      exact ⟨_, rfl, _, RB.black hnl hnr⟩
    | blackLeft hr hup =>
      simp only [insertCase1, insertCase2, frame.colorOf, if_true]
      exact ⟨_, rfl, (RBPath.blackLeft hr hup).fill hn⟩
    | blackRight hl hup =>
      simp only [insertCase1, insertCase2, frame.colorOf, if_true]
      exact ⟨_, rfl, (RBPath.blackRight hl hup).fill hn⟩
    | redLeft hr hup =>
      cases hup with
      | blackLeft hu hup2 =>
        rename_i up2 ge u uc
        cases uc with
        | red =>
          obtain ⟨ul, ue, ur, rfl, hul, hur⟩ := hu.real_of_red
          simp [insertCase1, insertCase2, insertCase3, frame.colorOf, frame.sibling,
            rbTreeNode.colorOf]
          simp at hlen
          exact ih up2.length (by omega) _ _ (k + 1)
            (RB.red (RB.black hn hr) (RB.black hul hur)) hup2 rfl
        | black =>
          have huc := hu.colorOf_eq
          simp [insertCase1, insertCase2, insertCase3, insertCase4, insertCase5, frame.colorOf,
            frame.sibling, huc, rotateRight, rotateLeft, isLeaf, frame.plug, frame.paint, crawl]
          exact hup2.fill (RB.black hn (RB.red hr hu))
      | blackRight hu hup2 =>
        rename_i up2 ge u uc
        cases uc with
        | red =>
          obtain ⟨ul, ue, ur, rfl, hul, hur⟩ := hu.real_of_red
          simp [insertCase1, insertCase2, insertCase3, frame.colorOf, frame.sibling,
            rbTreeNode.colorOf]
          simp at hlen
          exact ih up2.length (by omega) _ _ (k + 1)
            (RB.red (RB.black hul hur) (RB.black hn hr)) hup2 rfl
        | black =>
          have huc := hu.colorOf_eq
          simp [insertCase1, insertCase2, insertCase3, insertCase4, insertCase5, frame.colorOf,
            frame.sibling, huc, rotateRight, rotateLeft, isLeaf, frame.plug, frame.paint, crawl]
          exact hup2.fill (RB.black (RB.red hu hnl) (RB.red hnr hr))
    | redRight hl hup =>
      cases hup with
      | blackLeft hu hup2 =>
        rename_i up2 ge u uc
        cases uc with
        | red =>
          obtain ⟨ul, ue, ur, rfl, hul, hur⟩ := hu.real_of_red
          simp [insertCase1, insertCase2, insertCase3, frame.colorOf, frame.sibling,
            rbTreeNode.colorOf]
          simp at hlen
          exact ih up2.length (by omega) _ _ (k + 1)
            (RB.red (RB.black hl hn) (RB.black hul hur)) hup2 rfl
        | black =>
          have huc := hu.colorOf_eq
          simp [insertCase1, insertCase2, insertCase3, insertCase4, insertCase5, frame.colorOf,
            frame.sibling, huc, rotateRight, rotateLeft, isLeaf, frame.plug, frame.paint, crawl]
          exact hup2.fill (RB.black (RB.red hl hnl) (RB.red hnr hu))
      | blackRight hu hup2 =>
        rename_i up2 ge u uc
        cases uc with
        | red =>
          obtain ⟨ul, ue, ur, rfl, hul, hur⟩ := hu.real_of_red
          simp [insertCase1, insertCase2, insertCase3, frame.colorOf, frame.sibling,
            rbTreeNode.colorOf]
          simp at hlen
          exact ih up2.length (by omega) _ _ (k + 1)
            (RB.red (RB.black hul hur) (RB.black hl hn)) hup2 rfl
        | black =>
          have huc := hu.colorOf_eq
          simp [insertCase1, insertCase2, insertCase3, insertCase4, insertCase5, frame.colorOf,
            frame.sibling, huc, rotateRight, rotateLeft, isLeaf, frame.plug, frame.paint, crawl]
          exact hup2.fill (RB.black (RB.red hu hl) hn)

/-! ## Red-black shape: the deletion repair -/

theorem deleteCase4_RB_left (n : rbTreeNode K V) (pc : color) (pe : entry K V)
    (sl sr : rbTreeNode K V) (se : entry K V) (up : List (frame K V)) (k : Nat) (c1 c2 : color)
    (hn : RB n color.black k) (hsl : RB sl c1 k) (hsr : RB sr c2 k)
    (hup : (pc = color.red ∧ RBPath up color.red (k + 1)) ∨
      (pc = color.black ∧ RBPath up color.black (k + 2) ∧ ¬ (c1 = color.black ∧ c2 = color.black))) :
    ∃ q, deleteCase4 ⟨n, .inLeft pc pe (.real color.black sl se sr) :: up⟩ = some q ∧
      ∃ m, RB (crawl q.node q.up) color.black m := by
  have h1 := hsl.colorOf_eq
  have h2 := hsr.colorOf_eq
  rcases hup with ⟨rfl, hup⟩ | ⟨rfl, hup, hnot⟩
  · cases hsl <;> cases hsr <;>
      simp [deleteCase4, deleteCase5, deleteCase6, siblingFamilyBlack, frame.colorOf,
        frame.sibling, frame.paint, frame.paintSibling, rbTreeNode.colorOf, rbTreeNode.paint,
        rotateLeft, rotateRight, isLeaf, crawl, frame.plug] <;>
      (first
        | (refine hup.fill ?_; apply RB.red)
        | (refine hup.fill_black ?_; apply RB.black)) <;>
      repeat (first | assumption | constructor)
  · cases hsl <;> cases hsr <;>
      simp [deleteCase4, deleteCase5, deleteCase6, siblingFamilyBlack, frame.colorOf,
        frame.sibling, frame.paint, frame.paintSibling, rbTreeNode.colorOf, rbTreeNode.paint,
        rotateLeft, rotateRight, isLeaf, crawl, frame.plug] at hnot ⊢ <;>
      (refine hup.fill ?_; apply RB.black) <;>
      repeat (first | assumption | constructor)

theorem deleteCase4_RB_right (n : rbTreeNode K V) (pc : color) (pe : entry K V)
    (sl sr : rbTreeNode K V) (se : entry K V) (up : List (frame K V)) (k : Nat) (c1 c2 : color)
    (hn : RB n color.black k) (hsl : RB sl c1 k) (hsr : RB sr c2 k)
    (hup : (pc = color.red ∧ RBPath up color.red (k + 1)) ∨
      (pc = color.black ∧ RBPath up color.black (k + 2) ∧ ¬ (c1 = color.black ∧ c2 = color.black))) :
    ∃ q, deleteCase4 ⟨n, .inRight pc (.real color.black sl se sr) pe :: up⟩ = some q ∧
      ∃ m, RB (crawl q.node q.up) color.black m := by
  have h1 := hsl.colorOf_eq
  have h2 := hsr.colorOf_eq
  rcases hup with ⟨rfl, hup⟩ | ⟨rfl, hup, hnot⟩
  · cases hsl <;> cases hsr <;>
      simp [deleteCase4, deleteCase5, deleteCase6, siblingFamilyBlack, frame.colorOf,
        frame.sibling, frame.paint, frame.paintSibling, rbTreeNode.colorOf, rbTreeNode.paint,
        rotateLeft, rotateRight, isLeaf, crawl, frame.plug] <;>
      (first
        | (refine hup.fill ?_; apply RB.red)
        | (refine hup.fill_black ?_; apply RB.black)) <;>
      repeat (first | assumption | constructor)
  · cases hsl <;> cases hsr <;>
      simp [deleteCase4, deleteCase5, deleteCase6, siblingFamilyBlack, frame.colorOf,
        frame.sibling, frame.paint, frame.paintSibling, rbTreeNode.colorOf, rbTreeNode.paint,
        rotateLeft, rotateRight, isLeaf, crawl, frame.plug] at hnot ⊢ <;>
      (refine hup.fill ?_; apply RB.black) <;>
      repeat (first | assumption | constructor)

theorem deleteCase2_unfold_black (n : rbTreeNode K V) (f : frame K V) (up : List (frame K V))
    (hs : f.sibling.colorOf = color.black) :
    deleteCase2 n f up = deleteCase3 ⟨n, f :: up⟩ := by
  rw [deleteCase2]
  have h : deleteCase2Rotate n f up = some ⟨n, f :: up⟩ := by
    simp [deleteCase2Rotate, hs]
  split
  · rename_i h2
    rw [h] at h2
    cases h2
  · rename_i p h2
    rw [h] at h2
    cases h2
    rfl

theorem deleteCase2_unfold_left (n : rbTreeNode K V) (pc : color) (pe : entry K V)
    (sl sr : rbTreeNode K V) (se : entry K V) (up : List (frame K V)) :
    deleteCase2 n (.inLeft pc pe (.real color.red sl se sr)) up =
      deleteCase4 ⟨n, .inLeft color.red pe sl :: .inLeft color.black se sr :: up⟩ := by
  rw [deleteCase2]
  have h : deleteCase2Rotate n (.inLeft pc pe (.real color.red sl se sr)) up =
      some ⟨n, .inLeft color.red pe sl :: .inLeft color.black se sr :: up⟩ := by
    simp [deleteCase2Rotate, frame.sibling, rbTreeNode.colorOf, rotateLeft, isLeaf,
      rbTreeNode.paint, ptr.goLeft]
  split
  · rename_i h2
    rw [h] at h2
    cases h2
  · rename_i p h2
    rw [h] at h2
    cases h2
    exact deleteCase3_red rfl

theorem deleteCase2_unfold_right (n : rbTreeNode K V) (pc : color) (pe : entry K V)
    (sl sr : rbTreeNode K V) (se : entry K V) (up : List (frame K V)) :
    deleteCase2 n (.inRight pc (.real color.red sl se sr) pe) up =
      deleteCase4 ⟨n, .inRight color.red sr pe :: .inRight color.black sl se :: up⟩ := by
  rw [deleteCase2]
  have h : deleteCase2Rotate n (.inRight pc (.real color.red sl se sr) pe) up =
      some ⟨n, .inRight color.red sr pe :: .inRight color.black sl se :: up⟩ := by
    simp [deleteCase2Rotate, frame.sibling, rbTreeNode.colorOf, rotateRight, isLeaf,
      rbTreeNode.paint, ptr.goRight]
  split
  · rename_i h2
    rw [h] at h2
    cases h2
  · rename_i p h2
    rw [h] at h2
    cases h2
    exact deleteCase3_red rfl

theorem deleteCase1_RB (n : rbTreeNode K V) (up : List (frame K V)) (k : Nat)
    (hn : RB n color.black k) (hup : RBPath up color.black (k + 1)) :
    ∃ q, deleteCase1 ⟨n, up⟩ = some q ∧ ∃ m, RB (crawl q.node q.up) color.black m := by
  induction up generalizing n k with
  | nil =>
    rw [deleteCase1]
    exact ⟨_, rfl, _, hn⟩
  | cons f up ih =>
    rw [deleteCase1]
    cases hup with
    | redLeft hs hup =>
      cases hs with
      | black hsl hsr =>
        rw [deleteCase2_unfold_black _ _ _ (by simp [frame.sibling, rbTreeNode.colorOf]),
          deleteCase3_red (by simp [frame.colorOf])]
        exact deleteCase4_RB_left _ _ _ _ _ _ _ _ _ _ hn hsl hsr (Or.inl ⟨rfl, hup⟩)
    | redRight hs hup =>
      cases hs with
      | black hsl hsr =>
        rw [deleteCase2_unfold_black _ _ _ (by simp [frame.sibling, rbTreeNode.colorOf]),
          deleteCase3_red (by simp [frame.colorOf])]
        exact deleteCase4_RB_right _ _ _ _ _ _ _ _ _ _ hn hsl hsr (Or.inl ⟨rfl, hup⟩)
    | blackLeft hs hup =>
      cases hs with
      | red hsl hsr =>
        rw [deleteCase2_unfold_left]
        cases hsl with
        | black hsll hslr =>
          exact deleteCase4_RB_left _ _ _ _ _ _ _ _ _ _ hn hsll hslr
            (Or.inl ⟨rfl, .blackLeft hsr hup⟩)
      | black hsl hsr =>
        rename_i pe sl sr se c1 c2
        rw [deleteCase2_unfold_black _ _ _ (by simp [frame.sibling, rbTreeNode.colorOf])]
        by_cases hb : c1 = color.black ∧ c2 = color.black
        · rw [deleteCase3]
          simp [frame.colorOf, frame.sibling, siblingFamilyBlack, hsl.colorOf_eq,
            hsr.colorOf_eq, hb.1, hb.2, frame.paintSibling, frame.plug, rbTreeNode.paint]
          obtain ⟨rfl, rfl⟩ := hb
          exact ih _ (k + 1) (RB.black hn (RB.red hsl hsr)) hup
        · have h3 : deleteCase3 ⟨n, .inLeft color.black pe (.real color.black sl se sr) :: up⟩ =
              deleteCase4 ⟨n, .inLeft color.black pe (.real color.black sl se sr) :: up⟩ := by
            rw [deleteCase3]
            have hb2 : ¬ (sl.colorOf = color.black ∧ sr.colorOf = color.black) := by
              rw [hsl.colorOf_eq, hsr.colorOf_eq]; exact hb
            have hb3 : (decide (sl.colorOf = color.black) && decide (sr.colorOf = color.black))
                = false := by
              simpa using hb2
            simp [frame.colorOf, frame.sibling, siblingFamilyBlack, hb3]
          rw [h3]
          exact deleteCase4_RB_left _ _ _ _ _ _ _ _ _ _ hn hsl hsr (Or.inr ⟨rfl, hup, hb⟩)
    | blackRight hs hup =>
      cases hs with
      | red hsl hsr =>
        rw [deleteCase2_unfold_right]
        cases hsr with
        | black hsrl hsrr =>
          exact deleteCase4_RB_right _ _ _ _ _ _ _ _ _ _ hn hsrl hsrr
            (Or.inl ⟨rfl, .blackRight hsl hup⟩)
      | black hsl hsr =>
        rename_i pe sl sr se c1 c2
        rw [deleteCase2_unfold_black _ _ _ (by simp [frame.sibling, rbTreeNode.colorOf])]
        by_cases hb : c1 = color.black ∧ c2 = color.black
        · rw [deleteCase3]
          simp [frame.colorOf, frame.sibling, siblingFamilyBlack, hsl.colorOf_eq,
            hsr.colorOf_eq, hb.1, hb.2, frame.paintSibling, frame.plug, rbTreeNode.paint]
          obtain ⟨rfl, rfl⟩ := hb
          exact ih _ (k + 1) (RB.black (RB.red hsl hsr) hn) hup
        · have h3 : deleteCase3 ⟨n, .inRight color.black (.real color.black sl se sr) pe :: up⟩ =
              deleteCase4 ⟨n, .inRight color.black (.real color.black sl se sr) pe :: up⟩ := by
            rw [deleteCase3]
            have hb2 : ¬ (sl.colorOf = color.black ∧ sr.colorOf = color.black) := by
              rw [hsl.colorOf_eq, hsr.colorOf_eq]; exact hb
            have hb3 : (decide (sl.colorOf = color.black) && decide (sr.colorOf = color.black))
                = false := by
              simpa using hb2
            simp [frame.colorOf, frame.sibling, siblingFamilyBlack, hb3]
          rw [h3]
          exact deleteCase4_RB_right _ _ _ _ _ _ _ _ _ _ hn hsl hsr (Or.inr ⟨rfl, hup, hb⟩)

/-! ## Searching an ordered tree -/

theorem RB.sentinel_black_of_isLeaf {t : rbTreeNode K V} (h : isLeaf t = true) :
    t = .sentinel color.black := by
  cases t with
  | sentinel c => simp [isLeaf] at h; rw [h]
  | real c l e r => simp [isLeaf] at h

theorem RB.real_of_not_isLeaf {t : rbTreeNode K V} {c : color} {n : Nat} (h : RB t c n)
    (hl : isLeaf t = false) : ∃ tc l e r, t = .real tc l e r := by
  cases h with
  | leaf => simp [isLeaf] at hl
  | red _ _ => exact ⟨_, _, _, _, rfl⟩
  | black _ _ => exact ⟨_, _, _, _, rfl⟩

theorem RB.children {tc c : color} {l r : rbTreeNode K V} {e : entry K V} {n : Nat}
    (h : RB (.real tc l e r) c n) : (∃ c1 n1, RB l c1 n1) ∧ ∃ c2 n2, RB r c2 n2 := by
  cases h with
  | red hl hr => exact ⟨⟨_, _, hl⟩, ⟨_, _, hr⟩⟩
  | black hl hr => exact ⟨⟨_, _, hl⟩, ⟨_, _, hr⟩⟩

theorem increasing_append {xs ys : List (entry K V)} :
    increasing (xs ++ ys) ↔
      increasing xs ∧ increasing ys ∧ ∀ x ∈ xs, ∀ y ∈ ys, x.keyHash < y.keyHash := by
  unfold increasing
  exact List.pairwise_append

theorem increasing_cons {x : entry K V} {ys : List (entry K V)} :
    increasing (x :: ys) ↔ (∀ y ∈ ys, x.keyHash < y.keyHash) ∧ increasing ys := by
  unfold increasing
  exact List.pairwise_cons

theorem findInsertionParent_spec (t : rbTreeNode K V) (up : List (frame K V)) (keyHash : Int)
    (c0 : color) (n0 : Nat) (ht : RB t c0 n0) (hreal : isLeaf t = false)
    (hinc : increasing (entries t))
    (hlo : ∀ x ∈ entriesBefore up, x.keyHash < keyHash)
    (hhi : ∀ y ∈ entriesAfter up, keyHash < y.keyHash) :
    ∃ c l e r up2, crawl (.real c l e r) up2 = crawl t up ∧
      ((findInsertionParent t up keyHash = some (⟨.real c l e r, up2⟩, matchPosition.greater) ∧
          r = .sentinel color.black ∧
          (∀ x ∈ entriesBefore (.inRight c l e :: up2), x.keyHash < keyHash) ∧
          (∀ y ∈ entriesAfter up2, keyHash < y.keyHash)) ∨
        (findInsertionParent t up keyHash = some (⟨.real c l e r, up2⟩, matchPosition.lower) ∧
          l = .sentinel color.black ∧
          (∀ x ∈ entriesBefore up2, x.keyHash < keyHash) ∧
          (∀ y ∈ entriesAfter (.inLeft c e r :: up2), keyHash < y.keyHash)) ∨
        (findInsertionParent t up keyHash = some (⟨.real c l e r, up2⟩, matchPosition.same) ∧
          e.keyHash = keyHash)) := by
  induction t generalizing up c0 n0 with
  | sentinel c => cases ht; simp [isLeaf] at hreal
  | real c l e r ihl ihr =>
    obtain ⟨⟨c1, n1, hl⟩, ⟨c2, n2, hr⟩⟩ := ht.children
    simp only [entries] at hinc
    rw [increasing_append, increasing_cons] at hinc
    obtain ⟨hincl, ⟨her, hincr⟩, hle⟩ := hinc
    rw [findInsertionParent]
    by_cases hgt : keyHash > e.keyHash
    · simp only [hgt, if_true]
      have hlo2 : ∀ x ∈ entriesBefore (.inRight c l e :: up), x.keyHash < keyHash := by
        intro x hx
        have hx2 : x ∈ entriesBefore up ∨ x ∈ entries l ∨ x = e := by
          simpa [entriesBefore] using hx
        rcases hx2 with hx | hx | hx
        · exact hlo x hx
        · have := hle x hx e (List.mem_cons_self _ _)
          omega
        · subst hx; exact hgt
      by_cases hleaf : isLeaf r = true
      · simp only [hleaf, if_true]
        have hr2 := RB.sentinel_black_of_isLeaf hleaf
        exact ⟨c, l, e, r, up, rfl, Or.inl ⟨rfl, hr2, hlo2, hhi⟩⟩
      · simp only [hleaf]
        have hleaf2 : isLeaf r = false := by simpa using hleaf
        obtain ⟨c', l', e', r', up2, hcr, hres⟩ :=
          ihr (.inRight c l e :: up) c2 n2 hr hleaf2 hincr hlo2 (by simpa [entriesAfter] using hhi)
        exact ⟨c', l', e', r', up2, by rw [hcr]; rfl, hres⟩
    · simp only [hgt, if_false]
      by_cases hlt : keyHash < e.keyHash
      · simp only [hlt, if_true]
        have hhi2 : ∀ y ∈ entriesAfter (.inLeft c e r :: up), keyHash < y.keyHash := by
          intro y hy
          have hy2 : y = e ∨ y ∈ entries r ∨ y ∈ entriesAfter up := by
            simpa [entriesAfter] using hy
          rcases hy2 with hy | hy | hy
          · subst hy; exact hlt
          · have := her y hy
            omega
          · exact hhi y hy
        by_cases hleaf : isLeaf l = true
        · simp only [hleaf, if_true]
          have hl2 := RB.sentinel_black_of_isLeaf hleaf
          exact ⟨c, l, e, r, up, rfl, Or.inr (Or.inl ⟨rfl, hl2, hlo, hhi2⟩)⟩
        · simp only [hleaf]
          have hleaf2 : isLeaf l = false := by simpa using hleaf
          obtain ⟨c', l', e', r', up2, hcr, hres⟩ :=
            ihl (.inLeft c e r :: up) c1 n1 hl hleaf2 hincl
              (by simpa [entriesBefore] using hlo) hhi2
          exact ⟨c', l', e', r', up2, by rw [hcr]; rfl, hres⟩
      · simp only [hlt, if_false]
        exact ⟨c, l, e, r, up, rfl, Or.inr (Or.inr ⟨rfl, by omega⟩)⟩

theorem findByKeyHash_spec (t : rbTreeNode K V) (up : List (frame K V)) (key : K) (keyHash : Int)
    (c0 : color) (n0 : Nat) (ht : RB t c0 n0) (hreal : isLeaf t = false)
    (hinc : increasing (entries t)) :
    (∃ c l e r up2, findByKeyHash t up key keyHash = some (some ⟨.real c l e r, up2⟩) ∧
        e.keyHash = keyHash ∧ crawl (.real c l e r) up2 = crawl t up ∧ e ∈ entries t) ∨
      (findByKeyHash t up key keyHash = some none ∧ ∀ x ∈ entries t, x.keyHash ≠ keyHash) := by
  induction t generalizing up c0 n0 with
  | sentinel c => cases ht; simp [isLeaf] at hreal
  | real c l e r ihl ihr =>
    obtain ⟨⟨c1, n1, hl⟩, ⟨c2, n2, hr⟩⟩ := ht.children
    simp only [entries] at hinc
    rw [increasing_append, increasing_cons] at hinc
    obtain ⟨hincl, ⟨her, hincr⟩, hle⟩ := hinc
    have hlt_l : ∀ x ∈ entries l, x.keyHash < e.keyHash := fun x hx =>
      hle x hx e (List.mem_cons_self _ _)
    rw [findByKeyHash]
    by_cases hgt : keyHash > e.keyHash
    · by_cases hleaf : isLeaf r = true
      · have hr2 := RB.sentinel_black_of_isLeaf hleaf
        subst hr2
        right
        have h1 : ¬ keyHash < e.keyHash := by omega
        have h2 : ¬ keyHash = e.keyHash := by omega
        simp only [hgt, hleaf, h1, h2, not_true, and_false, false_and, if_false, entries]
        refine ⟨trivial, ?_⟩
        intro x hx
        simp only [List.mem_append, List.mem_cons, List.not_mem_nil, or_false] at hx
        rcases hx with hx | hx
        · have := hlt_l x hx; omega
        · subst hx; omega
      · have hleaf2 : isLeaf r = false := by simpa using hleaf
        simp only [hgt, hleaf2, true_and, Bool.false_eq_true, not_false_eq_true, if_true]
        rcases ihr (.inRight c l e :: up) c2 n2 hr hleaf2 hincr with
          ⟨c', l', e', r', up2, hf, hk, hcr, hmem⟩ | ⟨hf, hnone⟩
        · left
          exact ⟨c', l', e', r', up2, hf, hk, by rw [hcr]; rfl, by simp [entries, hmem]⟩
        · right
          refine ⟨hf, ?_⟩
          intro x hx
          simp only [entries, List.mem_append, List.mem_cons] at hx
          rcases hx with hx | hx | hx
          · have := hlt_l x hx; omega
          · subst hx; omega
          · exact hnone x hx
    · by_cases hlt : keyHash < e.keyHash
      · by_cases hleaf : isLeaf l = true
        · have hl2 := RB.sentinel_black_of_isLeaf hleaf
          subst hl2
          right
          have h2 : ¬ keyHash = e.keyHash := by omega
          simp only [hgt, hlt, hleaf, h2, not_true, and_false, false_and, if_false, entries]
          refine ⟨trivial, ?_⟩
          intro x hx
          simp only [List.nil_append, List.mem_cons] at hx
          rcases hx with hx | hx
          · subst hx; omega
          · have := her x hx; omega
        · have hleaf2 : isLeaf l = false := by simpa using hleaf
          simp only [hgt, hlt, hleaf2, true_and, false_and, Bool.false_eq_true,
            not_false_eq_true, if_true, if_false]
          rcases ihl (.inLeft c e r :: up) c1 n1 hl hleaf2 hincl with
            ⟨c', l', e', r', up2, hf, hk, hcr, hmem⟩ | ⟨hf, hnone⟩
          · left
            exact ⟨c', l', e', r', up2, hf, hk, by rw [hcr]; rfl, by simp [entries, hmem]⟩
          · right
            refine ⟨hf, ?_⟩
            intro x hx
            simp only [entries, List.mem_append, List.mem_cons] at hx
            rcases hx with hx | hx | hx
            · exact hnone x hx
            · subst hx; omega
            · have := her x hx; omega
      · have heq : keyHash = e.keyHash := by omega
        left
        simp only [hgt, hlt, heq, false_and, if_false, if_true]
        exact ⟨c, l, e, r, up, by simp, rfl, rfl, by simp [entries]⟩

/-! ## The replacement node -/

theorem isLeaf_sentinel (c : color) :
    isLeaf (rbTreeNode.sentinel c : rbTreeNode K V) = decide (c = color.black) := rfl

theorem isLeaf_real (c : color) (l : rbTreeNode K V) (e : entry K V) (r : rbTreeNode K V) :
    isLeaf (rbTreeNode.real c l e r) = false := rfl

theorem entriesBefore_append (a b : List (frame K V)) :
    entriesBefore (a ++ b) = entriesBefore b ++ entriesBefore a := by
  induction a with
  | nil => simp [entriesBefore]
  | cons f a ih => cases f <;> simp [entriesBefore, ih]

theorem entriesAfter_append (a b : List (frame K V)) :
    entriesAfter (a ++ b) = entriesAfter a ++ entriesAfter b := by
  induction a with
  | nil => simp [entriesAfter]
  | cons f a ih => cases f <;> simp [entriesAfter, ih]

theorem setLastData_append_singleton (d : entry K V) (rel : List (frame K V)) (f : frame K V) :
    setLastData d (rel ++ [f]) = rel ++ [f.setData d] := by
  induction rel with
  | nil => rfl
  | cons g rel ih =>
    cases rel with
    | nil => rfl
    | cons g2 rel =>
      have hstep : setLastData d (g :: g2 :: (rel ++ [f]))
          = g :: setLastData d (g2 :: (rel ++ [f])) := rfl
      simp only [List.cons_append] at ih ⊢
      rw [hstep, ih]

theorem RBPath.setLastData {rel up : List (frame K V)} {c : color} {n : Nat} (d : entry K V)
    (h : RBPath (rel ++ up) c n) : RBPath (setLastData d rel ++ up) c n := by
  induction rel generalizing c n with
  | nil => exact h
  | cons f rel ih =>
    cases rel with
    | nil =>
      cases h with
      | redLeft hr hup => exact .redLeft hr hup
      | redRight hl hup => exact .redRight hl hup
      | blackLeft hr hup => exact .blackLeft hr hup
      | blackRight hl hup => exact .blackRight hl hup
    | cons g rel =>
      cases h with
      | redLeft hr hup => exact .redLeft hr (ih hup)
      | redRight hl hup => exact .redRight hl (ih hup)
      | blackLeft hr hup => exact .blackLeft hr (ih hup)
      | blackRight hl hup => exact .blackRight hl (ih hup)

theorem getLeftmostNode_spec (t : rbTreeNode K V) (up : List (frame K V)) (c0 : color) (n0 : Nat)
    (ht : RB t c0 n0) (hreal : isLeaf t = false) :
    ∃ rc re rr lefts,
      getLeftmostNode t up = some ⟨.real rc (.sentinel color.black) re rr, lefts ++ up⟩ ∧
      crawl (.real rc (.sentinel color.black) re rr) lefts = t ∧ entriesBefore lefts = [] := by
  induction t generalizing up c0 n0 with
  | sentinel c => cases ht; simp [isLeaf] at hreal
  | real c l e r ihl _ =>
    obtain ⟨⟨c1, n1, hl⟩, _⟩ := ht.children
    rw [getLeftmostNode]
    by_cases hleaf : isLeaf l = true
    · have := RB.sentinel_black_of_isLeaf hleaf
      subst this
      exact ⟨c, e, r, [], by simp [isLeaf], rfl, rfl⟩
    · have hleaf2 : isLeaf l = false := by simpa using hleaf
      obtain ⟨rc, re, rr, lefts, hf, hcr, hb⟩ := ihl (.inLeft c e r :: up) c1 n1 hl hleaf2
      refine ⟨rc, re, rr, lefts ++ [.inLeft c e r], ?_, ?_, ?_⟩
      · simp [hleaf2, hf]
      · rw [crawl_append, hcr]; rfl
      · simp [entriesBefore_append, hb, entriesBefore]

theorem getRightmostNode_spec (t : rbTreeNode K V) (up : List (frame K V)) (c0 : color) (n0 : Nat)
    (ht : RB t c0 n0) (hreal : isLeaf t = false) :
    ∃ rc rl re rights,
      getRightmostNode t up = some ⟨.real rc rl re (.sentinel color.black), rights ++ up⟩ ∧
      crawl (.real rc rl re (.sentinel color.black)) rights = t ∧ entriesAfter rights = [] := by
  induction t generalizing up c0 n0 with
  | sentinel c => cases ht; simp [isLeaf] at hreal
  | real c l e r _ ihr =>
    obtain ⟨_, ⟨c2, n2, hr⟩⟩ := ht.children
    rw [getRightmostNode]
    by_cases hleaf : isLeaf r = true
    · have := RB.sentinel_black_of_isLeaf hleaf
      subst this
      exact ⟨c, l, e, [], by simp [isLeaf], rfl, rfl⟩
    · have hleaf2 : isLeaf r = false := by simpa using hleaf
      obtain ⟨rc, rl, re, rights, hf, hcr, hb⟩ := ihr (.inRight c l e :: up) c2 n2 hr hleaf2
      refine ⟨rc, rl, re, rights ++ [.inRight c l e], ?_, ?_, ?_⟩
      · simp [hleaf2, hf]
      · rw [crawl_append, hcr]; rfl
      · simp [entriesAfter_append, hb, entriesAfter]

/-- The replacement node with the payload copied: where it is, what it leaves behind once its
child takes its place, and that one of its children is a sentinel. -/
theorem replacement_spec (c : color) (l : rbTreeNode K V) (e : entry K V) (r : rbTreeNode K V)
    (c0 : color) (n0 : Nat) (ht : RB (.real c l e r) c0 n0) :
    ∃ rc rl re rr rel rel2,
      getReplacementNode (.real c l e r) = some ⟨.real rc rl re rr, rel⟩ ∧
      ((getReplacementNode (.real c l e r)).bind copyNodeValue
        = some ⟨.real rc rl re rr, rel2⟩) ∧
      rel2 = setLastData re rel ∧
      crawl (.real rc rl re rr) rel = .real c l e r ∧
      (rl = .sentinel color.black ∨ rr = .sentinel color.black) ∧
      (rel = [] → rl = .sentinel color.black ∧ rr = .sentinel color.black) ∧
      entries (crawl (if isLeaf rr then rl else rr) rel2) = entries l ++ entries r := by
  obtain ⟨⟨c1, n1, hl⟩, ⟨c2, n2, hr⟩⟩ := ht.children
  by_cases hleafr : isLeaf r = true
  · have hr2 := RB.sentinel_black_of_isLeaf hleafr
    subst hr2
    by_cases hleafl : isLeaf l = true
    · have hl2 := RB.sentinel_black_of_isLeaf hleafl
      subst hl2
      exact ⟨c, _, e, _, [], [], by simp [getReplacementNode, isLeaf],
        by simp [getReplacementNode, isLeaf_sentinel, isLeaf_real, copyNodeValue, setLastData], rfl, rfl, Or.inl rfl,
        fun _ => ⟨rfl, rfl⟩, by simp [isLeaf_sentinel, isLeaf_real, crawl, entries]⟩
    · have hleafl2 : isLeaf l = false := by simpa using hleafl
      obtain ⟨rc, rl, re, rights, hf, hcr, hb⟩ :=
        getRightmostNode_spec l [.inLeft c e (.sentinel color.black)] c1 n1 hl hleafl2
      refine ⟨rc, rl, re, _, rights ++ [.inLeft c e (.sentinel color.black)], _, ?_, ?_, rfl,
        ?_, Or.inr rfl, ?_, ?_⟩
      · simp [getReplacementNode, isLeaf_sentinel, isLeaf_real, hleafl2, hf]
      · simp [getReplacementNode, isLeaf_sentinel, isLeaf_real, hleafl2, hf, copyNodeValue]
      · rw [crawl_append, hcr]; rfl
      · intro h; simp at h
      · have hent := congrArg entries hcr
        rw [entries_crawl] at hent
        simp only [entries, hb, List.append_nil] at hent
        rw [setLastData_append_singleton]
        simp [isLeaf_sentinel, isLeaf_real, entries_crawl, entriesBefore_append, entriesAfter_append, hb, entries,
          entriesBefore, entriesAfter, frame.setData, ← hent]
  · have hleafr2 : isLeaf r = false := by simpa using hleafr
    obtain ⟨rc, re, rr, lefts, hf, hcr, hb⟩ :=
      getLeftmostNode_spec r [.inRight c l e] c2 n2 hr hleafr2
    refine ⟨rc, _, re, rr, lefts ++ [.inRight c l e], _, ?_, ?_, rfl, ?_, Or.inl rfl, ?_, ?_⟩
    · simp [getReplacementNode, hleafr2, hf]
    · simp [getReplacementNode, hleafr2, hf, copyNodeValue]
    · rw [crawl_append, hcr]; rfl
    · intro h; simp at h
    · have hent := congrArg entries hcr
      rw [entries_crawl] at hent
      simp only [entries, hb, List.nil_append] at hent
      rw [setLastData_append_singleton]
      have hrr : entries (if isLeaf rr = true then rbTreeNode.sentinel color.black else rr)
          = entries rr := by
        by_cases h : isLeaf rr = true
        · rw [RB.sentinel_black_of_isLeaf h]; simp [isLeaf_sentinel]
        · simp [h]
      simp [entries_crawl, entriesBefore_append, entriesAfter_append, hb, entries,
        entriesBefore, entriesAfter, frame.setData, ← hent, hrr]

/-! ## What `Insert` does to a valid map -/

theorem RB.setData {c c0 : color} {l r : rbTreeNode K V} {e : entry K V} {n : Nat}
    (d : entry K V) (h : RB (.real c l e r) c0 n) : RB (.real c l d r) c0 n := by
  cases h with
  | red hl hr => exact .red hl hr
  | black hl hr => exact .black hl hr

theorem isLeaf_false_of_entries {t : rbTreeNode K V} (h : entries t ≠ []) : isLeaf t = false := by
  cases t with
  | sentinel c => simp [entries] at h
  | real c l e r => rfl

theorem isLeaf_crawl_real (c : color) (l : rbTreeNode K V) (e : entry K V) (r : rbTreeNode K V)
    (up : List (frame K V)) : isLeaf (crawl (.real c l e r) up) = false := by
  obtain ⟨c2, l2, e2, r2, h⟩ := crawl_real c l e r up
  rw [h]; rfl

theorem RB.sentinel_inv {c0 c : color} {n : Nat} (h : RB (.sentinel c0 : rbTreeNode K V) c n) :
    c0 = color.black ∧ c = color.black ∧ n = 0 := by
  cases h
  exact ⟨rfl, rfl, rfl⟩

theorem increasing_insert {xs ys : List (entry K V)} {d : entry K V}
    (h : increasing (xs ++ ys)) (hlo : ∀ x ∈ xs, x.keyHash < d.keyHash)
    (hhi : ∀ y ∈ ys, d.keyHash < y.keyHash) : increasing (xs ++ d :: ys) := by
  rw [increasing_append] at h ⊢
  obtain ⟨h1, h2, h3⟩ := h
  refine ⟨h1, increasing_cons.mpr ⟨hhi, h2⟩, ?_⟩
  intro x hx y hy
  rcases List.mem_cons.mp hy with rfl | hy
  · exact hlo x hx
  · exact h3 x hx y hy

theorem increasing_replace {xs ys : List (entry K V)} {e d : entry K V}
    (h : increasing (xs ++ e :: ys)) (hd : d.keyHash = e.keyHash) :
    increasing (xs ++ d :: ys) := by
  rw [increasing_append, increasing_cons] at h ⊢
  obtain ⟨h1, ⟨h2, h3⟩, h4⟩ := h
  refine ⟨h1, ⟨by rw [hd]; exact h2, h3⟩, ?_⟩
  intro x hx y hy
  rcases List.mem_cons.mp hy with rfl | hy
  · rw [hd]; exact h4 x hx e (List.mem_cons_self _ _)
  · exact h4 x hx y (List.mem_cons_of_mem _ hy)

theorem increasing_remove {xs ys : List (entry K V)} {e : entry K V}
    (h : increasing (xs ++ e :: ys)) : increasing (xs ++ ys) := by
  rw [increasing_append] at h ⊢
  obtain ⟨h1, h2, h3⟩ := h
  exact ⟨h1, (increasing_cons.mp h2).2, fun x hx y hy => h3 x hx y (List.mem_cons_of_mem _ hy)⟩

theorem mem_mapDelete [DecidableEq K] {m : List (K × V)} {key k : K} :
    k ∈ (mapDelete m key).map Prod.fst ↔ k ∈ m.map Prod.fst ∧ k ≠ key := by
  simp only [mapDelete, List.mem_map, List.mem_filter, decide_eq_true_eq]
  constructor
  · rintro ⟨p, ⟨hp, hne⟩, rfl⟩
    exact ⟨⟨p, hp, rfl⟩, hne⟩
  · rintro ⟨⟨p, hp, rfl⟩, hne⟩
    exact ⟨p, ⟨hp, hne⟩, rfl⟩

theorem nodup_mapDelete [DecidableEq K] {m : List (K × V)} {key : K}
    (h : (m.map Prod.fst).Nodup) : ((mapDelete m key).map Prod.fst).Nodup := by
  unfold mapDelete
  exact (List.Nodup.sublist ((List.filter_sublist m).map Prod.fst) h)

theorem entry.store_wellKeyed [DecidableEq K] {h : K → Int} {e : entry K V} {key : K}
    (value : V) (he : e.wellKeyed h) (hk : h key = e.keyHash) :
    (e.store key value).wellKeyed h := by
  unfold entry.store
  by_cases hkey : key = e.key
  · simpa [hkey, entry.wellKeyed, entry.keys] using he
  · simp only [hkey, if_false]
    obtain ⟨h1, h2, h3⟩ := he
    refine ⟨?_, ?_, ?_⟩
    · intro k hk2
      simp only [entry.keys, mapSet, List.map_cons, List.mem_cons] at hk2
      rcases hk2 with rfl | rfl | hk2
      · exact h1 _ (by simp [entry.keys])
      · exact hk
      · exact h1 k (by simp only [entry.keys, List.mem_cons]; exact Or.inr (mem_mapDelete.mp hk2).1)
    · simp only [mapSet, List.map_cons, List.mem_cons, not_or]
      exact ⟨fun h3 => hkey h3.symm, fun h3 => h2 (mem_mapDelete.mp h3).1⟩
    · simp only [mapSet, List.map_cons, List.nodup_cons]
      exact ⟨fun h4 => (mem_mapDelete.mp h4).2 rfl, nodup_mapDelete h3⟩

theorem Insert_structure [DecidableEq K] (h : K → Int) (rb : rbTree K V)
    (hv : rb.structured h) (key : K) (value : V) :
    ∃ rb2, Insert rb key value = some rb2 ∧ rb2.structured h ∧
      ((∃ xs ys, rb.contents = xs ++ ys ∧ rb2.contents = xs ++ ⟨h key, key, value, []⟩ :: ys ∧
          (∀ x ∈ xs, x.keyHash < h key) ∧ (∀ y ∈ ys, h key < y.keyHash)) ∨
        (∃ xs e ys, rb.contents = xs ++ e :: ys ∧ e.keyHash = h key ∧
          rb2.contents = xs ++ e.store key value :: ys)) := by
  obtain ⟨hhf, hroot, hinc⟩ := hv
  rcases rb with ⟨root, hf⟩
  simp only at hhf
  subst hhf
  cases root with
  | none =>
    refine ⟨⟨some (.real color.black (.sentinel color.black) ⟨hf key, key, value, []⟩
      (.sentinel color.black)), hf⟩, ?_, ?_, ?_⟩
    · simp [Insert, insertCase1, rbTreeNode.paint, crawl, rbTree.setRoot]
    · refine ⟨rfl, ?_, ?_⟩
      · intro t ht
        simp only [Option.some.injEq] at ht
        subst ht
        exact ⟨rfl, _, RB.black .leaf .leaf⟩
      · simp [rbTree.contents, entries, increasing]
    · left
      exact ⟨[], [], rfl, rfl, by simp, by simp⟩
  | some t =>
    obtain ⟨hleaf, n, ht⟩ := hroot t rfl
    have hinc2 : increasing (entries t) := hinc
    obtain ⟨c, l, e, r, up2, hcr, hcase⟩ := findInsertionParent_spec t [] (hf key) _ _ ht hleaf
      hinc2 (by simp [entriesBefore]) (by simp [entriesAfter])
    simp only [crawl] at hcr
    have hold : entries t = entriesBefore up2 ++ (entries l ++ e :: entries r) ++ entriesAfter up2 := by
      rw [← hcr, entries_crawl]; rfl
    have finish : ∀ (q : ptr K V) (xs ys : List (entry K V)) (m : Nat),
        RB (crawl q.node q.up) color.black m → entries t = xs ++ ys →
        entries (crawl q.node q.up) = xs ++ ⟨hf key, key, value, []⟩ :: ys →
        (∀ x ∈ xs, x.keyHash < hf key) → (∀ y ∈ ys, hf key < y.keyHash) →
        (rbTree.mk (some (crawl q.node q.up)) hf).structured hf ∧
          ((∃ xs ys, entries t = xs ++ ys ∧
              entries (crawl q.node q.up) = xs ++ ⟨hf key, key, value, []⟩ :: ys ∧
              (∀ x ∈ xs, x.keyHash < hf key) ∧ (∀ y ∈ ys, hf key < y.keyHash)) ∨
            (∃ xs e ys, entries t = xs ++ e :: ys ∧ e.keyHash = hf key ∧
              entries (crawl q.node q.up) = xs ++ e.store key value :: ys)) := by
      intro q xs ys m hm h1 h2 hlo hhi
      refine ⟨⟨rfl, ?_, ?_⟩, Or.inl ⟨xs, ys, h1, h2, hlo, hhi⟩⟩
      · intro t2 ht2
        simp only [Option.some.injEq] at ht2
        subst ht2
        exact ⟨isLeaf_false_of_entries (by rw [h2]; simp), m, hm⟩
      · show increasing (entries (crawl q.node q.up))
        rw [h2]
        exact increasing_insert (h1 ▸ hinc2) hlo hhi
    rcases hcase with ⟨hfip, hr, hlo, hhi⟩ | ⟨hfip, hl, hlo, hhi⟩ | ⟨hfip, hek⟩
    · subst hr
      have hopen : RBPath (.inRight c l e :: up2) color.black 0 := by
        have h1 : RB (crawl (.sentinel color.black) (.inRight c l e :: up2)) color.black n := by
          simp only [crawl, frame.plug]; rw [hcr]; exact ht
        obtain ⟨c2, n2, hs, hp⟩ := RB.open h1
        obtain ⟨_, rfl, rfl⟩ := hs.sentinel_inv
        exact hp
      obtain ⟨q, hq, m, hm⟩ := insertCase1_RB (.real color.red (.sentinel color.black)
        ⟨hf key, key, value, []⟩ (.sentinel color.black)) _ 0 (RB.red .leaf .leaf) hopen
      have hent := insertCase1_entries _ _ hq
      refine ⟨⟨some (crawl q.node q.up), hf⟩, ?_, ?_⟩
      · simp [Insert, hfip, hq, rbTree.setRoot]
      · refine finish q (entriesBefore (.inRight c l e :: up2)) (entriesAfter up2) m hm ?_ ?_ hlo hhi
        · rw [hold]; simp [entriesBefore, entries]
        · rw [hent, entries_crawl]; simp [entriesAfter, entries]
    · subst hl
      have hopen : RBPath (.inLeft c e r :: up2) color.black 0 := by
        have h1 : RB (crawl (.sentinel color.black) (.inLeft c e r :: up2)) color.black n := by
          simp only [crawl, frame.plug]; rw [hcr]; exact ht
        obtain ⟨c2, n2, hs, hp⟩ := RB.open h1
        obtain ⟨_, rfl, rfl⟩ := hs.sentinel_inv
        exact hp
      obtain ⟨q, hq, m, hm⟩ := insertCase1_RB (.real color.red (.sentinel color.black)
        ⟨hf key, key, value, []⟩ (.sentinel color.black)) _ 0 (RB.red .leaf .leaf) hopen
      have hent := insertCase1_entries _ _ hq
      refine ⟨⟨some (crawl q.node q.up), hf⟩, ?_, ?_⟩
      · simp [Insert, hfip, hq, rbTree.setRoot]
      · refine finish q (entriesBefore up2) (entriesAfter (.inLeft c e r :: up2)) m hm ?_ ?_ hlo hhi
        · rw [hold]; simp [entriesAfter, entries]
        · rw [hent, entries_crawl]; simp [entriesBefore, entriesAfter, entries]
    · have hopen : ∃ c2 n2, RB (.real c l e r) c2 n2 ∧ RBPath up2 c2 n2 :=
        RB.open (hcr ▸ ht)
      obtain ⟨c2, n2, hnode, hpath⟩ := hopen
      refine ⟨⟨some (crawl (.real c l (e.store key value) r) up2), hf⟩, ?_, ?_, ?_⟩
      · unfold Insert entry.store
        simp only [hfip]
        by_cases hkey : key = e.key <;> simp [hkey, rbTree.setRoot]
      · have hnew2 : entries (crawl (.real c l (e.store key value) r) up2)
            = (entriesBefore up2 ++ entries l) ++ e.store key value :: (entries r ++ entriesAfter up2) := by
          rw [entries_crawl]; simp [entries]
        have hold2 : entries t
            = (entriesBefore up2 ++ entries l) ++ e :: (entries r ++ entriesAfter up2) := by
          rw [hold]; simp
        have hst : (e.store key value).keyHash = e.keyHash := by
          unfold entry.store; split <;> rfl
        refine ⟨rfl, ?_, ?_⟩
        · intro t2 ht2
          simp only [Option.some.injEq] at ht2
          subst ht2
          obtain ⟨m, hm⟩ := hpath.fill (hnode.setData (e.store key value))
          exact ⟨isLeaf_crawl_real _ _ _ _ _, m, hm⟩
        · show increasing (entries (crawl _ up2))
          rw [hnew2]
          exact increasing_replace (hold2 ▸ hinc2) hst
      · right
        refine ⟨entriesBefore up2 ++ entries l, e, entries r ++ entriesAfter up2, ?_, hek, ?_⟩
        · show entries t = _
          rw [hold]; simp
        · show entries (crawl _ up2) = _
          rw [entries_crawl]; simp [entries]

theorem rbTree.valid.to_structured {h : K → Int} {rb : rbTree K V} (hv : rb.valid h) :
    rb.structured h :=
  ⟨hv.1, hv.2.1, hv.2.2.1⟩

theorem Insert_spec [DecidableEq K] (h : K → Int) (rb : rbTree K V) (hv : rb.valid h)
    (key : K) (value : V) :
    ∃ rb2, Insert rb key value = some rb2 ∧ rb2.valid h ∧
      ((∃ xs ys, rb.contents = xs ++ ys ∧ rb2.contents = xs ++ ⟨h key, key, value, []⟩ :: ys ∧
          (∀ x ∈ xs, x.keyHash < h key) ∧ (∀ y ∈ ys, h key < y.keyHash)) ∨
        (∃ xs e ys, rb.contents = xs ++ e :: ys ∧ e.keyHash = h key ∧
          rb2.contents = xs ++ e.store key value :: ys)) := by
  obtain ⟨rb2, hins, hst, hcase⟩ := Insert_structure h rb hv.to_structured key value
  have hkeys := hv.2.2.2
  refine ⟨rb2, hins, ⟨hst.1, hst.2.1, hst.2.2, ?_⟩, hcase⟩
  intro x hx
  rcases hcase with ⟨xs, ys, h1, h2, _, _⟩ | ⟨xs, e, ys, h1, hek, h2⟩
  · rw [h2] at hx
    rcases List.mem_append.mp hx with hx3 | hx3
    · exact hkeys x (by rw [h1]; exact List.mem_append_left _ hx3)
    · rcases List.mem_cons.mp hx3 with rfl | hx4
      · simp [entry.wellKeyed, entry.keys]
      · exact hkeys x (by rw [h1]; exact List.mem_append_right _ hx4)
  · rw [h2] at hx
    rcases List.mem_append.mp hx with hx3 | hx3
    · exact hkeys x (by rw [h1]; exact List.mem_append_left _ hx3)
    · rcases List.mem_cons.mp hx3 with rfl | hx4
      · exact entry.store_wellKeyed value (hkeys e (by rw [h1]; simp)) hek.symm
      · exact hkeys x (by rw [h1]; exact List.mem_append_right _ (List.mem_cons_of_mem _ hx4))

/-! ## What `Get` reads in a valid map -/

theorem find_of_mem {es : List (entry K V)} {e : entry K V} {keyHash : Int}
    (hinc : increasing es) (hmem : e ∈ es) (hk : e.keyHash = keyHash) :
    es.find? (fun x => decide (x.keyHash = keyHash)) = some e := by
  induction es with
  | nil => cases hmem
  | cons a es ih =>
    rw [increasing_cons] at hinc
    rcases List.mem_cons.mp hmem with rfl | hmem2
    · simp [List.find?, hk]
    · have hlt := hinc.1 e hmem2
      have hne : ¬ a.keyHash = keyHash := by omega
      simp only [List.find?, hne, decide_False]
      exact ih hinc.2 hmem2

theorem find_none {es : List (entry K V)} {keyHash : Int}
    (h : ∀ x ∈ es, x.keyHash ≠ keyHash) :
    es.find? (fun x => decide (x.keyHash = keyHash)) = none := by
  rw [List.find?_eq_none]
  intro x hx
  simpa using h x hx

theorem lookup_mid [DecidableEq K] {xs ys : List (entry K V)} {e : entry K V} (keyHash : Int)
    (key : K) (hinc : increasing (xs ++ e :: ys)) (hk : e.keyHash = keyHash) :
    lookup (xs ++ e :: ys) keyHash key = e.find key := by
  unfold lookup
  rw [find_of_mem hinc (by simp) hk]

theorem lookup_skip [DecidableEq K] {xs ys : List (entry K V)} {e : entry K V} (keyHash : Int)
    (key : K) (hk : e.keyHash ≠ keyHash) :
    lookup (xs ++ e :: ys) keyHash key = lookup (xs ++ ys) keyHash key := by
  unfold lookup
  simp [List.find?_append, List.find?, hk]

theorem lookup_none [DecidableEq K] {es : List (entry K V)} (keyHash : Int) (key : K)
    (h : ∀ x ∈ es, x.keyHash ≠ keyHash) : lookup es keyHash key = (none, false) := by
  unfold lookup
  rw [find_none h]

theorem Get_spec [DecidableEq K] (h : K → Int) (rb : rbTree K V) (hv : rb.valid h) (key : K) :
    Get rb key = some (lookup rb.contents (h key) key) := by
  obtain ⟨hhf, hroot, hinc, hkeys⟩ := hv
  rcases rb with ⟨root, hf⟩
  simp only at hhf
  subst hhf
  cases root with
  | none => simp [Get, rbTree.contents, lookup]
  | some t =>
    obtain ⟨hleaf, n, ht⟩ := hroot t rfl
    have hinc2 : increasing (entries t) := hinc
    rcases findByKeyHash_spec t [] key (hf key) _ _ ht hleaf hinc2 with
      ⟨c, l, e, r, up2, hfind, hk, hcr, hmem⟩ | ⟨hfind, hnone⟩
    · have hl : lookup (entries t) (hf key) key = e.find key := by
        unfold lookup
        rw [find_of_mem hinc2 hmem hk]
      simp only [Get, hfind, rbTree.contents, hl, entry.find]
      by_cases hkey : e.key = key
      · simp [hkey]
      · simp only [hkey, if_false]
        cases mapGet e.collisions key <;> rfl
    · simp only [Get, hfind, rbTree.contents]
      rw [lookup_none _ _ hnone]

/-! ## What `Remove` does to a valid map -/

theorem RB.black_zero {t : rbTreeNode K V} (h : RB t color.black 0) :
    t = .sentinel color.black := by
  cases h
  rfl

theorem RB.zero_cases {t : rbTreeNode K V} {c : color} (h : RB t c 0) :
    t = .sentinel color.black ∨
      ∃ e, t = .real color.red (.sentinel color.black) e (.sentinel color.black) := by
  cases h with
  | leaf => exact Or.inl rfl
  | red hl hr =>
    cases hl
    cases hr
    exact Or.inr ⟨_, rfl⟩

theorem RBPath.red_ne_nil {up : List (frame K V)} {n : Nat} (h : RBPath up color.red n) :
    ∃ f rest, up = f :: rest := by
  cases h with
  | blackLeft hr hup => exact ⟨_, _, rfl⟩
  | blackRight hl hup => exact ⟨_, _, rfl⟩

theorem setLastData_eq_nil {d : entry K V} {rel : List (frame K V)}
    (h : setLastData d rel = []) : rel = [] := by
  cases rel with
  | nil => rfl
  | cons f rel =>
    cases rel with
    | nil => simp [setLastData] at h
    | cons g rel => simp [setLastData] at h

theorem promote_spec (pick : Nat) (e : entry K V) (h : e.collisions ≠ []) :
    ∃ k v, (k, v) ∈ e.collisions ∧ promote pick e = { e with key := k, value := v } := by
  have hlen : 0 < e.collisions.length := List.length_pos.mpr h
  have hlt : pick % e.collisions.length < e.collisions.length := Nat.mod_lt _ hlen
  unfold promote
  rw [List.get?_eq_get hlt]
  exact ⟨_, _, List.get_mem _ _ _, rfl⟩

theorem entry.drop_keyHash [DecidableEq K] (e : entry K V) (pick : Nat) (key : K) :
    (e.drop pick key).keyHash = e.keyHash := by
  unfold entry.drop promote
  by_cases hk : key = e.key
  · simp only [hk, if_true]
    split <;> rfl
  · simp only [hk, if_false]

theorem entry.drop_wellKeyed [DecidableEq K] {h : K → Int} {e : entry K V} (pick : Nat)
    (key : K) (he : e.wellKeyed h) (hne : e.collisions ≠ []) : (e.drop pick key).wellKeyed h := by
  obtain ⟨h1, h2, h3⟩ := he
  unfold entry.drop
  by_cases hk : key = e.key
  · obtain ⟨k, v, hmem, hp⟩ := promote_spec pick e hne
    simp only [hk, if_true, hp]
    have hkmem : k ∈ e.collisions.map Prod.fst := List.mem_map.mpr ⟨(k, v), hmem, rfl⟩
    refine ⟨?_, ?_, nodup_mapDelete h3⟩
    · intro k2 hk2
      simp only [entry.keys, List.mem_cons] at hk2
      rcases hk2 with rfl | hk2
      · exact h1 _ (by simp only [entry.keys, List.mem_cons]; exact Or.inr hkmem)
      · exact h1 k2 (by simp only [entry.keys, List.mem_cons]; exact Or.inr (mem_mapDelete.mp hk2).1)
    · intro h4
      exact (mem_mapDelete.mp h4).2 rfl
  · simp only [hk, if_false]
    refine ⟨?_, ?_, nodup_mapDelete h3⟩
    · intro k2 hk2
      simp only [entry.keys, List.mem_cons] at hk2
      rcases hk2 with rfl | hk2
      · exact h1 _ (by simp [entry.keys])
      · exact h1 k2 (by simp only [entry.keys, List.mem_cons]; exact Or.inr (mem_mapDelete.mp hk2).1)
    · intro h4
      exact h2 (mem_mapDelete.mp h4).1

theorem structured_after_removal {h : K → Int} {t : rbTreeNode K V}
    {ro : Option (rbTreeNode K V)} {xs ys : List (entry K V)} {e : entry K V}
    (hinc : increasing (entries t))
    (hold : entries t = xs ++ e :: ys)
    (hro : ∀ t2, ro = some t2 → isLeaf t2 = false ∧ ∃ m, RB t2 color.black m)
    (hnew : (rbTree.mk ro h).contents = xs ++ ys) :
    (rbTree.mk ro h).structured h := by
  refine ⟨rfl, hro, ?_⟩
  rw [hnew]
  exact increasing_remove (hold ▸ hinc)

theorem Remove_structure [DecidableEq K] (h : K → Int) (rb : rbTree K V)
    (hv : rb.structured h) (pick : Nat) (key : K) :
    ∃ rb2, Remove rb pick key = some (rb2, true) ∧ rb2.structured h ∧
      ((rb2 = rb ∧ ∀ x ∈ rb.contents, x.keyHash ≠ h key) ∨
        (∃ xs e ys, rb.contents = xs ++ e :: ys ∧ e.keyHash = h key ∧
          ((e.collisions ≠ [] ∧ rb2.contents = xs ++ e.drop pick key :: ys) ∨
            (e.collisions = [] ∧ rb2.contents = xs ++ ys)))) := by
  have hv0 := hv
  obtain ⟨hhf, hroot, hinc⟩ := hv
  rcases rb with ⟨root, hf⟩
  simp only at hhf
  subst hhf
  cases root with
  | none =>
    exact ⟨_, by simp [Remove], hv0, Or.inl ⟨rfl, by simp [rbTree.contents]⟩⟩
  | some t =>
    obtain ⟨hleaf, n, ht⟩ := hroot t rfl
    have hinc2 : increasing (entries t) := hinc
    rcases findByKeyHash_spec t [] key (hf key) _ _ ht hleaf hinc2 with
      ⟨c, l, e, r, up2, hfind, hk, hcr, hmem⟩ | ⟨hfind, hnone⟩
    · simp only [crawl] at hcr
      obtain ⟨c2, n2, hnode, hpath⟩ := RB.open (hcr ▸ ht)
      have hold : entries t
          = (entriesBefore up2 ++ entries l) ++ e :: (entries r ++ entriesAfter up2) := by
        rw [← hcr, entries_crawl]; simp [entries]
      by_cases hcoll : e.collisions.length > 0
      · have hne : e.collisions ≠ [] := by
          intro h0
          rw [h0] at hcoll
          simp at hcoll
        have hnew2 : entries (crawl (.real c l (e.drop pick key) r) up2)
            = (entriesBefore up2 ++ entries l) ++ e.drop pick key ::
              (entries r ++ entriesAfter up2) := by
          rw [entries_crawl]; simp [entries]
        refine ⟨⟨some (crawl (.real c l (e.drop pick key) r) up2), hf⟩, ?_, ?_, ?_⟩
        · simp [Remove, hfind, hcoll, entry.drop, rbTree.setRoot]
        · refine ⟨rfl, ?_, ?_⟩
          · intro t2 ht2
            simp only [Option.some.injEq] at ht2
            subst ht2
            obtain ⟨m, hm⟩ := hpath.fill (hnode.setData (e.drop pick key))
            exact ⟨isLeaf_crawl_real _ _ _ _ _, m, hm⟩
          · show increasing (entries (crawl _ up2))
            rw [hnew2]
            exact increasing_replace (hold ▸ hinc2) (entry.drop_keyHash e pick key)
        · right
          exact ⟨_, e, _, hold, hk, Or.inl ⟨hne, hnew2⟩⟩
      · have hcoll2 : e.collisions = [] := by
          cases hc : e.collisions with
          | nil => rfl
          | cons a b => rw [hc] at hcoll; simp at hcoll
        obtain ⟨rc, rl, re, rr, rel, rel2, hrep, hrep2, hrel2, hcrawl, hsent, hnil, hent⟩ :=
          replacement_spec c l e r c2 n2 hnode
        have hopen : RB (crawl (.real rc rl re rr) (rel ++ up2)) color.black n := by
          rw [crawl_append, hcrawl, hcr]; exact ht
        obtain ⟨c3, n3, hrn, hrpath0⟩ := RB.open hopen
        have hrpath : RBPath (rel2 ++ up2) c3 n3 := hrel2 ▸ hrpath0.setLastData re
        unfold Remove
        simp only [hfind, hcoll, if_false, hrep2]
        have hfinal : ∀ X : rbTreeNode K V,
            entries X = entries (if isLeaf rr = true then rl else rr) →
            entries (crawl X (rel2 ++ up2))
              = (entriesBefore up2 ++ entries l) ++ (entries r ++ entriesAfter up2) := by
          intro X hX
          have h1 : entries (crawl X rel2) = entries l ++ entries r := by
            rw [← hent, entries_crawl, entries_crawl, hX]
          rw [crawl_append, entries_crawl, h1]
          simp
        have hdone : ∀ ro : Option (rbTreeNode K V),
            (∀ t2, ro = some t2 → isLeaf t2 = false ∧ ∃ m, RB t2 color.black m) →
            (rbTree.mk ro hf).contents
              = (entriesBefore up2 ++ entries l) ++ (entries r ++ entriesAfter up2) →
            (rbTree.mk ro hf).structured hf ∧
              (((rbTree.mk ro hf) = ⟨some t, hf⟩ ∧
                  ∀ x ∈ (rbTree.mk (some t) hf).contents, x.keyHash ≠ hf key) ∨
                ∃ xs e ys, (rbTree.mk (some t) hf).contents = xs ++ e :: ys ∧ e.keyHash = hf key ∧
                  ((e.collisions ≠ [] ∧ (rbTree.mk ro hf).contents = xs ++ e.drop pick key :: ys) ∨
                    (e.collisions = [] ∧ (rbTree.mk ro hf).contents = xs ++ ys))) := by
          intro ro hro hcont
          exact ⟨structured_after_removal hinc2 hold hro hcont,
            Or.inr ⟨_, e, _, hold, hk, Or.inr ⟨hcoll2, hcont⟩⟩⟩
        cases hrn with
        | red hrl hrr =>
          have hn3 : n3 = 0 := by
            rcases hsent with h1 | h1
            · rw [h1] at hrl; exact hrl.sentinel_inv.2.2
            · rw [h1] at hrr; exact hrr.sentinel_inv.2.2
          subst hn3
          have e1 := hrl.black_zero
          have e2 := hrr.black_zero
          subst e1 e2
          obtain ⟨f, rest, hfr⟩ := hrpath.red_ne_nil
          simp only [hfr, if_true, isLeaf_sentinel, decide_True]
          refine ⟨⟨some (crawl (.sentinel color.black) (f :: rest)), hf⟩, rfl, hdone _ ?_ ?_⟩
          · intro t2 ht2
            simp only [Option.some.injEq] at ht2
            subst ht2
            obtain ⟨c4, l4, e4, r4, h4⟩ := crawl_cons_real (.sentinel color.black) f rest
            refine ⟨by rw [h4]; rfl, ?_⟩
            exact (hfr ▸ hrpath).weaken.fill RB.leaf
          · show entries (crawl _ (f :: rest)) = _
            rw [← hfr]
            exact hfinal _ (by simp [isLeaf_sentinel])
        | black hrl hrr =>
          rename_i c5 c6 n5
          have hn5 : n5 = 0 := by
            rcases hsent with h1 | h1
            · rw [h1] at hrl; exact hrl.sentinel_inv.2.2
            · rw [h1] at hrr; exact hrr.sentinel_inv.2.2
          subst hn5
          have hpaint : ∀ (X : rbTreeNode K V), (∃ e, X = .real color.red (.sentinel color.black) e
              (.sentinel color.black)) → X = (if isLeaf rr = true then rl else rr) →
              ∃ rb2,
                (if color.black = color.red then
                  match rel2 ++ up2 with
                  | [] => some ((rbTree.mk (some t) hf).setRoot
                      (some (rbTreeNode.real color.black rl re rr)), true)
                  | f :: rest => some ((rbTree.mk (some t) hf).setRoot
                      (some (crawl X (f :: rest))), true)
                else
                  if X.colorOf = color.red then
                    match rel2 ++ up2 with
                    | [] => some ((rbTree.mk (some t) hf).setRoot
                        (some (if isLeaf rr = true then
                            rbTreeNode.real color.black (rbTreeNode.paint color.black rl) re rr
                          else rbTreeNode.real color.black rl re (rbTreeNode.paint color.black rr))),
                        true)
                    | f :: rest => some ((rbTree.mk (some t) hf).setRoot
                        (some (crawl (rbTreeNode.paint color.black X) (f :: rest))), true)
                  else
                    Option.map (fun p => ((rbTree.mk (some t) hf).setRoot
                      (if isLeaf (crawl p.node p.up) = true then none
                        else some (crawl p.node p.up)), true))
                      (deleteCase1 ⟨X, rel2 ++ up2⟩)) = some (rb2, true) ∧
                rb2.structured hf ∧
                  ((rb2 = ⟨some t, hf⟩ ∧
                      ∀ x ∈ (rbTree.mk (some t) hf).contents, x.keyHash ≠ hf key) ∨
                    ∃ xs e ys, (rbTree.mk (some t) hf).contents = xs ++ e :: ys ∧
                      e.keyHash = hf key ∧
                      ((e.collisions ≠ [] ∧ rb2.contents = xs ++ e.drop pick key :: ys) ∨
                        (e.collisions = [] ∧ rb2.contents = xs ++ ys))) := by
            rintro X ⟨xe, rfl⟩ hX
            have hne : ∃ f rest, rel2 ++ up2 = f :: rest := by
              cases hru : rel2 ++ up2 with
              | cons f rest => exact ⟨f, rest, rfl⟩
              | nil =>
                exfalso
                have h1 : rel2 = [] := (List.append_eq_nil.mp hru).1
                have h2 : rel = [] := setLastData_eq_nil (hrel2 ▸ h1)
                obtain ⟨h3, h4⟩ := hnil h2
                subst h3 h4
                simp [isLeaf_sentinel] at hX
            obtain ⟨f, rest, hfr⟩ := hne
            simp only [hfr, rbTreeNode.colorOf, if_true, rbTreeNode.paint]
            refine ⟨⟨some (crawl (.real color.black (.sentinel color.black) xe
              (.sentinel color.black)) (f :: rest)), hf⟩, by simp [rbTree.setRoot], hdone _ ?_ ?_⟩
            · intro t2 ht2
              simp only [Option.some.injEq] at ht2
              subst ht2
              exact ⟨isLeaf_crawl_real _ _ _ _ _, (hfr ▸ hrpath).fill (RB.black .leaf .leaf)⟩
            · show entries (crawl _ (f :: rest)) = _
              rw [← hfr]
              exact hfinal _ (by rw [← hX]; simp [entries])
          rcases RB.zero_cases hrr with hr0 | hr1
          · rcases RB.zero_cases hrl with hl0 | hl1
            · subst hr0 hl0
              obtain ⟨q, hq, m, hm⟩ := deleteCase1_RB (.sentinel color.black) (rel2 ++ up2) 0
                RB.leaf hrpath
              have hqe := deleteCase1_entries _ _ hq
              simp only [isLeaf_sentinel, decide_True, if_true, rbTreeNode.colorOf, hq,
                Option.map_some']
              refine ⟨⟨if isLeaf (crawl q.node q.up) = true then none
                else some (crawl q.node q.up), hf⟩, by simp [rbTree.setRoot], hdone _ ?_ ?_⟩
              · intro t2 ht2
                cases hl : isLeaf (crawl q.node q.up) with
                | true => simp [hl] at ht2
                | false =>
                  simp only [hl, Bool.false_eq_true, if_false, Option.some.injEq] at ht2
                  subst ht2
                  exact ⟨hl, m, hm⟩
              · have h5 := hfinal (.sentinel color.black) (by simp [isLeaf_sentinel])
                cases hl : isLeaf (crawl q.node q.up) with
                | true =>
                  simp only [if_true, rbTree.contents]
                  rw [← h5, ← hqe, RB.sentinel_black_of_isLeaf hl]
                  rfl
                | false =>
                  simp only [Bool.false_eq_true, if_false, rbTree.contents]
                  rw [← h5, ← hqe]
            · subst hr0
              simp only [isLeaf_sentinel, decide_True, if_true] at hpaint ⊢
              exact hpaint rl hl1 rfl
          · have hrrl : isLeaf rr = false := by
              obtain ⟨e5, h5⟩ := hr1
              rw [h5]; rfl
            simp only [hrrl, Bool.false_eq_true, if_false] at hpaint ⊢
            exact hpaint rr hr1 rfl

    · exact ⟨_, by simp [Remove, hfind], hv0, Or.inl ⟨rfl, hnone⟩⟩

theorem Remove_spec [DecidableEq K] (h : K → Int) (rb : rbTree K V) (hv : rb.valid h)
    (pick : Nat) (key : K) :
    ∃ rb2, Remove rb pick key = some (rb2, true) ∧ rb2.valid h ∧
      ((rb2 = rb ∧ ∀ x ∈ rb.contents, x.keyHash ≠ h key) ∨
        (∃ xs e ys, rb.contents = xs ++ e :: ys ∧ e.keyHash = h key ∧
          ((e.collisions ≠ [] ∧ rb2.contents = xs ++ e.drop pick key :: ys) ∨
            (e.collisions = [] ∧ rb2.contents = xs ++ ys)))) := by
  obtain ⟨rb2, hrem, hst, hcase⟩ := Remove_structure h rb hv.to_structured pick key
  have hkeys := hv.2.2.2
  refine ⟨rb2, hrem, ⟨hst.1, hst.2.1, hst.2.2, ?_⟩, hcase⟩
  intro x hx
  rcases hcase with ⟨h1, _⟩ | ⟨xs, e, ys, h1, _, ⟨hne, h2⟩ | ⟨_, h2⟩⟩
  · rw [h1] at hx
    exact hkeys x hx
  · rw [h2] at hx
    rcases List.mem_append.mp hx with hx3 | hx3
    · exact hkeys x (by rw [h1]; exact List.mem_append_left _ hx3)
    · rcases List.mem_cons.mp hx3 with rfl | hx4
      · exact entry.drop_wellKeyed pick key (hkeys e (by rw [h1]; simp)) hne
      · exact hkeys x (by rw [h1]; exact List.mem_append_right _ (List.mem_cons_of_mem _ hx4))
  · rw [h2] at hx
    rcases List.mem_append.mp hx with hx3 | hx3
    · exact hkeys x (by rw [h1]; exact List.mem_append_left _ hx3)
    · exact hkeys x (by rw [h1]; exact List.mem_append_right _ (List.mem_cons_of_mem _ hx3))

/-! ## Every reachable map is valid -/

theorem New_valid (h : K → Int) : (New h : rbTree K V).valid h := by
  refine ⟨rfl, ?_, ?_, ?_⟩
  · intro t ht
    cases ht
  · simp [rbTree.contents, New, increasing]
  · intro e he
    simp [rbTree.contents, New] at he

theorem perform_valid [DecidableEq K] {h : K → Int} {rb rb2 : rbTree K V} (c : call K V)
    (hv : rb.valid h) (hp : perform rb c = some rb2) : rb2.valid h := by
  cases c with
  | insert key value =>
    obtain ⟨rb3, h1, h2, _⟩ := Insert_spec h rb hv key value
    simp only [perform, h1, Option.some.injEq] at hp
    exact hp ▸ h2
  | remove key pick =>
    obtain ⟨rb3, h1, h2, _⟩ := Remove_spec h rb hv pick key
    simp only [perform, h1, Option.map_some', Option.some.injEq] at hp
    exact hp ▸ h2

theorem performAll_valid [DecidableEq K] {h : K → Int} {rb rb2 : rbTree K V}
    (cs : List (call K V)) (hv : rb.valid h) (hp : performAll rb cs = some rb2) :
    rb2.valid h := by
  induction cs generalizing rb with
  | nil =>
    simp only [performAll, Option.some.injEq] at hp
    exact hp ▸ hv
  | cons c cs ih =>
    simp only [performAll] at hp
    rcases Option.bind_eq_some.mp hp with ⟨rb1, h1, h2⟩
    exact ih (perform_valid c hv h1) h2

theorem Reachable.valid [DecidableEq K] {h : K → Int} {rb : rbTree K V}
    (hr : Reachable h rb) : rb.valid h := by
  obtain ⟨cs, hcs⟩ := hr
  exact performAll_valid cs (New_valid h) hcs

theorem performAll_succeeds [DecidableEq K] {h : K → Int} (rb : rbTree K V) (hv : rb.valid h)
    (cs : List (call K V)) : ∃ rb2, performAll rb cs = some rb2 := by
  induction cs generalizing rb with
  | nil => exact ⟨rb, rfl⟩
  | cons c cs ih =>
    have hstep : ∃ rb1, perform rb c = some rb1 := by
      cases c with
      | insert key value =>
        obtain ⟨rb1, h1, _⟩ := Insert_spec h rb hv key value
        exact ⟨rb1, h1⟩
      | remove key pick =>
        obtain ⟨rb1, h1, _⟩ := Remove_spec h rb hv pick key
        exact ⟨rb1, by simp [perform, h1]⟩
    obtain ⟨rb1, h1⟩ := hstep
    obtain ⟨rb2, h2⟩ := ih rb1 (perform_valid c hv h1)
    exact ⟨rb2, by simp [performAll, h1, h2]⟩

/-! ## Reading one payload after a change -/

theorem mapGet_mapDelete_self [DecidableEq K] (m : List (K × V)) (key : K) :
    mapGet (mapDelete m key) key = none := by
  induction m with
  | nil => rfl
  | cons p m ih =>
    obtain ⟨k, v⟩ := p
    by_cases hk : k = key
    · simpa [mapDelete, hk] using ih
    · have : mapDelete ((k, v) :: m) key = (k, v) :: mapDelete m key := by
        simp [mapDelete, hk]
      rw [this, mapGet]
      simp only [hk, if_false]
      exact ih

theorem mapGet_mapDelete_other [DecidableEq K] (m : List (K × V)) {key key2 : K}
    (hne : key2 ≠ key) : mapGet (mapDelete m key) key2 = mapGet m key2 := by
  induction m with
  | nil => rfl
  | cons p m ih =>
    obtain ⟨k, v⟩ := p
    by_cases hk : k = key
    · have hk2 : ¬ k = key2 := fun h2 => hne (h2 ▸ hk)
      have : mapDelete ((k, v) :: m) key = mapDelete m key := by
        simp [mapDelete, hk]
      rw [this, ih, mapGet]
      simp only [hk2, if_false]
    · have : mapDelete ((k, v) :: m) key = (k, v) :: mapDelete m key := by
        simp [mapDelete, hk]
      rw [this, mapGet, mapGet, ih]

theorem mapGet_none_of_not_mem [DecidableEq K] (m : List (K × V)) {key : K}
    (h : key ∉ m.map Prod.fst) : mapGet m key = none := by
  induction m with
  | nil => rfl
  | cons p m ih =>
    obtain ⟨k, v⟩ := p
    simp only [List.map_cons, List.mem_cons, not_or] at h
    rw [mapGet]
    have hk : ¬ k = key := fun h2 => h.1 h2.symm
    simp only [hk, if_false]
    exact ih h.2

theorem mapGet_of_mem [DecidableEq K] (m : List (K × V)) {key : K} {value : V}
    (hn : (m.map Prod.fst).Nodup) (h : (key, value) ∈ m) : mapGet m key = some value := by
  induction m with
  | nil => cases h
  | cons p m ih =>
    obtain ⟨k, v⟩ := p
    simp only [List.map_cons, List.nodup_cons] at hn
    rw [mapGet]
    rcases List.mem_cons.mp h with h1 | h1
    · cases h1
      simp
    · have hk : ¬ k = key := by
        intro h2
        apply hn.1
        rw [h2]
        exact List.mem_map.mpr ⟨(key, value), h1, rfl⟩
      simp only [hk, if_false]
      exact ih hn.2 h1

theorem entry.store_find_same [DecidableEq K] (e : entry K V) (key : K) (value : V) :
    (e.store key value).find key = (some value, true) := by
  unfold entry.store entry.find
  by_cases hk : key = e.key
  · simp [hk]
  · have hk2 : ¬ e.key = key := fun h2 => hk h2.symm
    simp [hk, hk2, mapSet, mapGet]

theorem entry.store_find_other [DecidableEq K] (e : entry K V) {key key2 : K} (value : V)
    (hne : key2 ≠ key) : (e.store key value).find key2 = e.find key2 := by
  unfold entry.store entry.find
  by_cases hk : key = e.key
  · have hk2 : ¬ e.key = key2 := fun h2 => hne (by rw [← h2, hk])
    simp [hk, hk2]
  · have hk3 : ¬ key = key2 := fun h2 => hne h2.symm
    simp only [hk, if_false, mapSet, mapGet, hk3]
    rw [mapGet_mapDelete_other _ hne]

theorem entry.drop_find_same [DecidableEq K] {h : K → Int} {e : entry K V} (pick : Nat)
    (key : K) (he : e.wellKeyed h) (hne : e.collisions ≠ []) :
    (e.drop pick key).find key = (none, false) := by
  obtain ⟨h1, h2, h3⟩ := he
  unfold entry.drop entry.find
  by_cases hk : key = e.key
  · obtain ⟨k, v, hmem, hp⟩ := promote_spec pick e hne
    have hkmem : k ∈ e.collisions.map Prod.fst := List.mem_map.mpr ⟨(k, v), hmem, rfl⟩
    have hkk : ¬ k = key := by
      intro h4
      apply h2
      rw [← hk, ← h4]
      exact hkmem
    have hkk2 : key ≠ k := fun h4 => hkk h4.symm
    have hnot : key ∉ e.collisions.map Prod.fst := hk ▸ h2
    simp only [hk, if_true, hp]
    simp only [← hk, hkk, if_false]
    rw [mapGet_mapDelete_other _ hkk2, mapGet_none_of_not_mem _ hnot]
  · have hk2 : ¬ e.key = key := fun h4 => hk h4.symm
    simp only [hk, if_false, hk2]
    rw [mapGet_mapDelete_self]

theorem entry.drop_find_other [DecidableEq K] {h : K → Int} {e : entry K V} (pick : Nat)
    {key key2 : K} (he : e.wellKeyed h) (hne : e.collisions ≠ []) (hkk : key2 ≠ key) :
    (e.drop pick key).find key2 = e.find key2 := by
  obtain ⟨h1, h2, h3⟩ := he
  unfold entry.drop entry.find
  by_cases hk : key = e.key
  · obtain ⟨k, v, hmem, hp⟩ := promote_spec pick e hne
    have hk2 : ¬ e.key = key2 := fun h4 => hkk (by rw [← h4, hk])
    simp only [hk, if_true, hp, hk2, if_false]
    by_cases hk3 : k = key2
    · subst hk3
      simp [mapGet_of_mem _ h3 hmem]
    · have hk4 : key2 ≠ k := fun h4 => hk3 h4.symm
      simp only [hk3, if_false]
      rw [mapGet_mapDelete_other _ hk4]
  · simp only [hk, if_false]
    rw [mapGet_mapDelete_other _ hkk]

theorem lookup_replace [DecidableEq K] {xs ys : List (entry K V)} {e d : entry K V}
    (keyHash : Int) (key : K) (hinc : increasing (xs ++ e :: ys)) (hd : d.keyHash = e.keyHash)
    (hfind : e.keyHash = keyHash → d.find key = e.find key) :
    lookup (xs ++ d :: ys) keyHash key = lookup (xs ++ e :: ys) keyHash key := by
  by_cases hk : e.keyHash = keyHash
  · rw [lookup_mid keyHash key hinc hk,
      lookup_mid keyHash key (increasing_replace hinc hd) (hd.trans hk), hfind hk]
  · rw [lookup_skip keyHash key hk, lookup_skip keyHash key (by rw [hd]; exact hk)]

theorem lookup_removed [DecidableEq K] {xs ys : List (entry K V)} {e : entry K V}
    (key : K) (hinc : increasing (xs ++ e :: ys)) :
    lookup (xs ++ ys) e.keyHash key = (none, false) := by
  apply lookup_none
  rw [increasing_append, increasing_cons] at hinc
  obtain ⟨_, ⟨h2, _⟩, h4⟩ := hinc
  intro x hx
  rcases List.mem_append.mp hx with hx2 | hx2
  · have := h4 x hx2 e (List.mem_cons_self _ _)
    omega
  · have := h2 x hx2
    omega

/-! ## Concrete maps: one node with a collision, and trees of two and of four nodes -/

theorem collided_reachable : Reachable testHash collided := by
  refine ⟨[.insert 4 "a", .insert 5 "b"], ?_⟩
  simp [performAll, perform, Insert, New, insertCase1, findInsertionParent, testHash,
    rbTree.setRoot, crawl, rbTreeNode.paint, mapSet, mapDelete, collided]

theorem oneTwo_reachable : Reachable testHash oneTwo := by
  refine ⟨[.insert 1 "a", .insert 2 "b"], ?_⟩
  simp [performAll, perform, Insert, New, insertCase1, insertCase2, findInsertionParent, testHash,
    rbTree.setRoot, crawl, rbTreeNode.paint, isLeaf, frame.colorOf, frame.plug, oneTwo]

theorem oneToFour_reachable : Reachable testHash oneToFour := by
  refine ⟨[.insert 1 "a", .insert 2 "b", .insert 3 "c", .insert 4 "d"], ?_⟩
  simp [performAll, perform, Insert, New, insertCase1, insertCase2, insertCase3, insertCase4,
    insertCase5, findInsertionParent, testHash, getGrandparent, getUncle, rotateLeft, rotateRight,
    rbTree.setRoot, crawl, rbTreeNode.paint, isLeaf, frame.colorOf, frame.plug, oneToFour,
    frame.sibling, frame.paintSibling, frame.paint, rbTreeNode.colorOf]

theorem entry.store_keyHash [DecidableEq K] (e : entry K V) (key : K) (value : V) :
    (e.store key value).keyHash = e.keyHash := by
  unfold entry.store
  split <;> rfl

/-! ## `Get` after `Insert` and after `Remove`, in a valid map -/

theorem Insert_then_Get [DecidableEq K] (h : K → Int) (rb : rbTree K V) (hv : rb.valid h)
    (key : K) (value : V) :
    ∃ rb2, Insert rb key value = some rb2 ∧ rb2.valid h ∧
      Get rb2 key = some (some value, true) ∧
      ∀ key2, key2 ≠ key → Get rb2 key2 = Get rb key2 := by
  obtain ⟨rb2, hins, hv2, hcase⟩ := Insert_spec h rb hv key value
  refine ⟨rb2, hins, hv2, ?_, ?_⟩
  · rw [Get_spec h rb2 hv2]
    have hinc2 := hv2.2.2.1
    rcases hcase with ⟨xs, ys, _, h2, _, _⟩ | ⟨xs, e, ys, _, hk, h2⟩
    · rw [h2] at hinc2 ⊢
      rw [lookup_mid _ _ hinc2 rfl]
      simp [entry.find]
    · rw [h2] at hinc2 ⊢
      rw [lookup_mid _ _ hinc2 ((entry.store_keyHash e key value).trans hk),
        entry.store_find_same]
  · intro key2 hne
    rw [Get_spec h rb2 hv2, Get_spec h rb hv]
    have hinc := hv.2.2.1
    rcases hcase with ⟨xs, ys, h1, h2, hlo, hhi⟩ | ⟨xs, e, ys, h1, hk, h2⟩
    · rw [h1, h2]
      congr 1
      by_cases hk2 : h key = h key2
      · have hinc2 := hv2.2.2.1
        rw [h2] at hinc2
        have hkk : ¬ key = key2 := fun h3 => hne h3.symm
        rw [lookup_mid _ _ hinc2 hk2, lookup_none]
        · simp [entry.find, hkk, mapGet]
        · intro x hx
          rcases List.mem_append.mp hx with hx2 | hx2
          · have := hlo x hx2
            omega
          · have := hhi x hx2
            omega
      · exact lookup_skip _ _ hk2
    · rw [h1] at hinc
      rw [h1, h2]
      exact congrArg some (lookup_replace _ _ hinc (entry.store_keyHash e key value)
        (fun _ => entry.store_find_other e value hne))

theorem Remove_then_Get [DecidableEq K] (h : K → Int) (rb : rbTree K V) (hv : rb.valid h)
    (key : K) (pick : Nat) :
    ∃ rb2, Remove rb pick key = some (rb2, true) ∧ rb2.valid h ∧
      Get rb2 key = some (none, false) ∧
      ((∃ v, Get rb key = some (v, true)) → ∀ key2, key2 ≠ key → Get rb2 key2 = Get rb key2) := by
  obtain ⟨rb2, hrem, hv2, hcase⟩ := Remove_spec h rb hv pick key
  have hinc := hv.2.2.1
  have hinc2 := hv2.2.2.1
  refine ⟨rb2, hrem, hv2, ?_, ?_⟩
  · rw [Get_spec h rb2 hv2]
    rcases hcase with ⟨h1, hno⟩ | ⟨xs, e, ys, h1, hk, hsub⟩
    · rw [h1, lookup_none _ _ hno]
    · rw [h1] at hinc
      have hwk : e.wellKeyed h := hv.2.2.2 e (by rw [h1]; simp)
      rcases hsub with ⟨hcoll, h2⟩ | ⟨hcoll, h2⟩
      · rw [h2] at hinc2 ⊢
        rw [lookup_mid _ _ hinc2 ((entry.drop_keyHash e pick key).trans hk),
          entry.drop_find_same pick key hwk hcoll]
      · rw [h2, ← hk, lookup_removed _ hinc]
  · intro hpresent key2 hne
    rw [Get_spec h rb2 hv2, Get_spec h rb hv]
    rcases hcase with ⟨h1, _⟩ | ⟨xs, e, ys, h1, hk, hsub⟩
    · rw [h1]
    · rw [h1] at hinc
      have hwk : e.wellKeyed h := hv.2.2.2 e (by rw [h1]; simp)
      rcases hsub with ⟨hcoll, h2⟩ | ⟨hcoll, h2⟩
      · rw [h1, h2]
        exact congrArg some (lookup_replace _ _ hinc (entry.drop_keyHash e pick key)
          (fun _ => entry.drop_find_other pick hwk hcoll hne))
      · rw [h1, h2]
        congr 1
        by_cases hk2 : e.keyHash = h key2
        · obtain ⟨v, hget⟩ := hpresent
          rw [Get_spec h rb hv, h1, lookup_mid _ _ hinc hk] at hget
          have hkey : e.key = key := by
            by_contra hcon
            simp [entry.find, hcon, hcoll, mapGet] at hget
          have hkey2 : ¬ e.key = key2 := fun h3 => hne (h3 ▸ hkey)
          rw [lookup_mid _ _ hinc hk2, ← hk2, lookup_removed _ hinc]
          simp [entry.find, hkey2, hcoll, mapGet]
        · rw [lookup_skip _ _ hk2]

/-! ## The contract of `Insert`, `Get` and `Remove` -/

theorem hashOrdered_of_increasing (t : rbTreeNode K V) (h : increasing (entries t)) :
    hashOrdered t := by
  induction t with
  | sentinel c => trivial
  | real c l e r ihl ihr =>
    simp only [entries] at h
    rw [increasing_append, increasing_cons] at h
    obtain ⟨hl, ⟨her, hr⟩, hle⟩ := h
    refine ⟨?_, ?_, ihl hl, ihr hr⟩
    · intro x hx
      obtain ⟨a, ha, rfl⟩ := List.mem_map.mp hx
      exact hle a ha e (List.mem_cons_self _ _)
    · intro x hx
      obtain ⟨a, ha, rfl⟩ := List.mem_map.mp hx
      exact her a ha

theorem RB.black_counts_eq {t : rbTreeNode K V} {c : color} {n : Nat} (h : RB t c n) :
    ∀ a ∈ blackCounts t, a = n + 1 := by
  induction h with
  | leaf =>
    intro a ha
    simpa [blackCounts] using ha
  | red _ _ ihl ihr =>
    intro a ha
    simp only [blackCounts, List.mem_map, List.mem_append] at ha
    obtain ⟨b, hb, rfl⟩ := ha
    rcases hb with hb | hb
    · simpa using ihl b hb
    · simpa using ihr b hb
  | black _ _ ihl ihr =>
    intro a ha
    simp only [blackCounts, List.mem_map, List.mem_append] at ha
    obtain ⟨b, hb, rfl⟩ := ha
    rcases hb with hb | hb
    · simpa using ihl b hb
    · simpa using ihr b hb

theorem RB.of_subtree {t : rbTreeNode K V} {c : color} {n : Nat} (h : RB t c n) :
    ∀ s ∈ subtrees t, ∃ c2 n2, RB s c2 n2 := by
  induction h with
  | leaf =>
    intro s hs
    simp only [subtrees, List.mem_singleton] at hs
    exact ⟨_, _, hs ▸ RB.leaf⟩
  | red hl hr ihl ihr =>
    intro s hs
    simp only [subtrees, List.mem_cons, List.mem_append] at hs
    rcases hs with rfl | hs | hs
    · exact ⟨_, _, RB.red hl hr⟩
    · exact ihl s hs
    · exact ihr s hs
  | black hl hr ihl ihr =>
    intro s hs
    simp only [subtrees, List.mem_cons, List.mem_append] at hs
    rcases hs with rfl | hs | hs
    · exact ⟨_, _, RB.black hl hr⟩
    · exact ihl s hs
    · exact ihr s hs

theorem RB.equal_black_height {t : rbTreeNode K V} {c : color} {n : Nat} (h : RB t c n) :
    equalBlackHeight t := by
  intro s hs a ha b hb
  obtain ⟨c2, n2, h2⟩ := h.of_subtree s hs
  rw [h2.black_counts_eq a ha, h2.black_counts_eq b hb]

theorem RB.no_red_red {t : rbTreeNode K V} {c : color} {n : Nat} (h : RB t c n) :
    noRedRed t := by
  induction h with
  | leaf => trivial
  | red hl hr ihl ihr =>
    refine ⟨fun _ => ?_, ihl, ihr⟩
    rw [hl.colorOf_eq, hr.colorOf_eq]
    exact ⟨by decide, by decide⟩
  | black hl hr ihl ihr =>
    exact ⟨fun hc => (by cases hc), ihl, ihr⟩

theorem RB.no_red_under_red {t : rbTreeNode K V} {c : color} {n : Nat} (h : RB t c n)
    (parentRed : Bool) (hp : parentRed = true → c = color.black) :
    noRedUnderRed parentRed t := by
  induction h generalizing parentRed with
  | leaf =>
    simp [noRedUnderRed]
  | red hl hr ihl ihr =>
    refine ⟨?_, ihl _ (fun _ => rfl), ihr _ (fun _ => rfl)⟩
    rintro ⟨h1, _⟩
    cases hp h1
  | black hl hr ihl ihr =>
    refine ⟨?_, ihl _ (fun h1 => by simp at h1), ihr _ (fun h1 => by simp at h1)⟩
    rintro ⟨_, h2⟩
    cases h2

/-- C6 (hash ordering): after any sequence of `Insert` and `Remove` calls on `New(h)`, in every real
node of the tree the hashes of the left subtree are strictly smaller and the hashes of the right
subtree are strictly greater than the hash of the node. -/
theorem reachable_hashOrdered [DecidableEq K] (h : K → Int) (rb : rbTree K V)
    (hr : Reachable h rb) : ∀ t, rb.root = some t → hashOrdered t := by
  intro t ht
  have hinc := hr.valid.2.2.1
  simp only [rbTree.contents, ht] at hinc
  exact hashOrdered_of_increasing t hinc

theorem reachable_hashOrdered_witness :
    Reachable testHash oneToFour ∧ ∀ t, oneToFour.root = some t → hashOrdered t :=
  ⟨oneToFour_reachable, reachable_hashOrdered testHash oneToFour oneToFour_reachable⟩

/-- C7 (equal black height): after any sequence of `Insert` and `Remove` calls on `New(h)`, from
every node of the tree all paths down to a sentinel count the same number of black nodes. -/
theorem reachable_equalBlackHeight [DecidableEq K] (h : K → Int) (rb : rbTree K V)
    (hr : Reachable h rb) : ∀ t, rb.root = some t → equalBlackHeight t := by
  intro t ht
  obtain ⟨_, n, hn⟩ := hr.valid.2.1 t ht
  exact hn.equal_black_height

theorem reachable_equalBlackHeight_witness :
    Reachable testHash oneToFour ∧ ∀ t, oneToFour.root = some t → equalBlackHeight t :=
  ⟨oneToFour_reachable, reachable_equalBlackHeight testHash oneToFour oneToFour_reachable⟩

/-- C8 (colours): after any sequence of `Insert` and `Remove` calls on `New(h)`, the tree is empty
or its root is a black real node, no red node has a red child, and no red node has a red
parent. -/
theorem reachable_colours [DecidableEq K] (h : K → Int) (rb : rbTree K V)
    (hr : Reachable h rb) :
    (rb.root = none ∨ ∃ t, rb.root = some t ∧ isLeaf t = false ∧ t.colorOf = color.black) ∧
      ∀ t, rb.root = some t → noRedRed t ∧ noRedUnderRed false t := by
  have hroot := hr.valid.2.1
  constructor
  · cases hrt : rb.root with
    | none => exact Or.inl rfl
    | some t =>
      obtain ⟨hl, n, hn⟩ := hroot t hrt
      exact Or.inr ⟨t, rfl, hl, hn.colorOf_eq⟩
  · intro t ht
    obtain ⟨_, n, hn⟩ := hroot t ht
    exact ⟨hn.no_red_red, hn.no_red_under_red false (fun h1 => by cases h1)⟩

theorem reachable_colours_witness :
    Reachable testHash oneToFour ∧
      (oneToFour.root = none ∨
        ∃ t, oneToFour.root = some t ∧ isLeaf t = false ∧ t.colorOf = color.black) ∧
      ∀ t, oneToFour.root = some t → noRedRed t ∧ noRedUnderRed false t :=
  ⟨oneToFour_reachable, reachable_colours testHash oneToFour oneToFour_reachable⟩

theorem performAll_append [DecidableEq K] (rb : rbTree K V) (cs ds : List (call K V)) :
    performAll rb (cs ++ ds) = (performAll rb cs).bind fun rb1 => performAll rb1 ds := by
  induction cs generalizing rb with
  | nil => rfl
  | cons c cs ih =>
    simp only [List.cons_append, performAll]
    cases perform rb c with
    | none => rfl
    | some rb1 => simpa using ih rb1

theorem entry.find_cases [DecidableEq K] (e : entry K V) (key : K) :
    e.find key = (none, false) ∨ ∃ v, e.find key = (some v, true) := by
  unfold entry.find
  by_cases hk : e.key = key
  · exact Or.inr ⟨e.value, by simp [hk]⟩
  · simp only [hk, if_false]
    cases mapGet e.collisions key with
    | none => exact Or.inl rfl
    | some v => exact Or.inr ⟨v, rfl⟩

theorem Get_cases [DecidableEq K] {h : K → Int} {rb : rbTree K V} (hv : rb.valid h) (key : K) :
    Get rb key = some (none, false) ∨ ∃ v, Get rb key = some (v, true) := by
  rw [Get_spec h rb hv]
  unfold lookup
  cases rb.contents.find? (fun e => decide (e.keyHash = h key)) with
  | none => exact Or.inl rfl
  | some e =>
    rcases e.find_cases key with h1 | ⟨v, h1⟩
    · exact Or.inl (by simp [h1])
    · exact Or.inr ⟨some v, by simp [h1]⟩

theorem inserts_present [DecidableEq K] {h : K → Int} (ins : List (K × V)) (rb : rbTree K V)
    (hv : rb.valid h) :
    ∃ rb2, performAll rb (ins.map fun p => call.insert p.1 p.2) = some rb2 ∧ rb2.valid h ∧
      ∀ k, (∃ v, Get rb2 k = some (v, true)) ↔
        (k ∈ ins.map Prod.fst ∨ ∃ v, Get rb k = some (v, true)) := by
  induction ins generalizing rb with
  | nil => exact ⟨rb, rfl, hv, fun k => by simp⟩
  | cons p ins ih =>
    obtain ⟨rb1, h1, hv1, hsame, hother⟩ := Insert_then_Get h rb hv p.1 p.2
    obtain ⟨rb2, h2, hv2, hpres⟩ := ih rb1 hv1
    refine ⟨rb2, by simp [performAll, perform, h1, h2], hv2, ?_⟩
    intro k
    rw [hpres k]
    by_cases hk : k = p.1
    · subst hk
      simp [hsame]
    · rw [hother k hk]
      simp [hk]

theorem removes_present [DecidableEq K] {h : K → Int} (rems : List (K × Nat)) (rb : rbTree K V)
    (hv : rb.valid h) (hnodup : (rems.map Prod.fst).Nodup)
    (hall : ∀ k ∈ rems.map Prod.fst, ∃ v, Get rb k = some (v, true)) :
    ∃ rb2, performAll rb (rems.map fun p => call.remove p.1 p.2) = some rb2 ∧ rb2.valid h ∧
      ∀ k, (∃ v, Get rb2 k = some (v, true)) ↔
        ((∃ v, Get rb k = some (v, true)) ∧ k ∉ rems.map Prod.fst) := by
  induction rems generalizing rb with
  | nil => exact ⟨rb, rfl, hv, fun k => by simp⟩
  | cons p rems ih =>
    simp only [List.map_cons, List.nodup_cons] at hnodup
    obtain ⟨rb1, h1, hv1, hgone, hother⟩ := Remove_then_Get h rb hv p.1 p.2
    have hp : ∃ v, Get rb p.1 = some (v, true) := hall p.1 (by simp)
    have hall1 : ∀ k ∈ rems.map Prod.fst, ∃ v, Get rb1 k = some (v, true) := by
      intro k hk
      have hne : k ≠ p.1 := fun h3 => hnodup.1 (h3 ▸ hk)
      rw [hother hp k hne]
      exact hall k (by simp only [List.map_cons, List.mem_cons]; exact Or.inr hk)
    obtain ⟨rb2, h2, hv2, hpres⟩ := ih rb1 hv1 hnodup.2 hall1
    refine ⟨rb2, by simp [performAll, perform, h1, h2], hv2, ?_⟩
    intro k
    rw [hpres k]
    by_cases hk : k = p.1
    · subst hk
      simp [hgone]
    · rw [hother hp k hk]
      simp [hk]

theorem root_none_of_nothing_present [DecidableEq K] {h : K → Int} {rb : rbTree K V}
    (hv : rb.valid h) (hno : ∀ k, ¬ ∃ v, Get rb k = some (v, true)) : rb.root = none := by
  cases hrt : rb.root with
  | none => rfl
  | some t =>
    exfalso
    obtain ⟨hleaf, n, hn⟩ := hv.2.1 t hrt
    obtain ⟨c, l, e, r, rfl⟩ := hn.real_of_not_isLeaf hleaf
    have hmem : e ∈ rb.contents := by
      simp [rbTree.contents, hrt, entries]
    have hwk := hv.2.2.2 e hmem
    have hk : e.keyHash = h e.key := (hwk.1 e.key (by simp [entry.keys])).symm
    apply hno e.key
    refine ⟨some e.value, ?_⟩
    rw [Get_spec h rb hv]
    unfold lookup
    rw [find_of_mem hv.2.2.1 hmem hk]
    simp [entry.find]

/-- Deletion completeness for keys compared by an equality: for every list of key/value pairs
inserted into `New(h)` and every order in which each of the inserted keys is then removed exactly
once (with any choice of the promoted collisions), all the calls succeed, the tree is empty
afterwards (`root` is `nil`) and `Get` reports `found = false` for every inserted key. -/
theorem all_inserted_removed_of_equality [DecidableEq K] (h : K → Int) (ins : List (K × V))
    (rems : List (K × Nat)) (hnodup : (rems.map Prod.fst).Nodup)
    (hsame : ∀ k, k ∈ rems.map Prod.fst ↔ k ∈ ins.map Prod.fst) :
    ∃ rb : rbTree K V,
      performAll (New h) ((ins.map fun p => call.insert p.1 p.2) ++
        rems.map fun p => call.remove p.1 p.2) = some rb ∧
      rb.root = none ∧ ∀ k ∈ ins.map Prod.fst, Get rb k = some (none, false) := by
  obtain ⟨rb1, h1, hv1, hpres1⟩ := inserts_present ins (New h : rbTree K V) (New_valid h)
  have hnew : ∀ k, ¬ ∃ v, Get (New h : rbTree K V) k = some (v, true) := by
    intro k
    simp [Get, New]
  have hall : ∀ k ∈ rems.map Prod.fst, ∃ v, Get rb1 k = some (v, true) := by
    intro k hk
    exact (hpres1 k).mpr (Or.inl ((hsame k).mp hk))
  obtain ⟨rb2, h2, hv2, hpres2⟩ := removes_present rems rb1 hv1 hnodup hall
  have hno : ∀ k, ¬ ∃ v, Get rb2 k = some (v, true) := by
    intro k hk
    obtain ⟨hk1, hk2⟩ := (hpres2 k).mp hk
    rcases (hpres1 k).mp hk1 with hk3 | hk3
    · exact hk2 ((hsame k).mpr hk3)
    · exact hnew k hk3
  refine ⟨rb2, ?_, root_none_of_nothing_present hv2 hno, ?_⟩
  · rw [performAll_append, h1]
    exact h2
  · intro k _
    rcases Get_cases hv2 k with h3 | h3
    · exact h3
    · exact absurd h3 (hno k)

/-! ## The scenario of the specification, step by step -/

theorem afterInserts_run :
    performAll (New testHash) [.insert 5 "a", .insert 6 "b"] = some afterInserts := by
  simp [performAll, perform, Insert, New, insertCase1, insertCase2, findInsertionParent, testHash,
    rbTree.setRoot, crawl, rbTreeNode.paint, isLeaf, frame.colorOf, frame.plug, afterInserts]

theorem afterInserts_remove (pick : Nat) :
    Remove afterInserts pick 5 = some (afterRemoveFive, true) := by
  simp [Remove, afterInserts, afterRemoveFive, findByKeyHash, testHash, getReplacementNode,
    getLeftmostNode, copyNodeValue, setLastData, frame.setData, isLeaf, rbTree.setRoot, crawl,
    frame.plug]

theorem afterRemoveFive_remove (pick : Nat) :
    Remove afterRemoveFive pick 6 = some (⟨none, testHash⟩, true) := by
  simp [Remove, afterRemoveFive, findByKeyHash, testHash, getReplacementNode,
    copyNodeValue, setLastData, isLeaf, rbTree.setRoot, crawl, deleteCase1, rbTreeNode.colorOf]

theorem onlyFour_reachable : Reachable testHash onlyFour := by
  refine ⟨[.insert 4 "a"], ?_⟩
  simp [performAll, perform, Insert, New, insertCase1, testHash, rbTree.setRoot, crawl,
    rbTreeNode.paint, onlyFour]

theorem onlyFour_remove (pick : Nat) :
    Remove onlyFour pick 5 = some (⟨none, testHash⟩, true) := by
  simp [Remove, onlyFour, findByKeyHash, testHash, getReplacementNode,
    copyNodeValue, setLastData, isLeaf, rbTree.setRoot, crawl, deleteCase1, rbTreeNode.colorOf]

theorem collided_run :
    performAll (New testHash) [.insert 4 "a", .insert 5 "b"] = some collided := by
  simp [performAll, perform, Insert, New, insertCase1, findInsertionParent, testHash,
    rbTree.setRoot, crawl, rbTreeNode.paint, mapSet, mapDelete, collided]

/-! ## The results of `Get` and `Remove` -/

/-- C12 (not-found result of `Get`): in every reachable map, whenever `Get(key)` reports
`found = false` the value it returns is `nil`; on a map whose root is `nil`, and on `New(h)`,
`Get(key)` returns `(nil, false)` for every key. -/
theorem get_not_found_is_nil [DecidableEq K] (h : K → Int) (rb : rbTree K V)
    (hr : Reachable h rb) (key : K) :
    (∀ v, Get rb key = some (v, false) → v = none) ∧
      (rb.root = none → Get rb key = some (none, false)) ∧
      Get (New h : rbTree K V) key = some (none, false) := by
  refine ⟨?_, ?_, by simp [Get, New]⟩
  · intro v hv
    rcases Get_cases hr.valid key with h1 | ⟨w, h1⟩
    · rw [h1] at hv
      simp only [Option.some.injEq, Prod.mk.injEq] at hv
      exact hv.1.symm
    · rw [h1] at hv
      simp at hv
  · intro hroot
    simp [Get, hroot]

theorem get_not_found_is_nil_witness :
    Reachable testHash collided ∧
      (∀ v, Get collided 9 = some (v, false) → v = none) ∧
      (collided.root = none → Get collided 9 = some (none, false)) ∧
      Get (New testHash : rbTree Int String) 9 = some (none, false) :=
  ⟨collided_reachable, get_not_found_is_nil testHash collided collided_reachable 9⟩

/-- C19 (removal without a node of the hash): in every reachable map, the empty one included, when
no node of the tree has the hash of `key`, `Remove(key)` returns `true` and leaves the whole tree
(root, links, colours and payloads) exactly as it was. -/
theorem remove_without_hash_node [DecidableEq K] (h : K → Int) (rb : rbTree K V)
    (hr : Reachable h rb) (key : K) (pick : Nat)
    (hno : ∀ e ∈ rb.contents, e.keyHash ≠ h key) :
    Remove rb pick key = some (rb, true) := by
  obtain ⟨rb2, hrem, _, hcase⟩ := Remove_spec h rb hr.valid pick key
  rcases hcase with ⟨h1, _⟩ | ⟨xs, e, ys, h1, hk, _⟩
  · rw [hrem, h1]
  · exact absurd hk (hno e (by rw [h1]; simp))

theorem remove_without_hash_node_witness :
    Reachable testHash collided ∧ (∀ e ∈ collided.contents, e.keyHash ≠ testHash 9) ∧
      Remove collided 0 9 = some (collided, true) :=
  ⟨collided_reachable, by simp [collided, rbTree.contents, entries, testHash],
    remove_without_hash_node testHash collided collided_reachable 9 0
      (by simp [collided, rbTree.contents, entries, testHash])⟩

/-! ## The scenario of the specification -/

/-- C13 (the scenario): under the hash function of the tests, starting from `New(h)`, after
`Insert(5, "a")` and `Insert(6, "b")` `Get(5)` returns `("a", true)` and `Get(6)` returns
`("b", true)`; after `Remove(5)`, `Get(5)` reports `found = false` and `Get(6)` still returns
`("b", true)`; after `Remove(6)` the root is `nil`. -/
theorem scenario_five_six :
    ∃ m2 : rbTree Int String,
      performAll (New testHash) [.insert 5 "a", .insert 6 "b"] = some m2 ∧
      Get m2 5 = some (some "a", true) ∧ Get m2 6 = some (some "b", true) ∧
      ∀ pick, ∃ m1, Remove m2 pick 5 = some (m1, true) ∧
        (∃ v, Get m1 5 = some (v, false)) ∧ Get m1 6 = some (some "b", true) ∧
        ∀ pick2, ∃ m0, Remove m1 pick2 6 = some (m0, true) ∧ m0.root = none := by
  refine ⟨afterInserts, afterInserts_run, ?_, ?_, ?_⟩
  · simp [Get, afterInserts, findByKeyHash, testHash, isLeaf]
  · simp [Get, afterInserts, findByKeyHash, testHash, isLeaf]
  · intro pick
    refine ⟨afterRemoveFive, afterInserts_remove pick, ⟨none, ?_⟩, ?_, ?_⟩
    · simp [Get, afterRemoveFive, findByKeyHash, testHash, isLeaf]
    · simp [Get, afterRemoveFive, findByKeyHash, testHash, isLeaf]
    · intro pick2
      exact ⟨_, afterRemoveFive_remove pick2, rfl⟩

/-- C20, as the specification states it, fails: under the hash function of the tests the keys
`5` and `6` do not both hash to `5`, and `Insert(5, "a")` followed by `Insert(6, "b")` does not
leave a tree of a single node. -/
theorem five_and_six_do_not_collide :
    ¬ (testHash 5 = 5 ∧ testHash 6 = 5) ∧
      ¬ ∃ (c : color) (e : entry Int String),
        performAll (New testHash) [.insert 5 "a", .insert 6 "b"] =
          some ⟨some (.real c (.sentinel color.black) e (.sentinel color.black)), testHash⟩ := by
  refine ⟨by decide, ?_⟩
  rintro ⟨c, e, h⟩
  rw [afterInserts_run] at h
  simp [afterInserts] at h

/-- C20, as amended: under the hash function of the tests `5` hashes to `4` and `6` hashes to `6`,
so that `Insert(5, "a")` followed by `Insert(6, "b")` stores the entries in two tree nodes; the
keys `4` and `5` both hash to `4`, so that `Insert(4, "a")` followed by `Insert(5, "b")` stores
both entries in a single tree node. -/
theorem collision_of_four_and_five :
    testHash 5 = 4 ∧ testHash 6 = 6 ∧
      (∃ m : rbTree Int String,
        performAll (New testHash) [.insert 5 "a", .insert 6 "b"] = some m ∧
        m.contents = [⟨4, 5, "a", []⟩, ⟨6, 6, "b", []⟩]) ∧
      testHash 4 = 4 ∧
      ∃ m : rbTree Int String,
        performAll (New testHash) [.insert 4 "a", .insert 5 "b"] = some m ∧
        m.root = some (.real color.black (.sentinel color.black) ⟨4, 4, "a", [(5, "b")]⟩
          (.sentinel color.black)) := by
  refine ⟨by decide, by decide, ⟨afterInserts, afterInserts_run, ?_⟩, by decide,
    ⟨collided, collided_run, rfl⟩⟩
  simp [afterInserts, rbTree.contents, entries]

/-- C14, at the failing input: in the reachable map that holds only the key `4`, the key `5` is
not present (it has the hash of `4`), and `Remove(5)` removes the node of `4`, so that `Get(4)`
changes from `("a", true)` to `(nil, false)`. -/
theorem remove_absent_key_removes_other :
    Reachable testHash onlyFour ∧ Get onlyFour 5 = some (none, false) ∧
      Get onlyFour 4 = some (some "a", true) ∧
      ∀ pick, ∃ rb2, Remove onlyFour pick 5 = some (rb2, true) ∧
        Get rb2 4 = some (none, false) := by
  refine ⟨onlyFour_reachable, ?_, ?_, ?_⟩
  · simp [Get, onlyFour, findByKeyHash, testHash, mapGet]
  · simp [Get, onlyFour, findByKeyHash, testHash]
  · intro pick
    exact ⟨_, onlyFour_remove pick, by simp [Get]⟩

/-! ## Changes that keep the links and the colours -/

theorem mapData_crawl (F : entry K V → entry K V) (t : rbTreeNode K V)
    (up : List (frame K V)) :
    (crawl t up).mapData F = crawl (t.mapData F) (up.map (frame.mapData F)) := by
  induction up generalizing t with
  | nil => rfl
  | cons f up ih =>
    cases f <;> simp [crawl, ih, frame.plug, frame.mapData, rbTreeNode.mapData]

theorem mapData_id (F : entry K V → entry K V) (t : rbTreeNode K V)
    (h : ∀ x ∈ entries t, F x = x) : t.mapData F = t := by
  induction t with
  | sentinel c => rfl
  | real c l e r ihl ihr =>
    simp only [entries, List.mem_append, List.mem_cons] at h
    simp only [rbTreeNode.mapData]
    rw [ihl (fun x hx => h x (Or.inl hx)), ihr (fun x hx => h x (Or.inr (Or.inr hx))),
      h e (Or.inr (Or.inl rfl))]

theorem mapData_frames_id (F : entry K V → entry K V) (up : List (frame K V))
    (h1 : ∀ x ∈ entriesBefore up, F x = x) (h2 : ∀ x ∈ entriesAfter up, F x = x) :
    up.map (frame.mapData F) = up := by
  induction up with
  | nil => rfl
  | cons f up ih =>
    cases f with
    | inLeft c e r =>
      simp only [entriesBefore] at h1
      have h2 : ∀ x, x = e ∨ x ∈ entries r ∨ x ∈ entriesAfter up → F x = x := by
        intro x hx
        apply h2
        simp only [entriesAfter, List.mem_cons, List.mem_append]
        tauto
      simp only [List.map_cons, frame.mapData]
      rw [ih h1 (fun x hx => h2 x (Or.inr (Or.inr hx))),
        mapData_id F r (fun x hx => h2 x (Or.inr (Or.inl hx))), h2 e (Or.inl rfl)]
    | inRight c l e =>
      simp only [entriesAfter] at h2
      have h1 : ∀ x, x ∈ entriesBefore up ∨ x ∈ entries l ∨ x = e → F x = x := by
        intro x hx
        apply h1
        simp only [entriesBefore, List.mem_append, List.mem_singleton]
        tauto
      simp only [List.map_cons, frame.mapData]
      rw [ih (fun x hx => h1 x (Or.inl hx)) h2,
        mapData_id F l (fun x hx => h1 x (Or.inr (Or.inl hx))), h1 e (Or.inr (Or.inr rfl))]

/-- In an ordered tree, rewriting the payload with a given hash rewrites the node pointed at and
nothing else. -/
theorem mapData_at_hash (F : entry K V → entry K V) (c : color) (l : rbTreeNode K V)
    (e : entry K V) (r : rbTreeNode K V) (up : List (frame K V))
    (hinc : increasing (entries (crawl (.real c l e r) up))) :
    (crawl (.real c l e r) up).mapData (fun x => if x.keyHash = e.keyHash then F x else x)
      = crawl (.real c l (F e) r) up := by
  rw [entries_crawl, increasing_append, increasing_append] at hinc
  obtain ⟨⟨hb, hn, hbn⟩, ha, hna⟩ := hinc
  simp only [entries] at hn hbn hna
  rw [increasing_append, increasing_cons] at hn
  obtain ⟨_, ⟨her, _⟩, hle⟩ := hn
  have hl : ∀ x ∈ entries l, x.keyHash ≠ e.keyHash := fun x hx =>
    ne_of_lt (hle x hx e (List.mem_cons_self _ _))
  have hr : ∀ x ∈ entries r, x.keyHash ≠ e.keyHash := fun x hx => (ne_of_lt (her x hx)).symm
  have hbef : ∀ x ∈ entriesBefore up, x.keyHash ≠ e.keyHash := fun x hx =>
    ne_of_lt (hbn x hx e (by simp))
  have haft : ∀ x ∈ entriesAfter up, x.keyHash ≠ e.keyHash := fun x hx =>
    (ne_of_lt (hna e (by simp) x hx)).symm
  rw [mapData_crawl, mapData_frames_id _ up (fun x hx => by simp [hbef x hx])
    (fun x hx => by simp [haft x hx])]
  simp only [rbTreeNode.mapData, if_true]
  rw [mapData_id _ l (fun x hx => by simp [hl x hx]), mapData_id _ r (fun x hx => by simp [hr x hx])]

theorem increasing_unique {es : List (entry K V)} {a b : entry K V} (hinc : increasing es)
    (ha : a ∈ es) (hb : b ∈ es) (hab : a.keyHash = b.keyHash) : a = b := by
  induction es with
  | nil => cases ha
  | cons x es ih =>
    rw [increasing_cons] at hinc
    rcases List.mem_cons.mp ha with rfl | ha2
    · rcases List.mem_cons.mp hb with rfl | hb2
      · rfl
      · have := hinc.1 b hb2
        omega
    · rcases List.mem_cons.mp hb with rfl | hb2
      · have := hinc.1 a ha2
        omega
      · exact ih hinc.2 ha2 hb2

theorem Remove_with_collisions [DecidableEq K] (h : K → Int) (rb : rbTree K V)
    (hv : rb.valid h) (key : K) (pick : Nat) (t : rbTreeNode K V) (hroot : rb.root = some t)
    (e : entry K V) (he : e ∈ entries t) (hk : e.keyHash = h key) (hcoll : e.collisions ≠ []) :
    Remove rb pick key = some (rb.setRoot (some
      (t.mapData fun x => if x.keyHash = h key then x.drop pick key else x)), true) := by
  obtain ⟨hhf, hrt, hinc, _⟩ := hv
  rcases rb with ⟨root, hf⟩
  simp only at hhf hroot
  subst hhf hroot
  obtain ⟨hleaf, n, ht⟩ := hrt t rfl
  have hinc2 : increasing (entries t) := hinc
  rcases findByKeyHash_spec t [] key (hf key) _ _ ht hleaf hinc2 with
    ⟨c, l, e2, r, up2, hfind, hk2, hcr, hmem⟩ | ⟨_, hnone⟩
  · simp only [crawl] at hcr
    have hee : e2 = e := increasing_unique hinc2 hmem he (hk2.trans hk.symm)
    subst hee
    have hmap := mapData_at_hash (fun x => x.drop pick key) c l e2 r up2 (hcr ▸ hinc2)
    rw [hcr, hk] at hmap
    rw [hmap]
    have hlen : e2.collisions.length > 0 := List.length_pos.mpr hcoll
    simp [Remove, hfind, hlen, entry.drop, rbTree.setRoot]
  · exact absurd hk (hnone e he)

theorem sameShape_mapData (F : entry K V → entry K V) (t : rbTreeNode K V) :
    sameShape (t.mapData F) t := by
  induction t with
  | sentinel c => simp [rbTreeNode.mapData, sameShape]
  | real c l e r ihl ihr => exact ⟨rfl, ihl, ihr⟩

theorem entries_mapData (F : entry K V → entry K V) (t : rbTreeNode K V) :
    entries (t.mapData F) = (entries t).map F := by
  induction t with
  | sentinel c => rfl
  | real c l e r ihl ihr => simp [rbTreeNode.mapData, entries, ihl, ihr]

/-! ## Calls that do not change the structure -/

theorem sentinelsBlack.real_of_nonleaf {t : rbTreeNode K V} (h : sentinelsBlack t)
    (hl : isLeaf t = false) : ∃ c l e r, t = .real c l e r := by
  cases t with
  | sentinel c =>
    simp only [sentinelsBlack] at h
    simp [isLeaf, h] at hl
  | real c l e r => exact ⟨_, _, _, _, rfl⟩

theorem getLeftmostNode_first (t : rbTreeNode K V) (up : List (frame K V))
    (ht : sentinelsBlack t) (hreal : isLeaf t = false) :
    ∃ rc re rr below,
      getLeftmostNode t up = some ⟨.real rc (.sentinel color.black) re rr, below ++ up⟩ ∧
      crawl (.real rc (.sentinel color.black) re rr) below = t ∧
      entries t = re :: (entries rr ++ entriesAfter below) := by
  induction t generalizing up with
  | sentinel c =>
    simp only [sentinelsBlack] at ht
    simp [isLeaf, ht] at hreal
  | real c l e r ihl _ =>
    rw [getLeftmostNode]
    by_cases hleaf : isLeaf l = true
    · have := RB.sentinel_black_of_isLeaf hleaf
      subst this
      exact ⟨c, e, r, [], by simp [isLeaf_sentinel], rfl, by simp [entries, entriesAfter]⟩
    · have hleaf2 : isLeaf l = false := by simpa using hleaf
      obtain ⟨rc, re, rr, below, hf, hcr, hent⟩ := ihl (.inLeft c e r :: up) ht.1 hleaf2
      refine ⟨rc, re, rr, below ++ [.inLeft c e r], ?_, ?_, ?_⟩
      · simp [hleaf2, hf]
      · rw [crawl_append, hcr]; rfl
      · simp [entries, hent, entriesAfter_append, entriesAfter]

theorem getRightmostNode_last (t : rbTreeNode K V) (up : List (frame K V))
    (ht : sentinelsBlack t) (hreal : isLeaf t = false) :
    ∃ rc rl re below,
      getRightmostNode t up = some ⟨.real rc rl re (.sentinel color.black), below ++ up⟩ ∧
      crawl (.real rc rl re (.sentinel color.black)) below = t ∧
      entries t = (entriesBefore below ++ entries rl) ++ [re] := by
  induction t generalizing up with
  | sentinel c =>
    simp only [sentinelsBlack] at ht
    simp [isLeaf, ht] at hreal
  | real c l e r _ ihr =>
    rw [getRightmostNode]
    by_cases hleaf : isLeaf r = true
    · have := RB.sentinel_black_of_isLeaf hleaf
      subst this
      exact ⟨c, l, e, [], by simp [isLeaf_sentinel], rfl, by simp [entries, entriesBefore]⟩
    · have hleaf2 : isLeaf r = false := by simpa using hleaf
      obtain ⟨rc, rl, re, below, hf, hcr, hent⟩ := ihr (.inRight c l e :: up) ht.2 hleaf2
      refine ⟨rc, rl, re, below ++ [.inRight c l e], ?_, ?_, ?_⟩
      · simp [hleaf2, hf]
      · rw [crawl_append, hcr]; rfl
      · simp [entries, hent, entriesBefore_append, entriesBefore]

/-- C18 (the replacement node): for every real node `n` of a tree ordered by hash whose sentinels
are black, `getReplacementNode(n)` returns a node of the tree below `n`: when the right child
of `n` is real, the node of the right subtree with the smallest hash, whose left child is a
sentinel; otherwise, when the left child is real, the node of the left subtree with the largest
hash, whose right child is a sentinel; otherwise `n` itself.  In every case one of the children
of the returned node is a sentinel. -/
theorem replacement_node_selection (c : color) (l : rbTreeNode K V) (e : entry K V)
    (r : rbTreeNode K V) (hwf : sentinelsBlack (.real c l e r))
    (hinc : increasing (entries (.real c l e r))) :
    ∃ rc rl re rr rel,
      getReplacementNode (.real c l e r) = some ⟨.real rc rl re rr, rel⟩ ∧
      crawl (.real rc rl re rr) rel = .real c l e r ∧
      (isLeaf rl = true ∨ isLeaf rr = true) ∧
      (isLeaf r = false →
        (∃ below, rel = below ++ [.inRight c l e] ∧ crawl (.real rc rl re rr) below = r) ∧
        re ∈ entries r ∧ (∀ x ∈ entries r, re.keyHash ≤ x.keyHash) ∧ isLeaf rl = true) ∧
      (isLeaf r = true → isLeaf l = false →
        (∃ below, rel = below ++ [.inLeft c e r] ∧ crawl (.real rc rl re rr) below = l) ∧
        re ∈ entries l ∧ (∀ x ∈ entries l, x.keyHash ≤ re.keyHash) ∧ isLeaf rr = true) ∧
      (isLeaf r = true → isLeaf l = true →
        rel = [] ∧ rbTreeNode.real rc rl re rr = .real c l e r) := by
  simp only [entries] at hinc
  rw [increasing_append, increasing_cons] at hinc
  obtain ⟨hincl, ⟨_, hincr⟩, _⟩ := hinc
  by_cases hleafr : isLeaf r = true
  · by_cases hleafl : isLeaf l = true
    · refine ⟨c, l, e, r, [], by simp [getReplacementNode, hleafr, hleafl], rfl, Or.inl hleafl,
        ?_, ?_, ?_⟩
      · intro h1
        rw [hleafr] at h1
        cases h1
      · intro _ h1
        rw [hleafl] at h1
        cases h1
      · intro _ _
        exact ⟨rfl, rfl⟩
    · have hleafl2 : isLeaf l = false := by simpa using hleafl
      obtain ⟨rc, rl, re, below, hf, hcr, hent⟩ :=
        getRightmostNode_last l [.inLeft c e r] hwf.1 hleafl2
      refine ⟨rc, rl, re, .sentinel color.black, below ++ [.inLeft c e r],
        by simp [getReplacementNode, hleafr, hleafl2, hf], by rw [crawl_append, hcr]; rfl,
        Or.inr rfl, ?_, ?_, ?_⟩
      · intro h1
        rw [hleafr] at h1
        cases h1
      · intro _ _
        refine ⟨⟨below, rfl, hcr⟩, by rw [hent]; simp, ?_, rfl⟩
        intro x hx
        rw [hent] at hx hincl
        rcases List.mem_append.mp hx with hx2 | hx2
        · rw [increasing_append] at hincl
          exact le_of_lt (hincl.2.2 x hx2 re (by simp))
        · simp only [List.mem_singleton] at hx2
          rw [hx2]
      · intro _ h1
        rw [hleafl2] at h1
        cases h1
  · have hleafr2 : isLeaf r = false := by simpa using hleafr
    obtain ⟨rc, re, rr, below, hf, hcr, hent⟩ :=
      getLeftmostNode_first r [.inRight c l e] hwf.2 hleafr2
    refine ⟨rc, .sentinel color.black, re, rr, below ++ [.inRight c l e],
      by simp [getReplacementNode, hleafr2, hf], by rw [crawl_append, hcr]; rfl,
      Or.inl rfl, ?_, ?_, ?_⟩
    · intro _
      refine ⟨⟨below, rfl, hcr⟩, by rw [hent]; simp, ?_, rfl⟩
      intro x hx
      rw [hent] at hx hincr
      rcases List.mem_cons.mp hx with hx2 | hx2
      · rw [hx2]
      · rw [increasing_cons] at hincr
        exact le_of_lt (hincr.1 x hx2)
    · intro h1
      rw [hleafr2] at h1
      cases h1
    · intro h1
      rw [hleafr2] at h1
      cases h1

theorem replacement_node_selection_witness :
    sentinelsBlack afterInsertsTree ∧ increasing (entries afterInsertsTree) ∧
      ∃ rc rl re rr rel,
        getReplacementNode afterInsertsTree = some ⟨.real rc rl re rr, rel⟩ ∧
        crawl (.real rc rl re rr) rel = afterInsertsTree ∧
        (isLeaf rl = true ∨ isLeaf rr = true) ∧
        (isLeaf (rbTreeNode.real color.red (.sentinel color.black)
            (⟨6, 6, "b", []⟩ : entry Int String) (.sentinel color.black)) = false →
          (∃ below, rel = below ++ [.inRight color.black (.sentinel color.black) ⟨4, 5, "a", []⟩] ∧
            crawl (.real rc rl re rr) below = .real color.red (.sentinel color.black)
              ⟨6, 6, "b", []⟩ (.sentinel color.black)) ∧
          re ∈ entries (rbTreeNode.real color.red (.sentinel color.black)
            (⟨6, 6, "b", []⟩ : entry Int String) (.sentinel color.black)) ∧
          (∀ x ∈ entries (rbTreeNode.real color.red (.sentinel color.black)
            (⟨6, 6, "b", []⟩ : entry Int String) (.sentinel color.black)),
            re.keyHash ≤ x.keyHash) ∧ isLeaf rl = true) ∧
        (isLeaf (rbTreeNode.real color.red (.sentinel color.black)
            (⟨6, 6, "b", []⟩ : entry Int String) (.sentinel color.black)) = true →
          isLeaf (rbTreeNode.sentinel color.black : rbTreeNode Int String) = false →
          (∃ below, rel = below ++ [.inLeft color.black ⟨4, 5, "a", []⟩
              (.real color.red (.sentinel color.black) ⟨6, 6, "b", []⟩
                (.sentinel color.black))] ∧
            crawl (.real rc rl re rr) below = .sentinel color.black) ∧
          re ∈ entries (rbTreeNode.sentinel color.black : rbTreeNode Int String) ∧
          (∀ x ∈ entries (rbTreeNode.sentinel color.black : rbTreeNode Int String),
            x.keyHash ≤ re.keyHash) ∧ isLeaf rr = true) ∧
        (isLeaf (rbTreeNode.real color.red (.sentinel color.black)
            (⟨6, 6, "b", []⟩ : entry Int String) (.sentinel color.black)) = true →
          isLeaf (rbTreeNode.sentinel color.black : rbTreeNode Int String) = true →
          rel = [] ∧ rbTreeNode.real rc rl re rr = afterInsertsTree) :=
  ⟨by simp [afterInsertsTree, sentinelsBlack],
    by simp [afterInsertsTree, entries, increasing],
    replacement_node_selection color.black (.sentinel color.black) ⟨4, 5, "a", []⟩
      (.real color.red (.sentinel color.black) ⟨6, 6, "b", []⟩ (.sentinel color.black))
      (by simp [sentinelsBlack]) (by simp [entries, increasing])⟩

/-! ## The calls made during a repair -/

/-- A called function returns what its caller returns: every call of `next` is the last action
of the body it is in. -/
theorem next_run (f g : routine) (p q : ptr K V) (h : f.next p = some (g, q)) :
    f.run p = g.run q := by
  rcases p with ⟨n, up⟩
  cases f with
  | insertCase1 =>
    cases up with
    | nil => simp [routine.next] at h
    | cons f up =>
      simp only [routine.next, Option.some.injEq, Prod.mk.injEq] at h
      obtain ⟨rfl, rfl⟩ := h
      simp [routine.run, insertCase1]
  | insertCase2 =>
    cases up with
    | nil => simp [routine.next] at h
    | cons f up =>
      simp only [routine.next] at h
      split at h
      · cases h
      · rename_i hc
        simp only [Option.some.injEq, Prod.mk.injEq] at h
        obtain ⟨rfl, rfl⟩ := h
        simp [routine.run, insertCase2, hc]
  | insertCase3 =>
    match up, h with
    | [], h =>
      simp only [routine.next, Option.some.injEq, Prod.mk.injEq] at h
      obtain ⟨rfl, rfl⟩ := h
      simp [routine.run]
    | [f], h =>
      simp only [routine.next, Option.some.injEq, Prod.mk.injEq] at h
      obtain ⟨rfl, rfl⟩ := h
      simp [routine.run, insertCase3]
    | f :: g :: up, h =>
      simp only [routine.next] at h
      split at h
      · rename_i hc
        simp only [Option.some.injEq, Prod.mk.injEq] at h
        obtain ⟨rfl, rfl⟩ := h
        simp [routine.run, insertCase3, hc]
      · rename_i hc
        simp only [Option.some.injEq, Prod.mk.injEq] at h
        obtain ⟨rfl, rfl⟩ := h
        simp [routine.run, insertCase3, hc]
  | insertCase4 =>
    match up, h with
    | [], h => simp [routine.next] at h
    | [_], h => simp [routine.next] at h
    | .inRight pc pl pe :: .inLeft gc ge gr :: up, h =>
      simp only [routine.next] at h
      split at h
      · cases h
      · rename_i hc
        rcases Option.map_eq_some'.mp h with ⟨m, hm, hq⟩
        simp only [Prod.mk.injEq] at hq
        obtain ⟨rfl, rfl⟩ := hq
        simp [routine.run, insertCase4, hc, hm]
    | .inLeft pc pe pr :: .inRight gc gl ge :: up, h =>
      simp only [routine.next] at h
      split at h
      · cases h
      · rename_i hc
        rcases Option.map_eq_some'.mp h with ⟨m, hm, hq⟩
        simp only [Prod.mk.injEq] at hq
        obtain ⟨rfl, rfl⟩ := hq
        simp [routine.run, insertCase4, hc, hm]
    | .inLeft pc pe pr :: .inLeft gc ge gr :: up, h =>
      simp only [routine.next, Option.some.injEq, Prod.mk.injEq] at h
      obtain ⟨rfl, rfl⟩ := h
      simp [routine.run, insertCase4]
    | .inRight pc pl pe :: .inRight gc gl ge :: up, h =>
      simp only [routine.next, Option.some.injEq, Prod.mk.injEq] at h
      obtain ⟨rfl, rfl⟩ := h
      simp [routine.run, insertCase4]
  | insertCase5 => simp [routine.next] at h
  | deleteCase1 =>
    cases up with
    | nil => simp [routine.next] at h
    | cons f up =>
      simp only [routine.next, Option.some.injEq, Prod.mk.injEq] at h
      obtain ⟨rfl, rfl⟩ := h
      simp [routine.run, deleteCase1]
  | deleteCase2 =>
    cases up with
    | nil => simp [routine.next] at h
    | cons f up =>
      simp only [routine.next] at h
      rcases Option.map_eq_some'.mp h with ⟨m, hm, hq⟩
      simp only [Prod.mk.injEq] at hq
      obtain ⟨rfl, rfl⟩ := hq
      simp only [routine.run]
      rw [deleteCase2]
      split
      · rename_i h2
        rw [hm] at h2
        cases h2
      · rename_i p2 h2
        rw [hm] at h2
        cases h2
        rfl
  | deleteCase3 =>
    cases up with
    | nil => simp [routine.next] at h
    | cons f up =>
      simp only [routine.next] at h
      simp only [routine.run]
      rw [deleteCase3]
      split at h
      · rename_i hc
        simp only [hc, dite_true]
        split at h
        · cases h
        · rename_i x hs
          simp only [Option.some.injEq, Prod.mk.injEq] at h
          obtain ⟨rfl, rfl⟩ := h
          simp [hs, routine.run]
        · rename_i x hs
          simp only [Option.some.injEq, Prod.mk.injEq] at h
          obtain ⟨rfl, rfl⟩ := h
          simp [hs, routine.run]
      · rename_i hc
        simp only [hc, dite_false]
        simp only [Option.some.injEq, Prod.mk.injEq] at h
        obtain ⟨rfl, rfl⟩ := h
        simp [routine.run]
  | deleteCase4 =>
    cases up with
    | nil => simp [routine.next] at h
    | cons f up =>
      simp only [routine.next] at h
      simp only [routine.run, deleteCase4]
      split at h
      · cases h
      · cases h
      · rename_i hc
        simp only [Option.some.injEq, Prod.mk.injEq] at h
        obtain ⟨rfl, rfl⟩ := h
        simp only [hc, routine.run]
  | deleteCase5 =>
    match up, h with
    | [], h => simp [routine.next] at h
    | .inLeft pc pe s :: up, h =>
      simp only [routine.next] at h
      simp only [routine.run, deleteCase5]
      split at h
      · rename_i hc
        simp only [hc, if_true]
        cases s with
        | sentinel sc => simp at h
        | real sc sl se sr =>
          simp only at h ⊢
          split at h
          · rename_i hc2
            rcases Option.map_eq_some'.mp h with ⟨m, hm, hq⟩
            simp only [Prod.mk.injEq] at hq
            obtain ⟨rfl, rfl⟩ := hq
            simp [hc2, hm]
          · rename_i hc2
            simp only [Option.some.injEq, Prod.mk.injEq] at h
            obtain ⟨rfl, rfl⟩ := h
            simp [hc2]
      · rename_i hc
        simp only [Option.some.injEq, Prod.mk.injEq] at h
        obtain ⟨rfl, rfl⟩ := h
        simp [hc]
    | .inRight pc s pe :: up, h =>
      simp only [routine.next] at h
      simp only [routine.run, deleteCase5]
      split at h
      · rename_i hc
        simp only [hc, if_true]
        cases s with
        | sentinel sc => simp at h
        | real sc sl se sr =>
          simp only at h ⊢
          split at h
          · rename_i hc2
            rcases Option.map_eq_some'.mp h with ⟨m, hm, hq⟩
            simp only [Prod.mk.injEq] at hq
            obtain ⟨rfl, rfl⟩ := hq
            simp [hc2, hm]
          · rename_i hc2
            simp only [Option.some.injEq, Prod.mk.injEq] at h
            obtain ⟨rfl, rfl⟩ := h
            simp [hc2]
      · rename_i hc
        simp only [Option.some.injEq, Prod.mk.injEq] at h
        obtain ⟨rfl, rfl⟩ := h
        simp [hc]
  | deleteCase6 => simp [routine.next] at h

theorem reaches_run {c d : routine × ptr K V} (h : reaches c d) : c.1.run c.2 = d.1.run d.2 := by
  induction h with
  | here c => rfl
  | call hn _ ih => rw [← ih]; exact next_run _ _ _ _ hn

theorem insertCase5_grandparent {p q : ptr K V} (h : insertCase5 p = some q) :
    ∃ g, getGrandparent p = some g := by
  rcases p with ⟨n, up⟩
  match up, h with
  | [], h => simp [insertCase5] at h
  | [_], h => simp [insertCase5] at h
  | f :: g :: up, _ => exact ⟨_, rfl⟩

theorem insertCase4_grandparent {p q : ptr K V} (h : insertCase4 p = some q) :
    ∃ g, getGrandparent p = some g := by
  rcases p with ⟨n, up⟩
  match up, h with
  | [], h => simp [insertCase4] at h
  | [_], h => simp [insertCase4] at h
  | f :: g :: up, _ => exact ⟨_, rfl⟩

theorem deleteCase6_sibling {p q : ptr K V} (h : deleteCase6 p = some q) :
    ∃ c l e r, getSibling p = some (.real c l e r) := by
  rcases p with ⟨n, up⟩
  match up, h with
  | [], h => simp [deleteCase6] at h
  | .inLeft pc pe (.sentinel sc) :: up, h => simp [deleteCase6] at h
  | .inRight pc (.sentinel sc) pe :: up, h => simp [deleteCase6] at h
  | .inLeft pc pe (.real sc sl se sr) :: up, _ => exact ⟨_, _, _, _, rfl⟩
  | .inRight pc (.real sc sl se sr) pe :: up, _ => exact ⟨_, _, _, _, rfl⟩

theorem deleteCase5_sibling {p q : ptr K V} (h : deleteCase5 p = some q) :
    ∃ c l e r, getSibling p = some (.real c l e r) := by
  rcases p with ⟨n, up⟩
  match up, h with
  | [], h => simp [deleteCase5] at h
  | .inLeft pc pe (.real sc sl se sr) :: up, _ => exact ⟨_, _, _, _, rfl⟩
  | .inRight pc (.real sc sl se sr) pe :: up, _ => exact ⟨_, _, _, _, rfl⟩
  | .inLeft pc pe (.sentinel sc) :: up, h =>
    simp only [deleteCase5] at h
    split at h
    · simp at h
    · exact deleteCase6_sibling h
  | .inRight pc (.sentinel sc) pe :: up, h =>
    simp only [deleteCase5] at h
    split at h
    · simp at h
    · exact deleteCase6_sibling h

theorem deleteCase4_sibling {p q : ptr K V} (h : deleteCase4 p = some q) :
    ∃ c l e r, getSibling p = some (.real c l e r) := by
  rcases p with ⟨n, up⟩
  match up, h with
  | [], h => simp [deleteCase4] at h
  | f :: up, h =>
    cases hs : f.sibling with
    | real sc sl se sr => exact ⟨sc, sl, se, sr, by simp [getSibling, hs]⟩
    | sentinel sc =>
      exfalso
      simp only [deleteCase4, hs, siblingFamilyBlack] at h
      split at h
      · cases h
      · rename_i hc
        split at hc
        · split at hc
          · cases hc
          · cases hc
        · cases hc
      · obtain ⟨c, l, e, r, h5⟩ := deleteCase5_sibling h
        simp [getSibling, hs] at h5

theorem deleteCase3_sibling {p q : ptr K V} (h : deleteCase3 p = some q) :
    ∃ c l e r, getSibling p = some (.real c l e r) := by
  rcases p with ⟨n, up⟩
  match up, h with
  | [], h =>
    rw [deleteCase3] at h
    cases h
  | f :: up, h =>
    cases hs : f.sibling with
    | real sc sl se sr => exact ⟨sc, sl, se, sr, by simp [getSibling, hs]⟩
    | sentinel sc =>
      exfalso
      have h4 : ∀ q2, deleteCase4 ⟨n, f :: up⟩ = some q2 → False := by
        intro q2 hq2
        obtain ⟨c, l, e, r, h5⟩ := deleteCase4_sibling hq2
        simp [getSibling, hs] at h5
      rw [deleteCase3] at h
      split at h
      · simp only [hs, siblingFamilyBlack] at h
        split at h
        · cases h
        · rename_i hc
          split at hc
          · cases hc
          · cases hc
        · exact h4 _ h
      · exact h4 _ h

theorem deleteCase2_sibling {n : rbTreeNode K V} {f : frame K V} {up : List (frame K V)}
    {q : ptr K V} (h : deleteCase2 n f up = some q) :
    ∃ c l e r, getSibling ⟨n, f :: up⟩ = some (.real c l e r) := by
  cases hs : f.sibling with
  | real sc sl se sr => exact ⟨sc, sl, se, sr, by simp [getSibling, hs]⟩
  | sentinel sc =>
    exfalso
    rw [deleteCase2] at h
    split at h
    · cases h
    · rename_i m hm
      obtain ⟨c, l, e, r, h3⟩ := deleteCase3_sibling h
      cases f with
      | inLeft pc pe s =>
        simp only [frame.sibling] at hs
        subst hs
        unfold deleteCase2Rotate at hm
        split at hm
        · simp [rotateLeft, isLeaf, rbTreeNode.paint, ptr.goLeft] at hm
          subst hm
          simp [getSibling, frame.sibling] at h3
        · cases hm
          simp [getSibling, frame.sibling] at h3
      | inRight pc s pe =>
        simp only [frame.sibling] at hs
        subst hs
        unfold deleteCase2Rotate at hm
        split at hm
        · simp [rotateRight, isLeaf, rbTreeNode.paint, ptr.goRight] at hm
          subst hm
          simp [getSibling, frame.sibling] at h3
        · cases hm
          simp [getSibling, frame.sibling] at h3

theorem Insert_of_insertStart [DecidableEq K] (rb : rbTree K V) (key : K) (value : V)
    (p0 : ptr K V) (h : insertStart rb key value = some p0) :
    Insert rb key value
      = (insertCase1 p0).map fun p => rb.setRoot (some (crawl p.node p.up)) := by
  unfold insertStart at h
  unfold Insert
  cases hroot : rb.root with
  | none =>
    simp only [hroot, Option.some.injEq] at h
    subst h
    rfl
  | some root =>
    simp only [hroot] at h ⊢
    split at h
    · rename_i hf
      simp only [Option.some.injEq] at h
      subst h
      simp only [hf]
    · rename_i hf
      simp only [Option.some.injEq] at h
      subst h
      simp only [hf]
    · cases h

theorem Remove_of_removeStart [DecidableEq K] (rb : rbTree K V) (key : K) (pick : Nat)
    (p0 : ptr K V) (h : removeStart rb key = some p0) :
    Remove rb pick key
      = (deleteCase1 p0).map fun p =>
          (rb.setRoot (if isLeaf (crawl p.node p.up) then none else some (crawl p.node p.up)),
            true) := by
  unfold removeStart at h
  unfold Remove
  cases hroot : rb.root with
  | none =>
    simp only [hroot] at h
    cases h
  | some root =>
    simp only [hroot] at h ⊢
    split at h
    · rename_i hf
      simp only [hf]
      split at h
      · cases h
      · rename_i hc
        simp only [hc, if_false]
        split at h
        · rename_i rc rl re rr rel hrep
          simp only [hrep]
          by_cases hred : rc = color.red
          · simp [hred] at h
          · by_cases hred2 : (if isLeaf rr = true then rl else rr).colorOf = color.red
            · simp [hred, hred2] at h
            · simp only [hred, hred2, if_false, Option.some.injEq] at h
              subst h
              simp only [hred, hred2, if_false]
        · cases h
    · cases h

/-! ## The calls of the repair functions are reached -/

/-- The calls of `insertCase4` and `insertCase5` are reached: `Insert(3, "c")` on the reachable map
that holds `1` and `2` calls `insertCase1` on the new node, which gets to them through
`insertCase2` and `insertCase3`. -/
theorem insertCase5_reached :
    Reachable testHash oneTwo ∧ insertStart oneTwo 3 "c" = some oneTwoStart ∧
      reaches (routine.insertCase1, oneTwoStart) (routine.insertCase4, oneTwoStart) ∧
      reaches (routine.insertCase1, oneTwoStart) (routine.insertCase5, oneTwoStart) := by
  have h1 : routine.insertCase1.next oneTwoStart = some (routine.insertCase2, oneTwoStart) := rfl
  have h2 : routine.insertCase2.next oneTwoStart = some (routine.insertCase3, oneTwoStart) := rfl
  have h3 : routine.insertCase3.next oneTwoStart = some (routine.insertCase4, oneTwoStart) := rfl
  have h4 : routine.insertCase4.next oneTwoStart = some (routine.insertCase5, oneTwoStart) := rfl
  refine ⟨oneTwo_reachable, ?_, ?_, ?_⟩
  · simp [insertStart, oneTwo, findInsertionParent, testHash, isLeaf, oneTwoStart]
  · exact reaches.call h1 (reaches.call h2 (reaches.call h3 (reaches.here _)))
  · exact reaches.call h1 (reaches.call h2 (reaches.call h3 (reaches.call h4 (reaches.here _))))

/-- The calls of `deleteCase2` to `deleteCase6` are reached: `Remove(1)` on the reachable map that
holds `1`, `2`, `3` and `4` calls `deleteCase1` on the sentinel that replaces the black node of
`1`, which gets to `deleteCase6` through `deleteCase2`, ..., `deleteCase5`. -/
theorem deleteCase6_reached :
    Reachable testHash oneToFour ∧ removeStart oneToFour 1 = some oneToFourStart ∧
      reaches (routine.deleteCase1, oneToFourStart) (routine.deleteCase2, oneToFourStart) ∧
      reaches (routine.deleteCase1, oneToFourStart) (routine.deleteCase3, oneToFourStart) ∧
      reaches (routine.deleteCase1, oneToFourStart) (routine.deleteCase4, oneToFourStart) ∧
      reaches (routine.deleteCase1, oneToFourStart) (routine.deleteCase5, oneToFourStart) ∧
      reaches (routine.deleteCase1, oneToFourStart) (routine.deleteCase6, oneToFourStart) := by
  have h1 : routine.deleteCase1.next oneToFourStart = some (routine.deleteCase2, oneToFourStart) :=
    rfl
  have h2 : routine.deleteCase2.next oneToFourStart = some (routine.deleteCase3, oneToFourStart) :=
    rfl
  have h3 : routine.deleteCase3.next oneToFourStart = some (routine.deleteCase4, oneToFourStart) :=
    rfl
  have h4 : routine.deleteCase4.next oneToFourStart = some (routine.deleteCase5, oneToFourStart) :=
    rfl
  have h5 : routine.deleteCase5.next oneToFourStart = some (routine.deleteCase6, oneToFourStart) :=
    rfl
  refine ⟨oneToFour_reachable, ?_, ?_, ?_, ?_, ?_, ?_⟩
  · simp [removeStart, oneToFour, findByKeyHash, testHash, isLeaf, oneToFourStart,
      getReplacementNode, copyNodeValue, setLastData, rbTreeNode.colorOf]
  · exact reaches.call h1 (reaches.here _)
  · exact reaches.call h1 (reaches.call h2 (reaches.here _))
  · exact reaches.call h1 (reaches.call h2 (reaches.call h3 (reaches.here _)))
  · exact reaches.call h1 (reaches.call h2 (reaches.call h3 (reaches.call h4 (reaches.here _))))
  · exact reaches.call h1 (reaches.call h2 (reaches.call h3 (reaches.call h4
      (reaches.call h5 (reaches.here _)))))

/-! ## Rotations keep the tree in memory well linked -/

namespace cells

variable {D : Type}

theorem store_apply (m : memory D) (a b : Nat) (c : cell D) :
    (m.store a c) b = if b = a then some c else m b := rfl

theorem rotateLeft_real_pivot (m : memory D) (x p la pla pra : Nat) (c pc : color) (d pd : D)
    (par pp : Option Nat) (plc : cell D)
    (hx : m x = some ⟨c, d, par, some la, some p⟩)
    (hp : m p = some ⟨pc, pd, pp, some pla, some pra⟩)
    (hpl : m pla = some plc)
    (hxp : x ≠ p) (h1 : pla ≠ x) (h2 : pla ≠ p)
    (hpar : ∀ pa, par = some pa → pa ≠ x ∧ pa ≠ p ∧ pa ≠ pla ∧
      ∃ q, m pa = some q ∧ (q.left = some x ∧ q.right ≠ some x ∨
        q.left ≠ some x ∧ q.right = some x)) :
    ∃ m2, rotateLeft m x = some m2 ∧
      m2 x = some ⟨c, d, some p, some la, some pla⟩ ∧
      m2 p = some ⟨pc, pd, par, some x, some pra⟩ ∧
      m2 pla = some { plc with parent := some x } ∧
      (∀ pa q, par = some pa → m pa = some q → m2 pa = some (q.replaceChild x p)) ∧
      (∀ a, a ≠ x → a ≠ p → a ≠ pla → par ≠ some a → m2 a = m a) := by
  cases par with
  | none =>
    simp only [rotateLeft, isLeaf, setLeft, setRight, setParent, hx, hp, hpl, hxp,
      hxp.symm, h1, h2, h1.symm, h2.symm, Option.bind_eq_bind, Option.some_bind, Option.map_some',
      Option.isNone_some, Bool.false_and, Bool.false_eq_true, ite_false, Option.pure_def,
      store_apply, if_true, if_false, Option.bind_some, Bool.and_false]
    refine ⟨_, rfl, ?_, ?_, ?_, ?_, ?_⟩
    · simp [store_apply, h1.symm]
    · simp [store_apply, h2.symm, hxp.symm]
    · simp [store_apply]
    · intro pa q h; cases h
    · intro a ha hb hc _
      simp [store_apply, ha, hb, hc]
  | some pa =>
    obtain ⟨hpax, hpap, hpapl, q, hq, hlr⟩ := hpar pa rfl
    have e1 := Ne.symm hpax
    have e2 := Ne.symm hpap
    have e3 := Ne.symm hpapl
    rcases hlr with ⟨hl, hr⟩ | ⟨hl, hr⟩
    · simp only [rotateLeft, isLeaf, setLeft, setRight, setParent, hx, hp, hpl, hxp, hq, hl, hr,
        hxp.symm, h1, h2, h1.symm, h2.symm, Option.bind_eq_bind, Option.some_bind,
        Option.map_some', hpax, hpap, hpapl, e1, e2, e3, not_false_eq_true, not_true_eq_false,
        Option.isNone_some, Bool.false_and, Bool.false_eq_true, ite_false, Option.pure_def,
        store_apply, if_true, if_false, Option.bind_some, Bool.and_false, ne_eq]
      refine ⟨_, rfl, ?_, ?_, ?_, ?_, ?_⟩
      · simp [store_apply, h1.symm]
      · simp [store_apply, h2.symm, hxp.symm]
      · simp [store_apply]
      · intro pa2 q2 h hq2
        cases h
        rw [hq] at hq2
        cases hq2
        simp [store_apply, e1, e2, e3, hpax, hpap, hpapl, cell.replaceChild, hl, hr]
      · intro a ha hb hc hd
        have hd2 : a ≠ pa := fun h => hd (by rw [h])
        simp [store_apply, ha, hb, hc, hd2]
    · simp only [rotateLeft, isLeaf, setLeft, setRight, setParent, hx, hp, hpl, hxp, hq, hl, hr,
        hxp.symm, h1, h2, h1.symm, h2.symm, Option.bind_eq_bind, Option.some_bind,
        Option.map_some', hpax, hpap, hpapl, e1, e2, e3, not_false_eq_true, not_true_eq_false,
        Option.isNone_some, Bool.false_and, Bool.false_eq_true, ite_false, Option.pure_def,
        store_apply, if_true, if_false, Option.bind_some, Bool.and_false, ne_eq]
      refine ⟨_, rfl, ?_, ?_, ?_, ?_, ?_⟩
      · simp [store_apply, h1.symm]
      · simp [store_apply, h2.symm, hxp.symm]
      · simp [store_apply]
      · intro pa2 q2 h hq2
        cases h
        rw [hq] at hq2
        cases hq2
        simp [store_apply, e1, e2, e3, hpax, hpap, hpapl, cell.replaceChild, hl, hr]
      · intro a ha hb hc hd
        have hd2 : a ≠ pa := fun h => hd (by rw [h])
        simp [store_apply, ha, hb, hc, hd2]

theorem rotateRight_real_pivot (m : memory D) (x p ra pla pra : Nat) (c pc : color) (d pd : D)
    (par pp : Option Nat) (prc : cell D)
    (hx : m x = some ⟨c, d, par, some p, some ra⟩)
    (hp : m p = some ⟨pc, pd, pp, some pla, some pra⟩)
    (hpl : m pra = some prc)
    (hxp : x ≠ p) (h1 : pra ≠ x) (h2 : pra ≠ p)
    (hpar : ∀ pa, par = some pa → pa ≠ x ∧ pa ≠ p ∧ pa ≠ pra ∧
      ∃ q, m pa = some q ∧ (q.left = some x ∧ q.right ≠ some x ∨
        q.left ≠ some x ∧ q.right = some x)) :
    ∃ m2, rotateRight m x = some m2 ∧
      m2 x = some ⟨c, d, some p, some pra, some ra⟩ ∧
      m2 p = some ⟨pc, pd, par, some pla, some x⟩ ∧
      m2 pra = some { prc with parent := some x } ∧
      (∀ pa q, par = some pa → m pa = some q → m2 pa = some (q.replaceChild x p)) ∧
      (∀ a, a ≠ x → a ≠ p → a ≠ pra → par ≠ some a → m2 a = m a) := by
  cases par with
  | none =>
    simp only [rotateRight, isLeaf, setLeft, setRight, setParent, hx, hp, hpl, hxp,
      hxp.symm, h1, h2, h1.symm, h2.symm, Option.bind_eq_bind, Option.some_bind, Option.map_some',
      Option.isNone_some, Bool.false_and, Bool.false_eq_true, ite_false, Option.pure_def,
      store_apply, if_true, if_false, Option.bind_some, Bool.and_false]
    refine ⟨_, rfl, ?_, ?_, ?_, ?_, ?_⟩
    · simp [store_apply, h1.symm]
    · simp [store_apply, h2.symm, hxp.symm]
    · simp [store_apply]
    · intro pa q h; cases h
    · intro a ha hb hc _
      simp [store_apply, ha, hb, hc]
  | some pa =>
    obtain ⟨hpax, hpap, hpapl, q, hq, hlr⟩ := hpar pa rfl
    have e1 := Ne.symm hpax
    have e2 := Ne.symm hpap
    have e3 := Ne.symm hpapl
    rcases hlr with ⟨hl, hr⟩ | ⟨hl, hr⟩
    · simp only [rotateRight, isLeaf, setLeft, setRight, setParent, hx, hp, hpl, hxp, hq, hl, hr,
        hxp.symm, h1, h2, h1.symm, h2.symm, Option.bind_eq_bind, Option.some_bind,
        Option.map_some', hpax, hpap, hpapl, e1, e2, e3, not_false_eq_true, not_true_eq_false,
        Option.isNone_some, Bool.false_and, Bool.false_eq_true, ite_false, Option.pure_def,
        store_apply, if_true, if_false, Option.bind_some, Bool.and_false, ne_eq]
      refine ⟨_, rfl, ?_, ?_, ?_, ?_, ?_⟩
      · simp [store_apply, h1.symm]
      · simp [store_apply, h2.symm, hxp.symm]
      · simp [store_apply]
      · intro pa2 q2 h hq2
        cases h
        rw [hq] at hq2
        cases hq2
        simp [store_apply, e1, e2, e3, hpax, hpap, hpapl, cell.replaceChild, hl, hr]
      · intro a ha hb hc hd
        have hd2 : a ≠ pa := fun h => hd (by rw [h])
        simp [store_apply, ha, hb, hc, hd2]
    · simp only [rotateRight, isLeaf, setLeft, setRight, setParent, hx, hp, hpl, hxp, hq, hl, hr,
        hxp.symm, h1, h2, h1.symm, h2.symm, Option.bind_eq_bind, Option.some_bind,
        Option.map_some', hpax, hpap, hpapl, e1, e2, e3, not_false_eq_true, not_true_eq_false,
        Option.isNone_some, Bool.false_and, Bool.false_eq_true, ite_false, Option.pure_def,
        store_apply, if_true, if_false, Option.bind_some, Bool.and_false, ne_eq]
      refine ⟨_, rfl, ?_, ?_, ?_, ?_, ?_⟩
      · simp [store_apply, h1.symm]
      · simp [store_apply, h2.symm, hxp.symm]
      · simp [store_apply]
      · intro pa2 q2 h hq2
        cases h
        rw [hq] at hq2
        cases hq2
        simp [store_apply, e1, e2, e3, hpax, hpap, hpapl, cell.replaceChild, hl, hr]
      · intro a ha hb hc hd
        have hd2 : a ≠ pa := fun h => hd (by rw [h])
        simp [store_apply, ha, hb, hc, hd2]

theorem addr_mem_addrs (T : layout D) : T.addr ∈ T.addrs := by
  cases T <;> simp [layout.addr, layout.addrs]

theorem realAddrs_subset (T : layout D) : ∀ x ∈ T.realAddrs, x ∈ T.addrs := by
  induction T with
  | sentinel a => intro x hx; simp [layout.realAddrs] at hx
  | real a c l d r ihl ihr =>
    intro x hx
    simp only [layout.realAddrs, List.mem_cons, List.mem_append] at hx
    simp only [layout.addrs, List.mem_cons, List.mem_append]
    rcases hx with h | h | h
    · exact Or.inl h
    · exact Or.inr (Or.inl (ihl x h))
    · exact Or.inr (Or.inr (ihr x h))

theorem holds_top {m : memory D} {par : Option Nat} {T : layout D} (h : holds m par T) :
    ∃ c, m T.addr = some c := by
  cases T with
  | sentinel a => obtain ⟨c, hc, _⟩ := h; exact ⟨c, hc⟩
  | real a col l d r => exact ⟨_, h.1⟩

theorem holds_congr {m m2 : memory D} (T : layout D) :
    ∀ par, (∀ a ∈ T.addrs, m2 a = m a) → holds m par T → holds m2 par T := by
  induction T with
  | sentinel a =>
    intro par h hT
    obtain ⟨c, hc, hrest⟩ := hT
    exact ⟨c, by rw [h a (by simp [layout.addrs])]; exact hc, hrest⟩
  | real a col l d r ihl ihr =>
    intro par h hT
    obtain ⟨h1, h2, h3⟩ := hT
    refine ⟨by rw [h a (by simp [layout.addrs])]; exact h1, ihl _ (fun b hb => h b ?_) h2,
      ihr _ (fun b hb => h b ?_) h3⟩
    · simp [layout.addrs, hb]
    · simp [layout.addrs, hb]

theorem holds_reparent {m m2 : memory D} (T : layout D) (par par2 : Option Nat)
    (hT : holds m par T) (hnd : T.addrs.Nodup)
    (hother : ∀ a ∈ T.addrs, a ≠ T.addr → m2 a = m a)
    (htop : ∀ c, m T.addr = some c → m2 T.addr = some { c with parent := par2 }) :
    holds m2 par2 T := by
  cases T with
  | sentinel a =>
    obtain ⟨c, hc, hrest⟩ := hT
    exact ⟨_, htop c hc, hrest⟩
  | real a col l d r =>
    obtain ⟨h1, h2, h3⟩ := hT
    simp only [layout.addrs, List.nodup_cons, List.mem_append, not_or] at hnd
    refine ⟨htop _ h1, holds_congr l _ (fun b hb => hother b ?_ ?_) h2,
      holds_congr r _ (fun b hb => hother b ?_ ?_) h3⟩
    · simp [layout.addrs, hb]
    · intro h; exact hnd.1.1 (by rw [← show b = a from h]; exact hb)
    · simp [layout.addrs, hb]
    · intro h; exact hnd.1.2 (by rw [← show b = a from h]; exact hb)

theorem replaceChild_self (a : Nat) (q : cell D) : q.replaceChild a a = q := by
  unfold cell.replaceChild
  split
  · rename_i h; cases q; simp_all
  · split
    · rename_i h; cases q; simp_all
    · rfl

theorem rotateLeftAt_not_mem (x : Nat) (T : layout D) (h : x ∉ T.realAddrs) :
    T.rotateLeftAt x = T := by
  induction T with
  | sentinel a => rfl
  | real a c l d r ihl ihr =>
    simp only [layout.realAddrs, List.mem_cons, List.mem_append, not_or] at h
    have ha : a ≠ x := fun e => h.1 e.symm
    simp [layout.rotateLeftAt, ha, ihl h.2.1, ihr h.2.2]

theorem rotateRightAt_not_mem (x : Nat) (T : layout D) (h : x ∉ T.realAddrs) :
    T.rotateRightAt x = T := by
  induction T with
  | sentinel a => rfl
  | real a c l d r ihl ihr =>
    simp only [layout.realAddrs, List.mem_cons, List.mem_append, not_or] at h
    have ha : a ≠ x := fun e => h.1 e.symm
    simp [layout.rotateRightAt, ha, ihl h.2.1, ihr h.2.2]

theorem rotateLeftAt_inorder (x : Nat) (T : layout D) :
    (T.rotateLeftAt x).inorder = T.inorder := by
  induction T with
  | sentinel a => rfl
  | real a c l d r ihl ihr =>
    by_cases ha : a = x
    · cases r with
      | sentinel ra => simp [layout.rotateLeftAt, ha]
      | real p pc pl pd pr => simp [layout.rotateLeftAt, ha, layout.inorder]
    · simp [layout.rotateLeftAt, ha, layout.inorder, ihl, ihr]

theorem rotateRightAt_inorder (x : Nat) (T : layout D) :
    (T.rotateRightAt x).inorder = T.inorder := by
  induction T with
  | sentinel a => rfl
  | real a c l d r ihl ihr =>
    by_cases ha : a = x
    · cases l with
      | sentinel ra => simp [layout.rotateRightAt, ha]
      | real p pc pl pd pr => simp [layout.rotateRightAt, ha, layout.inorder]
    · simp [layout.rotateRightAt, ha, layout.inorder, ihl, ihr]

theorem rotateLeftAt_addrs (x : Nat) (T : layout D) :
    (T.rotateLeftAt x).addrs.Perm T.addrs := by
  induction T with
  | sentinel a => exact List.Perm.refl _
  | real a c l d r ihl ihr =>
    by_cases ha : a = x
    · cases r with
      | sentinel ra => simp [layout.rotateLeftAt, ha]
      | real p pc pl pd pr =>
        simp only [layout.rotateLeftAt, ha, layout.addrs, if_true]
        refine (List.perm_iff_count).2 fun b => ?_
        simp only [List.count_cons, List.count_append]
        omega
    · simp only [layout.rotateLeftAt, ha, layout.addrs, if_false]
      exact List.Perm.cons _ (List.Perm.append ihl ihr)

theorem rotateRightAt_addrs (x : Nat) (T : layout D) :
    (T.rotateRightAt x).addrs.Perm T.addrs := by
  induction T with
  | sentinel a => exact List.Perm.refl _
  | real a c l d r ihl ihr =>
    by_cases ha : a = x
    · cases l with
      | sentinel ra => simp [layout.rotateRightAt, ha]
      | real p pc pl pd pr =>
        simp only [layout.rotateRightAt, ha, layout.addrs, if_true]
        refine (List.perm_iff_count).2 fun b => ?_
        simp only [List.count_cons, List.count_append]
        omega
    · simp only [layout.rotateRightAt, ha, layout.addrs, if_false]
      exact List.Perm.cons _ (List.Perm.append ihl ihr)

theorem rotateLeft_layout (m : memory D) (x : Nat) (T : layout D) :
    ∀ par : Option Nat, holds m par T → T.addrs.Nodup → x ∈ T.realAddrs →
      (∀ pa, par = some pa → pa ∉ T.addrs ∧
        ∃ q, m pa = some q ∧ (q.left = some T.addr ∧ q.right ≠ some T.addr ∨
          q.left ≠ some T.addr ∧ q.right = some T.addr)) →
      ∃ m2, rotateLeft m x = some m2 ∧ holds m2 par (T.rotateLeftAt x) ∧
        (∀ a, a ∉ T.addrs → par ≠ some a → m2 a = m a) ∧
        (∀ pa q, par = some pa → m pa = some q →
          m2 pa = some (q.replaceChild T.addr (T.rotateLeftAt x).addr)) ∧
        (T.rotateLeftAt x = T → m2 = m) := by
  induction T with
  | sentinel a => intro par _ _ hx; simp [layout.realAddrs] at hx
  | real a c l d r ihl ihr =>
    intro par hT hnd hx hpar
    obtain ⟨hma, hl, hr⟩ := hT
    have hnd0 := hnd
    simp only [layout.addrs, List.nodup_cons, List.mem_append, not_or, List.nodup_append] at hnd
    obtain ⟨⟨hal, har⟩, hndl, hndr, hdisj⟩ := hnd
    by_cases hax : a = x
    · subst hax
      cases r with
      | sentinel ra =>
        obtain ⟨rc, hrc, hblack, hnl, hnr⟩ := hr
        refine ⟨m, ?_, ?_, fun _ _ _ => rfl, ?_, fun _ => rfl⟩
        · simp [rotateLeft, hma, isLeaf, layout.addr, hrc, hblack, hnl, hnr]
        · simp only [layout.rotateLeftAt, if_true]
          exact ⟨hma, hl, ⟨rc, hrc, hblack, hnl, hnr⟩⟩
        · intro pa q _ hq
          simp only [layout.rotateLeftAt, if_true, layout.addr, replaceChild_self]
          exact hq
      | real p pc pl pd pr =>
        obtain ⟨hmp, hpl, hpr⟩ := hr
        obtain ⟨plc, hplc⟩ := holds_top hpl
        simp only [layout.addrs, List.mem_cons, List.mem_append, not_or] at har hdisj hndr
        have hpla := addr_mem_addrs pl
        have hap : a ≠ p := har.1
        have h1 : pl.addr ≠ a := fun e => har.2.1 (e ▸ hpla)
        have h2 : pl.addr ≠ p := by
          intro e
          simp only [List.nodup_cons, List.mem_append, not_or] at hndr
          exact hndr.1.1 (e ▸ hpla)
        obtain ⟨m2, hrot, hx2, hp2, hpl2, hpar2, hframe⟩ :=
          rotateLeft_real_pivot m a p l.addr pl.addr pr.addr c pc d pd par (some a) plc hma hmp
            hplc hap h1 h2 (by
              intro pa hpa
              obtain ⟨hpaT, q, hq, hlr⟩ := hpar pa hpa
              simp only [layout.addrs, List.mem_cons, List.mem_append, not_or] at hpaT
              exact ⟨hpaT.1, hpaT.2.2.1, fun e => hpaT.2.2.2.1 (e ▸ hpla), q, hq, hlr⟩)
        have hparT : ∀ b, b ∈ (layout.real a c l d (.real p pc pl pd pr)).addrs → par ≠ some b := by
          intro b hb e
          exact (hpar b e).1 hb
        refine ⟨m2, hrot, ?_, ?_, ?_, ?_⟩
        · simp only [layout.rotateLeftAt, if_true]
          simp only [List.nodup_cons, List.mem_append, not_or, List.nodup_append] at hndr
          refine ⟨hp2, ⟨hx2, ?_, ?_⟩, ?_⟩
          · refine holds_congr l _ (fun b hb => hframe b ?_ ?_ ?_ (hparT b ?_)) hl
            · intro e; exact hal (e ▸ hb)
            · intro e; exact hdisj hb (by simp [← e])
            · intro e; exact hdisj hb (by rw [e]; simp [hpla])
            · simp [layout.addrs, hb]
          · refine holds_reparent pl (some p) (some a) hpl hndr.2.1 (fun b hb hne => ?_) ?_
            · refine hframe b ?_ ?_ hne (hparT b ?_)
              · intro e; exact har.2.1 (e ▸ hb)
              · intro e; exact hndr.1.1 (e ▸ hb)
              · simp [layout.addrs, hb]
            · intro c0 hc0
              rw [hplc] at hc0
              cases hc0
              exact hpl2
          · refine holds_congr pr _ (fun b hb => hframe b ?_ ?_ ?_ (hparT b ?_)) hpr
            · intro e; exact har.2.2 (e ▸ hb)
            · intro e; exact hndr.1.2 (e ▸ hb)
            · intro e; exact hndr.2.2.2 hpla (e ▸ hb)
            · simp [layout.addrs, hb]
        · intro b hb hne
          simp only [layout.addrs, List.mem_cons, List.mem_append, not_or] at hb
          exact hframe b hb.1 hb.2.2.1 (fun e => hb.2.2.2.1 (e ▸ hpla)) hne
        · intro pa q hpa hq
          simpa [layout.rotateLeftAt, layout.addr] using hpar2 pa q hpa hq
        · intro e
          simp only [layout.rotateLeftAt, if_true] at e
          injection e with e1
          exact absurd e1.symm hap
    · have hxa : x ≠ a := fun e => hax e.symm
      simp only [layout.realAddrs, List.mem_cons, List.mem_append, hxa, false_or] at hx
      have hlr : l.addr ≠ r.addr := fun e => hdisj (addr_mem_addrs l) (e ▸ addr_mem_addrs r)
      have hparT : ∀ b, b ∈ (layout.real a c l d r).addrs → par ≠ some b := by
        intro b hb e
        exact (hpar b e).1 hb
      rcases hx with hx | hx
      · have hxr : x ∉ r.realAddrs := fun h => hdisj (realAddrs_subset l x hx) (realAddrs_subset r x h)
        obtain ⟨m2, hrot, hl2, hframe, hpar2, hsame⟩ := ihl (some a) hl hndl hx (by
          intro pa hpa
          cases hpa
          exact ⟨hal, _, hma, Or.inl ⟨rfl, fun e => hlr (Option.some.inj e).symm⟩⟩)
        have hma2 := hpar2 a _ rfl hma
        refine ⟨m2, hrot, ?_, ?_, ?_, ?_⟩
        · simp only [layout.rotateLeftAt, hax, if_false, rotateLeftAt_not_mem x r hxr]
          refine ⟨?_, hl2, holds_congr r _ (fun b hb => hframe b ?_ ?_) hr⟩
          · simpa [cell.replaceChild] using hma2
          · intro h; exact hdisj h hb
          · intro e; exact har (Option.some.inj e ▸ hb)
        · intro b hb hne
          simp only [layout.addrs, List.mem_cons, List.mem_append, not_or] at hb
          exact hframe b hb.2.1 (fun e => hb.1 (Option.some.inj e).symm)
        · intro pa q hpa hq
          have hpaT := (hpar pa hpa).1
          simp only [layout.addrs, List.mem_cons, List.mem_append, not_or] at hpaT
          rw [hframe pa hpaT.2.1 (fun e => hpaT.1 (Option.some.inj e).symm), hq]
          simp [layout.rotateLeftAt, hax, layout.addr, replaceChild_self]
        · intro e
          simp only [layout.rotateLeftAt, hax, if_false] at e
          injection e with _ _ e1
          exact hsame e1
      · have hxl : x ∉ l.realAddrs := fun h => hdisj (realAddrs_subset l x h) (realAddrs_subset r x hx)
        obtain ⟨m2, hrot, hr2, hframe, hpar2, hsame⟩ := ihr (some a) hr hndr hx (by
          intro pa hpa
          cases hpa
          exact ⟨har, _, hma, Or.inr ⟨fun e => hlr (Option.some.inj e), rfl⟩⟩)
        have hma2 := hpar2 a _ rfl hma
        refine ⟨m2, hrot, ?_, ?_, ?_, ?_⟩
        · simp only [layout.rotateLeftAt, hax, if_false, rotateLeftAt_not_mem x l hxl]
          refine ⟨?_, holds_congr l _ (fun b hb => hframe b ?_ ?_) hl, hr2⟩
          · simpa [cell.replaceChild, hlr] using hma2
          · intro h; exact hdisj hb h
          · intro e; exact hal (Option.some.inj e ▸ hb)
        · intro b hb hne
          simp only [layout.addrs, List.mem_cons, List.mem_append, not_or] at hb
          exact hframe b hb.2.2 (fun e => hb.1 (Option.some.inj e).symm)
        · intro pa q hpa hq
          have hpaT := (hpar pa hpa).1
          simp only [layout.addrs, List.mem_cons, List.mem_append, not_or] at hpaT
          rw [hframe pa hpaT.2.2 (fun e => hpaT.1 (Option.some.inj e).symm), hq]
          simp [layout.rotateLeftAt, hax, layout.addr, replaceChild_self]
        · intro e
          simp only [layout.rotateLeftAt, hax, if_false] at e
          injection e with _ _ _ _ e1
          exact hsame e1
theorem rotateRight_layout (m : memory D) (x : Nat) (T : layout D) :
    ∀ par : Option Nat, holds m par T → T.addrs.Nodup → x ∈ T.realAddrs →
      (∀ pa, par = some pa → pa ∉ T.addrs ∧
        ∃ q, m pa = some q ∧ (q.left = some T.addr ∧ q.right ≠ some T.addr ∨
          q.left ≠ some T.addr ∧ q.right = some T.addr)) →
      ∃ m2, rotateRight m x = some m2 ∧ holds m2 par (T.rotateRightAt x) ∧
        (∀ a, a ∉ T.addrs → par ≠ some a → m2 a = m a) ∧
        (∀ pa q, par = some pa → m pa = some q →
          m2 pa = some (q.replaceChild T.addr (T.rotateRightAt x).addr)) ∧
        (T.rotateRightAt x = T → m2 = m) := by
  induction T with
  | sentinel a => intro par _ _ hx; simp [layout.realAddrs] at hx
  | real a c l d r ihl ihr =>
    intro par hT hnd hx hpar
    obtain ⟨hma, hl, hr⟩ := hT
    have hnd0 := hnd
    simp only [layout.addrs, List.nodup_cons, List.mem_append, not_or, List.nodup_append] at hnd
    obtain ⟨⟨hal, har⟩, hndl, hndr, hdisj⟩ := hnd
    by_cases hax : a = x
    · subst hax
      cases l with
      | sentinel la =>
        obtain ⟨lc, hlc, hblack, hnl, hnr⟩ := hl
        refine ⟨m, ?_, ?_, fun _ _ _ => rfl, ?_, fun _ => rfl⟩
        · simp [rotateRight, hma, isLeaf, layout.addr, hlc, hblack, hnl, hnr]
        · simp only [layout.rotateRightAt, if_true]
          exact ⟨hma, ⟨lc, hlc, hblack, hnl, hnr⟩, hr⟩
        · intro pa q _ hq
          simp only [layout.rotateRightAt, if_true, layout.addr, replaceChild_self]
          exact hq
      | real p pc pl pd pr =>
        obtain ⟨hmp, hpl, hpr⟩ := hl
        obtain ⟨prc, hprc⟩ := holds_top hpr
        simp only [layout.addrs, List.mem_cons, List.mem_append, not_or] at hal hdisj hndl
        have hpra := addr_mem_addrs pr
        have hap : a ≠ p := hal.1
        have h1 : pr.addr ≠ a := fun e => hal.2.2 (e ▸ hpra)
        have h2 : pr.addr ≠ p := by
          intro e
          simp only [List.nodup_cons, List.mem_append, not_or] at hndl
          exact hndl.1.2 (e ▸ hpra)
        obtain ⟨m2, hrot, hx2, hp2, hpr2, hpar2, hframe⟩ :=
          rotateRight_real_pivot m a p r.addr pl.addr pr.addr c pc d pd par (some a) prc hma hmp
            hprc hap h1 h2 (by
              intro pa hpa
              obtain ⟨hpaT, q, hq, hlr⟩ := hpar pa hpa
              simp only [layout.addrs, List.mem_cons, List.mem_append, not_or] at hpaT
              exact ⟨hpaT.1, hpaT.2.1.1, fun e => hpaT.2.1.2.2 (e ▸ hpra), q, hq, hlr⟩)
        have hparT : ∀ b, b ∈ (layout.real a c (.real p pc pl pd pr) d r).addrs → par ≠ some b := by
          intro b hb e
          exact (hpar b e).1 hb
        refine ⟨m2, hrot, ?_, ?_, ?_, ?_⟩
        · simp only [layout.rotateRightAt, if_true]
          simp only [List.nodup_cons, List.mem_append, not_or, List.nodup_append] at hndl
          refine ⟨hp2, ?_, ⟨hx2, ?_, ?_⟩⟩
          · refine holds_congr pl _ (fun b hb => hframe b ?_ ?_ ?_ (hparT b ?_)) hpl
            · intro e; exact hal.2.1 (e ▸ hb)
            · intro e; exact hndl.1.1 (e ▸ hb)
            · intro e; exact hndl.2.2.2 hb (e ▸ hpra)
            · simp [layout.addrs, hb]
          · refine holds_reparent pr (some p) (some a) hpr hndl.2.2.1 (fun b hb hne => ?_) ?_
            · refine hframe b ?_ ?_ hne (hparT b ?_)
              · intro e; exact hal.2.2 (e ▸ hb)
              · intro e; exact hndl.1.2 (e ▸ hb)
              · simp [layout.addrs, hb]
            · intro c0 hc0
              rw [hprc] at hc0
              cases hc0
              exact hpr2
          · refine holds_congr r _ (fun b hb => hframe b ?_ ?_ ?_ (hparT b ?_)) hr
            · intro e; exact har (e ▸ hb)
            · intro e; exact @hdisj b (by simp [e]) hb
            · intro e; exact @hdisj b (by rw [e]; simp [hpra]) hb
            · simp [layout.addrs, hb]
        · intro b hb hne
          simp only [layout.addrs, List.mem_cons, List.mem_append, not_or] at hb
          exact hframe b hb.1 hb.2.1.1 (fun e => hb.2.1.2.2 (e ▸ hpra)) hne
        · intro pa q hpa hq
          simpa [layout.rotateRightAt, layout.addr] using hpar2 pa q hpa hq
        · intro e
          simp only [layout.rotateRightAt, if_true] at e
          injection e with e1
          exact absurd e1.symm hap
    · have hxa : x ≠ a := fun e => hax e.symm
      simp only [layout.realAddrs, List.mem_cons, List.mem_append, hxa, false_or] at hx
      have hlr : l.addr ≠ r.addr := fun e => hdisj (addr_mem_addrs l) (e ▸ addr_mem_addrs r)
      have hparT : ∀ b, b ∈ (layout.real a c l d r).addrs → par ≠ some b := by
        intro b hb e
        exact (hpar b e).1 hb
      rcases hx with hx | hx
      · have hxr : x ∉ r.realAddrs := fun h => hdisj (realAddrs_subset l x hx) (realAddrs_subset r x h)
        obtain ⟨m2, hrot, hl2, hframe, hpar2, hsame⟩ := ihl (some a) hl hndl hx (by
          intro pa hpa
          cases hpa
          exact ⟨hal, _, hma, Or.inl ⟨rfl, fun e => hlr (Option.some.inj e).symm⟩⟩)
        have hma2 := hpar2 a _ rfl hma
        refine ⟨m2, hrot, ?_, ?_, ?_, ?_⟩
        · simp only [layout.rotateRightAt, hax, if_false, rotateRightAt_not_mem x r hxr]
          refine ⟨?_, hl2, holds_congr r _ (fun b hb => hframe b ?_ ?_) hr⟩
          · simpa [cell.replaceChild] using hma2
          · intro h; exact hdisj h hb
          · intro e; exact har (Option.some.inj e ▸ hb)
        · intro b hb hne
          simp only [layout.addrs, List.mem_cons, List.mem_append, not_or] at hb
          exact hframe b hb.2.1 (fun e => hb.1 (Option.some.inj e).symm)
        · intro pa q hpa hq
          have hpaT := (hpar pa hpa).1
          simp only [layout.addrs, List.mem_cons, List.mem_append, not_or] at hpaT
          rw [hframe pa hpaT.2.1 (fun e => hpaT.1 (Option.some.inj e).symm), hq]
          simp [layout.rotateRightAt, hax, layout.addr, replaceChild_self]
        · intro e
          simp only [layout.rotateRightAt, hax, if_false] at e
          injection e with _ _ e1
          exact hsame e1
      · have hxl : x ∉ l.realAddrs := fun h => hdisj (realAddrs_subset l x h) (realAddrs_subset r x hx)
        obtain ⟨m2, hrot, hr2, hframe, hpar2, hsame⟩ := ihr (some a) hr hndr hx (by
          intro pa hpa
          cases hpa
          exact ⟨har, _, hma, Or.inr ⟨fun e => hlr (Option.some.inj e), rfl⟩⟩)
        have hma2 := hpar2 a _ rfl hma
        refine ⟨m2, hrot, ?_, ?_, ?_, ?_⟩
        · simp only [layout.rotateRightAt, hax, if_false, rotateRightAt_not_mem x l hxl]
          refine ⟨?_, holds_congr l _ (fun b hb => hframe b ?_ ?_) hl, hr2⟩
          · simpa [cell.replaceChild, hlr] using hma2
          · intro h; exact hdisj hb h
          · intro e; exact hal (Option.some.inj e ▸ hb)
        · intro b hb hne
          simp only [layout.addrs, List.mem_cons, List.mem_append, not_or] at hb
          exact hframe b hb.2.2 (fun e => hb.1 (Option.some.inj e).symm)
        · intro pa q hpa hq
          have hpaT := (hpar pa hpa).1
          simp only [layout.addrs, List.mem_cons, List.mem_append, not_or] at hpaT
          rw [hframe pa hpaT.2.2 (fun e => hpaT.1 (Option.some.inj e).symm), hq]
          simp [layout.rotateRightAt, hax, layout.addr, replaceChild_self]
        · intro e
          simp only [layout.rotateRightAt, hax, if_false] at e
          injection e with _ _ _ _ e1
          exact hsame e1

theorem layout_find_spec (x : Nat) (T : layout D) :
    ∀ S, T.find x = some S → S.addr = x ∧ ∀ b ∈ S.addrs, b ∈ T.addrs := by
  induction T with
  | sentinel a =>
    intro S h
    simp only [layout.find] at h
    split at h
    · cases h; rename_i e; exact ⟨e, fun b hb => hb⟩
    · cases h
  | real a c l d r ihl ihr =>
    intro S h
    simp only [layout.find] at h
    split at h
    · cases h; rename_i e; exact ⟨e, fun b hb => hb⟩
    · cases hl : l.find x with
      | some S2 =>
        rw [hl] at h
        simp only [Option.orElse] at h
        cases h
        exact ⟨(ihl _ hl).1, fun b hb => by simp [layout.addrs, (ihl _ hl).2 b hb]⟩
      | none =>
        rw [hl] at h
        simp only [Option.orElse] at h
        exact ⟨(ihr _ h).1, fun b hb => by simp [layout.addrs, (ihr _ h).2 b hb]⟩

theorem layout_find_none (x : Nat) (T : layout D) : T.find x = none ↔ x ∉ T.addrs := by
  induction T with
  | sentinel a =>
    simp only [layout.find, layout.addrs, List.mem_singleton]
    constructor
    · intro h e; simp [e] at h
    · intro h
      have h2 : ¬ a = x := fun e => h e.symm
      simp [h2]
  | real a c l d r ihl ihr =>
    simp only [layout.find, layout.addrs, List.mem_cons, List.mem_append, not_or]
    by_cases hax : a = x
    · simp [hax]
    · have hxa : ¬ x = a := fun e => hax e.symm
      simp only [hax, if_false, hxa, not_false_eq_true, true_and, ← ihl, ← ihr]
      cases l.find x <;> simp [Option.orElse]

theorem rotateLeftAt_leaf_pivot (x : Nat) (T : layout D) (hnd : T.addrs.Nodup) :
    ∀ c l d ra, T.find x = some (.real x c l d (.sentinel ra)) → T.rotateLeftAt x = T := by
  induction T with
  | sentinel a => intro c l d ra _; rfl
  | real a c0 l0 d0 r0 ihl ihr =>
    intro c l d ra h
    simp only [layout.addrs, List.nodup_cons, List.mem_append, not_or, List.nodup_append] at hnd
    obtain ⟨⟨hal, har⟩, hndl, hndr, hdisj⟩ := hnd
    by_cases hax : a = x
    · simp only [layout.find, hax, if_true, Option.some.injEq] at h
      rw [hax, h]
      simp [layout.rotateLeftAt]
    · simp only [layout.find, hax, if_false] at h
      simp only [layout.rotateLeftAt, hax, if_false]
      cases hl : l0.find x with
      | some S =>
        rw [hl] at h
        simp only [Option.orElse] at h
        cases h
        have hxl : x ∈ l0.addrs := by
          have := (layout_find_spec x l0 _ hl).2 x (by simp [layout.addrs])
          exact this
        have hxr : x ∉ r0.realAddrs := fun h => hdisj hxl (realAddrs_subset r0 x h)
        rw [ihl hndl _ _ _ _ hl, rotateLeftAt_not_mem x r0 hxr]
      | none =>
        rw [hl] at h
        simp only [Option.orElse] at h
        have hxl : x ∉ l0.realAddrs := fun h => (layout_find_none x l0).1 hl (realAddrs_subset l0 x h)
        rw [ihr hndr _ _ _ _ h, rotateLeftAt_not_mem x l0 hxl]

theorem rotateRightAt_leaf_pivot (x : Nat) (T : layout D) (hnd : T.addrs.Nodup) :
    ∀ c la d r, T.find x = some (.real x c (.sentinel la) d r) → T.rotateRightAt x = T := by
  induction T with
  | sentinel a => intro c l d ra _; rfl
  | real a c0 l0 d0 r0 ihl ihr =>
    intro c l d ra h
    simp only [layout.addrs, List.nodup_cons, List.mem_append, not_or, List.nodup_append] at hnd
    obtain ⟨⟨hal, har⟩, hndl, hndr, hdisj⟩ := hnd
    by_cases hax : a = x
    · simp only [layout.find, hax, if_true, Option.some.injEq] at h
      rw [hax, h]
      simp [layout.rotateRightAt]
    · simp only [layout.find, hax, if_false] at h
      simp only [layout.rotateRightAt, hax, if_false]
      cases hl : l0.find x with
      | some S =>
        rw [hl] at h
        simp only [Option.orElse] at h
        cases h
        have hxl : x ∈ l0.addrs := by
          have := (layout_find_spec x l0 _ hl).2 x (by simp [layout.addrs])
          exact this
        have hxr : x ∉ r0.realAddrs := fun h => hdisj hxl (realAddrs_subset r0 x h)
        rw [ihl hndl _ _ _ _ hl, rotateRightAt_not_mem x r0 hxr]
      | none =>
        rw [hl] at h
        simp only [Option.orElse] at h
        have hxl : x ∉ l0.realAddrs := fun h => (layout_find_none x l0).1 hl (realAddrs_subset l0 x h)
        rw [ihr hndr _ _ _ _ h, rotateRightAt_not_mem x l0 hxl]

theorem rotateLeftAt_real_pivot (x : Nat) (T : layout D) (hnd : T.addrs.Nodup) :
    ∀ c l d p pc pl pd pr, T.find x = some (.real x c l d (.real p pc pl pd pr)) →
      (T.rotateLeftAt x).find p = some (.real p pc (.real x c l d pl) pd pr) := by
  induction T with
  | sentinel a =>
    intro c l d p pc pl pd pr h
    simp only [layout.find] at h
    split at h <;> cases h
  | real a c0 l0 d0 r0 ihl ihr =>
    intro c l d p pc pl pd pr h
    simp only [layout.addrs, List.nodup_cons, List.mem_append, not_or, List.nodup_append] at hnd
    obtain ⟨⟨hal, har⟩, hndl, hndr, hdisj⟩ := hnd
    by_cases hax : a = x
    · simp only [layout.find, hax, if_true, Option.some.injEq] at h
      rw [hax, h]
      simp [layout.rotateLeftAt, layout.find]
    · simp only [layout.find, hax, if_false] at h
      simp only [layout.rotateLeftAt, hax, if_false]
      cases hl : l0.find x with
      | some S =>
        rw [hl] at h
        simp only [Option.orElse] at h
        cases h
        have hpl : p ∈ l0.addrs := (layout_find_spec x l0 _ hl).2 p (by simp [layout.addrs])
        have hap : a ≠ p := fun e => hal (e ▸ hpl)
        simp [layout.find, hap, ihl hndl _ _ _ _ _ _ _ _ hl, Option.orElse]
      | none =>
        rw [hl] at h
        simp only [Option.orElse] at h
        have hxl : x ∉ l0.realAddrs := fun h => (layout_find_none x l0).1 hl (realAddrs_subset l0 x h)
        have hpr : p ∈ r0.addrs := (layout_find_spec x r0 _ h).2 p (by simp [layout.addrs])
        have hap : a ≠ p := fun e => har (e ▸ hpr)
        have hpl : l0.find p = none := (layout_find_none p l0).2 fun e => hdisj e hpr
        simp [layout.find, hap, ihr hndr _ _ _ _ _ _ _ _ h, Option.orElse,
          rotateLeftAt_not_mem x l0 hxl, hpl]

theorem rotateRightAt_real_pivot (x : Nat) (T : layout D) (hnd : T.addrs.Nodup) :
    ∀ c r d p pc pl pd pr, T.find x = some (.real x c (.real p pc pl pd pr) d r) →
      (T.rotateRightAt x).find p = some (.real p pc pl pd (.real x c pr d r)) := by
  induction T with
  | sentinel a =>
    intro c l d p pc pl pd pr h
    simp only [layout.find] at h
    split at h <;> cases h
  | real a c0 l0 d0 r0 ihl ihr =>
    intro c l d p pc pl pd pr h
    simp only [layout.addrs, List.nodup_cons, List.mem_append, not_or, List.nodup_append] at hnd
    obtain ⟨⟨hal, har⟩, hndl, hndr, hdisj⟩ := hnd
    by_cases hax : a = x
    · simp only [layout.find, hax, if_true, Option.some.injEq] at h
      rw [hax, h]
      simp [layout.rotateRightAt, layout.find]
    · simp only [layout.find, hax, if_false] at h
      simp only [layout.rotateRightAt, hax, if_false]
      cases hl : l0.find x with
      | some S =>
        rw [hl] at h
        simp only [Option.orElse] at h
        cases h
        have hpl : p ∈ l0.addrs := (layout_find_spec x l0 _ hl).2 p (by simp [layout.addrs])
        have hap : a ≠ p := fun e => hal (e ▸ hpl)
        simp [layout.find, hap, ihl hndl _ _ _ _ _ _ _ _ hl, Option.orElse]
      | none =>
        rw [hl] at h
        simp only [Option.orElse] at h
        have hxl : x ∉ l0.realAddrs := fun h => (layout_find_none x l0).1 hl (realAddrs_subset l0 x h)
        have hpr : p ∈ r0.addrs := (layout_find_spec x r0 _ h).2 p (by simp [layout.addrs])
        have hap : a ≠ p := fun e => har (e ▸ hpr)
        have hpl : l0.find p = none := (layout_find_none p l0).2 fun e => hdisj e hpr
        simp [layout.find, hap, ihr hndr _ _ _ _ _ _ _ _ h, Option.orElse,
          rotateRightAt_not_mem x l0 hxl, hpl]

theorem exampleMemory_holds : holds exampleMemory none exampleLayout := by
  simp [holds, exampleMemory, exampleLayout, layout.addr]


/-! ## The rotations on pointers and the rotations in memory agree -/

theorem locate_none (x : Nat) (T : layout (entry K V)) :
    ∀ up, T.locate x up = none ↔ x ∉ T.realAddrs := by
  induction T with
  | sentinel a => intro up; simp [layout.locate, layout.realAddrs]
  | real a c l d r ihl ihr =>
    intro up
    by_cases hax : a = x
    · simp [layout.locate, layout.realAddrs, hax]
    · have hxa : ¬ x = a := fun e => hax e.symm
      simp only [layout.locate, hax, if_false, layout.realAddrs, List.mem_cons, List.mem_append,
        hxa, false_or, not_or, ← ihl (.inLeft c d r.erase :: up),
        ← ihr (.inRight c l.erase d :: up)]
      cases l.locate x (.inLeft c d r.erase :: up) <;> simp [Option.orElse]

/-- The two descriptions of `rotateLeft` agree: on the pointer to the node at `x`, the function on
pointers returns, and the tree above its result is the tree of the rotated layout. -/
theorem rotateLeft_erase (x : Nat) (T : layout (entry K V)) (hnd : T.addrs.Nodup) :
    ∀ up p, T.locate x up = some p →
      ∃ q, hashmap.rotateLeft p = some q ∧
        crawl q.node q.up = crawl (T.rotateLeftAt x).erase up := by
  induction T with
  | sentinel a => intro up p h; simp [layout.locate] at h
  | real a c l d r ihl ihr =>
    intro up p h
    simp only [layout.addrs, List.nodup_cons, List.mem_append, not_or, List.nodup_append] at hnd
    obtain ⟨_, hndl, hndr, hdisj⟩ := hnd
    by_cases hax : a = x
    · simp only [layout.locate, hax, if_true, Option.some.injEq] at h
      subst h
      cases r with
      | sentinel ra =>
        exact ⟨⟨.real c l.erase d (.sentinel color.black), up⟩,
          by simp [hashmap.rotateLeft, layout.erase, hashmap.isLeaf],
          by simp [layout.rotateLeftAt, hax, layout.erase]⟩
      | real pa pc pl pd pr =>
        exact ⟨⟨.real c l.erase d pl.erase, .inLeft pc pd pr.erase :: up⟩,
          by simp [hashmap.rotateLeft, layout.erase, hashmap.isLeaf],
          by simp [layout.rotateLeftAt, hax, layout.erase, crawl, frame.plug]⟩
    · simp only [layout.locate, hax, if_false] at h
      simp only [layout.rotateLeftAt, hax, if_false, layout.erase]
      cases hl : l.locate x (.inLeft c d r.erase :: up) with
      | some p2 =>
        rw [hl] at h
        simp only [Option.orElse, Option.some.injEq] at h
        subst h
        have hxl : x ∈ l.realAddrs := by
          by_contra hc
          rw [(locate_none x l _).2 hc] at hl
          cases hl
        have hxr : x ∉ r.realAddrs :=
          fun h => hdisj (realAddrs_subset l x hxl) (realAddrs_subset r x h)
        obtain ⟨q, hq, hcr⟩ := ihl hndl _ _ hl
        exact ⟨q, hq, by rw [hcr, rotateLeftAt_not_mem x r hxr]; rfl⟩
      | none =>
        rw [hl] at h
        simp only [Option.orElse] at h
        have hxl : x ∉ l.realAddrs := (locate_none x l _).1 hl
        obtain ⟨q, hq, hcr⟩ := ihr hndr _ _ h
        exact ⟨q, hq, by rw [hcr, rotateLeftAt_not_mem x l hxl]; rfl⟩

/-- The two descriptions of `rotateRight` agree. -/
theorem rotateRight_erase (x : Nat) (T : layout (entry K V)) (hnd : T.addrs.Nodup) :
    ∀ up p, T.locate x up = some p →
      ∃ q, hashmap.rotateRight p = some q ∧
        crawl q.node q.up = crawl (T.rotateRightAt x).erase up := by
  induction T with
  | sentinel a => intro up p h; simp [layout.locate] at h
  | real a c l d r ihl ihr =>
    intro up p h
    simp only [layout.addrs, List.nodup_cons, List.mem_append, not_or, List.nodup_append] at hnd
    obtain ⟨_, hndl, hndr, hdisj⟩ := hnd
    by_cases hax : a = x
    · simp only [layout.locate, hax, if_true, Option.some.injEq] at h
      subst h
      cases l with
      | sentinel ra =>
        exact ⟨⟨.real c (.sentinel color.black) d r.erase, up⟩,
          by simp [hashmap.rotateRight, layout.erase, hashmap.isLeaf],
          by simp [layout.rotateRightAt, hax, layout.erase]⟩
      | real pa pc pl pd pr =>
        exact ⟨⟨.real c pr.erase d r.erase, .inRight pc pl.erase pd :: up⟩,
          by simp [hashmap.rotateRight, layout.erase, hashmap.isLeaf],
          by simp [layout.rotateRightAt, hax, layout.erase, crawl, frame.plug]⟩
    · simp only [layout.locate, hax, if_false] at h
      simp only [layout.rotateRightAt, hax, if_false, layout.erase]
      cases hl : l.locate x (.inLeft c d r.erase :: up) with
      | some p2 =>
        rw [hl] at h
        simp only [Option.orElse, Option.some.injEq] at h
        subst h
        have hxl : x ∈ l.realAddrs := by
          by_contra hc
          rw [(locate_none x l _).2 hc] at hl
          cases hl
        have hxr : x ∉ r.realAddrs :=
          fun h => hdisj (realAddrs_subset l x hxl) (realAddrs_subset r x h)
        obtain ⟨q, hq, hcr⟩ := ihl hndl _ _ hl
        exact ⟨q, hq, by rw [hcr, rotateRightAt_not_mem x r hxr]; rfl⟩
      | none =>
        rw [hl] at h
        simp only [Option.orElse] at h
        have hxl : x ∉ l.realAddrs := (locate_none x l _).1 hl
        obtain ⟨q, hq, hcr⟩ := ihr hndr _ _ h
        exact ⟨q, hq, by rw [hcr, rotateRightAt_not_mem x l hxl]; rfl⟩

/-! ## Rotations -/

/-- C17: let the memory hold a tree whose nodes lie at pairwise distinct addresses, the root
having no parent, and let `x` be the address of a real node.  Then `rotateLeft(x)` and
`rotateRight(x)` return, and the memory afterwards holds the tree in which the pivot has taken
the place of `x` (`rotateLeftAt`, `rotateRightAt`): every real node has the colour and payload
it had, its `left` and `right` point at its children and the `parent` of each child points back
at it; the addresses stay pairwise distinct; the real nodes from left to right, with address,
colour and payload, are the same sequence as before; when the pivot is real, the subtree at the
pivot has `x` as its child on the other side, and the inner child of the pivot is the child of
`x` in place of the pivot; when the pivot is a sentinel the memory is unchanged; and nothing
outside the tree is written. -/
theorem rotations_keep_order_and_links (m : memory D) (T : layout D) (x : Nat)
    (hT : holds m none T) (hnd : T.addrs.Nodup) (hx : x ∈ T.realAddrs) :
    (∃ m2, rotateLeft m x = some m2 ∧ holds m2 none (T.rotateLeftAt x) ∧
        (T.rotateLeftAt x).addrs.Nodup ∧
        (T.rotateLeftAt x).inorder = T.inorder ∧
        (∀ c l d p pc pl pd pr, T.find x = some (.real x c l d (.real p pc pl pd pr)) →
          (T.rotateLeftAt x).find p = some (.real p pc (.real x c l d pl) pd pr)) ∧
        (∀ c l d ra, T.find x = some (.real x c l d (.sentinel ra)) → m2 = m) ∧
        (∀ a, a ∉ T.addrs → m2 a = m a)) ∧
      (∃ m2, rotateRight m x = some m2 ∧ holds m2 none (T.rotateRightAt x) ∧
        (T.rotateRightAt x).addrs.Nodup ∧
        (T.rotateRightAt x).inorder = T.inorder ∧
        (∀ c r d p pc pl pd pr, T.find x = some (.real x c (.real p pc pl pd pr) d r) →
          (T.rotateRightAt x).find p = some (.real p pc pl pd (.real x c pr d r))) ∧
        (∀ c la d r, T.find x = some (.real x c (.sentinel la) d r) → m2 = m) ∧
        (∀ a, a ∉ T.addrs → m2 a = m a)) := by
  constructor
  · obtain ⟨m2, hrot, hholds, hframe, _, hsame⟩ :=
      rotateLeft_layout m x T none hT hnd hx (fun pa h => by cases h)
    exact ⟨m2, hrot, hholds, (rotateLeftAt_addrs x T).nodup_iff.2 hnd, rotateLeftAt_inorder x T,
      rotateLeftAt_real_pivot x T hnd,
      fun c l d ra h => hsame (rotateLeftAt_leaf_pivot x T hnd c l d ra h),
      fun a ha => hframe a ha (fun h => by cases h)⟩
  · obtain ⟨m2, hrot, hholds, hframe, _, hsame⟩ :=
      rotateRight_layout m x T none hT hnd hx (fun pa h => by cases h)
    exact ⟨m2, hrot, hholds, (rotateRightAt_addrs x T).nodup_iff.2 hnd, rotateRightAt_inorder x T,
      rotateRightAt_real_pivot x T hnd,
      fun c la d r h => hsame (rotateRightAt_leaf_pivot x T hnd c la d r h),
      fun a ha => hframe a ha (fun h => by cases h)⟩

theorem rotations_keep_order_and_links_witness :
    holds exampleMemory none exampleLayout ∧ exampleLayout.addrs.Nodup ∧
      0 ∈ exampleLayout.realAddrs ∧
      ((∃ m2, rotateLeft exampleMemory 0 = some m2 ∧
          holds m2 none (exampleLayout.rotateLeftAt 0) ∧
          (exampleLayout.rotateLeftAt 0).addrs.Nodup ∧
          (exampleLayout.rotateLeftAt 0).inorder = exampleLayout.inorder ∧
          (∀ c l d p pc pl pd pr,
            exampleLayout.find 0 = some (.real 0 c l d (.real p pc pl pd pr)) →
            (exampleLayout.rotateLeftAt 0).find p = some (.real p pc (.real 0 c l d pl) pd pr)) ∧
          (∀ c l d ra, exampleLayout.find 0 = some (.real 0 c l d (.sentinel ra)) →
            m2 = exampleMemory) ∧
          (∀ a, a ∉ exampleLayout.addrs → m2 a = exampleMemory a)) ∧
        (∃ m2, rotateRight exampleMemory 0 = some m2 ∧
          holds m2 none (exampleLayout.rotateRightAt 0) ∧
          (exampleLayout.rotateRightAt 0).addrs.Nodup ∧
          (exampleLayout.rotateRightAt 0).inorder = exampleLayout.inorder ∧
          (∀ c r d p pc pl pd pr,
            exampleLayout.find 0 = some (.real 0 c (.real p pc pl pd pr) d r) →
            (exampleLayout.rotateRightAt 0).find p =
              some (.real p pc pl pd (.real 0 c pr d r))) ∧
          (∀ c la d r, exampleLayout.find 0 = some (.real 0 c (.sentinel la) d r) →
            m2 = exampleMemory) ∧
          (∀ a, a ∉ exampleLayout.addrs → m2 a = exampleMemory a))) :=
  ⟨exampleMemory_holds, by decide, by decide,
    rotations_keep_order_and_links exampleMemory exampleLayout 0 exampleMemory_holds
      (by decide) (by decide)⟩

end cells

/-! ## Keys compared by an equality: what needs the structure of the tree only -/

theorem Get_structure [DecidableEq K] (h : K → Int) (rb : rbTree K V) (hv : rb.structured h)
    (key : K) : Get rb key = some (lookup rb.contents (h key) key) := by
  obtain ⟨hhf, hroot, hinc⟩ := hv
  rcases rb with ⟨root, hf⟩
  simp only at hhf
  subst hhf
  cases root with
  | none => simp [Get, rbTree.contents, lookup]
  | some t =>
    obtain ⟨hleaf, n, ht⟩ := hroot t rfl
    have hinc2 : increasing (entries t) := hinc
    rcases findByKeyHash_spec t [] key (hf key) _ _ ht hleaf hinc2 with
      ⟨c, l, e, r, up2, hfind, hk, hcr, hmem⟩ | ⟨hfind, hnone⟩
    · have hl : lookup (entries t) (hf key) key = e.find key := by
        unfold lookup
        rw [find_of_mem hinc2 hmem hk]
      simp only [Get, hfind, rbTree.contents, hl, entry.find]
      by_cases hkey : e.key = key
      · simp [hkey]
      · simp only [hkey, if_false]
        cases mapGet e.collisions key <;> rfl
    · simp only [Get, hfind, rbTree.contents]
      rw [lookup_none _ _ hnone]

theorem Insert_then_Get_structure [DecidableEq K] (h : K → Int) (rb : rbTree K V)
    (hv : rb.structured h) (key : K) (value : V) :
    ∃ rb2, Insert rb key value = some rb2 ∧ rb2.structured h ∧
      Get rb2 key = some (some value, true) := by
  obtain ⟨rb2, hins, hv2, hcase⟩ := Insert_structure h rb hv key value
  refine ⟨rb2, hins, hv2, ?_⟩
  rw [Get_structure h rb2 hv2]
  have hinc2 := hv2.2.2
  rcases hcase with ⟨xs, ys, _, h2, _, _⟩ | ⟨xs, e, ys, _, hk, h2⟩
  · rw [h2] at hinc2 ⊢
    rw [lookup_mid _ _ hinc2 rfl]
    simp [entry.find]
  · rw [h2] at hinc2 ⊢
    rw [lookup_mid _ _ hinc2 ((entry.store_keyHash e key value).trans hk),
      entry.store_find_same]

namespace anykey

/-! ## Keys of any dynamic type: a regular key is handled by an equality -/

theorem mapGet_regular [DecidableEq K] (ops : keyOps K) {key : K} (hk : regular ops key)
    (m : List (K × V)) : mapGet ops m key = some (hashmap.mapGet m key) := by
  unfold mapGet
  rw [if_pos hk.1]
  congr 1
  induction m with
  | nil => rfl
  | cons p m ih =>
    obtain ⟨k, v⟩ := p
    have e1 := (hk.2 k).2
    by_cases h : k = key
    · subst h
      simp [List.find?, hashmap.mapGet, e1]
    · simp only [List.find?, hashmap.mapGet, e1, h, decide_False, if_false]
      exact ih

theorem mapDelete_regular [DecidableEq K] (ops : keyOps K) {key : K} (hk : regular ops key)
    (m : List (K × V)) : mapDelete ops m key = some (hashmap.mapDelete m key) := by
  unfold mapDelete hashmap.mapDelete
  rw [if_pos hk.1]
  congr 1
  apply List.filter_congr
  intro p _
  rw [(hk.2 p.1).2]
  by_cases h : p.1 = key <;> simp [h]

theorem mapSet_regular [DecidableEq K] (ops : keyOps K) {key : K} (hk : regular ops key)
    (m : List (K × V)) (value : V) :
    mapSet ops m key value = some (hashmap.mapSet m key value) := by
  simp [mapSet, hashmap.mapSet, mapDelete_regular ops hk]

theorem Insert_regular [DecidableEq K] (ops : keyOps K) (rb : rbTree K V) {key : K}
    (hk : regular ops key) (value : V) :
    Insert ops rb key value = hashmap.Insert rb key value := by
  unfold Insert hashmap.Insert
  cases rb.root with
  | none => rfl
  | some root =>
    simp only
    cases findInsertionParent root [] (rb.hashFunc key) with
    | none => rfl
    | some pr =>
      obtain ⟨⟨node, up⟩, pos⟩ := pr
      cases node with
      | sentinel c => rfl
      | real c l e r =>
        cases pos with
        | greater => rfl
        | lower => rfl
        | same =>
          simp only [(hk.2 e.key).1, mapSet_regular ops hk]
          by_cases h : key = e.key <;> simp [h]

theorem Get_regular [DecidableEq K] (ops : keyOps K) (rb : rbTree K V) {key : K}
    (hk : regular ops key) : Get ops rb key = hashmap.Get rb key := by
  unfold Get hashmap.Get
  cases rb.root with
  | none => rfl
  | some root =>
    simp only
    cases findByKeyHash root [] key (rb.hashFunc key) with
    | none => rfl
    | some res =>
      cases res with
      | none => rfl
      | some p =>
        obtain ⟨node, up⟩ := p
        cases node with
        | sentinel c => rfl
        | real c l e r =>
          simp only [(hk.2 e.key).2, mapGet_regular ops hk]
          by_cases h : e.key = key
          · simp [h]
          · simp only [h, decide_False, if_false]
            cases hashmap.mapGet e.collisions key <;> rfl

end anykey

/-! ## Rewriting one payload keeps the structure -/

theorem RB.mapData (F : entry K V → entry K V) {t : rbTreeNode K V} {c : color} {n : Nat}
    (h : RB t c n) : RB (t.mapData F) c n := by
  induction h with
  | leaf => exact RB.leaf
  | red _ _ ihl ihr => exact RB.red ihl ihr
  | black _ _ ihl ihr => exact RB.black ihl ihr

theorem isLeaf_mapData (F : entry K V → entry K V) (t : rbTreeNode K V) :
    isLeaf (t.mapData F) = isLeaf t := by
  cases t <;> rfl

theorem increasing_map {es : List (entry K V)} (F : entry K V → entry K V)
    (hF : ∀ x, (F x).keyHash = x.keyHash) (h : increasing es) : increasing (es.map F) := by
  unfold increasing at h ⊢
  rw [List.pairwise_map]
  exact h.imp (fun hab => by rw [hF, hF]; exact hab)

theorem structured_mapData {h : K → Int} {rb : rbTree K V} (hv : rb.structured h)
    {t : rbTreeNode K V} (hroot : rb.root = some t) (F : entry K V → entry K V)
    (hF : ∀ x, (F x).keyHash = x.keyHash) :
    (rb.setRoot (some (t.mapData F))).structured h := by
  obtain ⟨hhf, hrt, hinc⟩ := hv
  obtain ⟨hleaf, n, ht⟩ := hrt t hroot
  refine ⟨hhf, ?_, ?_⟩
  · intro t2 ht2
    simp only [rbTree.setRoot, Option.some.injEq] at ht2
    subst ht2
    exact ⟨by rw [isLeaf_mapData]; exact hleaf, n, ht.mapData F⟩
  · simp only [rbTree.contents, rbTree.setRoot, entries_mapData]
    simp only [rbTree.contents, hroot] at hinc
    exact increasing_map F hF hinc

namespace anykey

/-! ## Keys of any dynamic type: the calls that compare no keys -/

theorem Insert_of_no_hash [DecidableEq K] (ops : keyOps K) (h : K → Int) (rb : rbTree K V)
    (hv : rb.structured h) (key : K) (value : V)
    (hno : ∀ x ∈ rb.contents, x.keyHash ≠ h key) :
    Insert ops rb key value = hashmap.Insert rb key value := by
  obtain ⟨hhf, hroot, hinc⟩ := hv
  rcases rb with ⟨root, hf⟩
  simp only at hhf
  subst hhf
  cases root with
  | none => rfl
  | some t =>
    obtain ⟨hleaf, n, ht⟩ := hroot t rfl
    have hinc2 : increasing (entries t) := hinc
    obtain ⟨c, l, e, r, up2, hcr, hcase⟩ := findInsertionParent_spec t [] (hf key) _ _ ht hleaf
      hinc2 (by simp [entriesBefore]) (by simp [entriesAfter])
    rcases hcase with ⟨hfip, _⟩ | ⟨hfip, _⟩ | ⟨hfip, hek⟩
    · simp only [Insert, hashmap.Insert, hfip]
    · simp only [Insert, hashmap.Insert, hfip]
    · exfalso
      refine hno e ?_ hek
      simp only [crawl] at hcr
      show e ∈ entries t
      rw [← hcr, entries_crawl]
      simp [entries]

theorem Insert_at_hash (ops : keyOps K) (h : K → Int) (rb : rbTree K V)
    (hv : rb.structured h) (key : K) (value : V) (t : rbTreeNode K V) (hroot : rb.root = some t)
    (e : entry K V) (he : e ∈ entries t) (hk : e.keyHash = h key) :
    Insert ops rb key value = (store ops e key value).map fun e2 =>
      rb.setRoot (some (t.mapData fun x => if x.keyHash = h key then e2 else x)) := by
  obtain ⟨hhf, hrt, hinc⟩ := hv
  rcases rb with ⟨root, hf⟩
  simp only at hhf hroot
  subst hhf hroot
  obtain ⟨hleaf, n, ht⟩ := hrt t rfl
  have hinc2 : increasing (entries t) := hinc
  obtain ⟨c, l, e0, r, up2, hcr, hcase⟩ := findInsertionParent_spec t [] (hf key) _ _ ht hleaf
    hinc2 (by simp [entriesBefore]) (by simp [entriesAfter])
  simp only [crawl] at hcr
  have hold : entries t = entriesBefore up2 ++ (entries l ++ e0 :: entries r) ++ entriesAfter up2 := by
    rw [← hcr, entries_crawl]; rfl
  rcases hcase with ⟨_, hr, hlo, hhi⟩ | ⟨_, hl, hlo, hhi⟩ | ⟨hfip, hek⟩
  · exfalso
    subst hr
    rw [hold] at he
    have h1 : e ∈ entriesBefore (.inRight c l e0 :: up2) ∨ e ∈ entriesAfter up2 := by
      simpa [entriesBefore, entries, or_assoc] using he
    rcases h1 with h1 | h1
    · have := hlo e h1
      omega
    · have := hhi e h1
      omega
  · exfalso
    subst hl
    rw [hold] at he
    have h1 : e ∈ entriesBefore up2 ∨ e ∈ entriesAfter (.inLeft c e0 r :: up2) := by
      simpa [entriesAfter, entries, or_assoc] using he
    rcases h1 with h1 | h1
    · have := hlo e h1
      omega
    · have := hhi e h1
      omega
  · have hee : e0 = e := increasing_unique hinc2 (by rw [hold]; simp) he (hek.trans hk.symm)
    subst hee
    have hmap : ∀ e2 : entry K V,
        t.mapData (fun x => if x.keyHash = hf key then e2 else x) = crawl (.real c l e2 r) up2 := by
      intro e2
      have := mapData_at_hash (fun _ => e2) c l e0 r up2 (hcr ▸ hinc2)
      rw [hcr, hek] at this
      exact this
    unfold Insert store
    simp only [hfip]
    cases ops.eq key e0.key with
    | none => rfl
    | some b =>
      cases b with
      | true => simp [hmap, rbTree.setRoot]
      | false =>
        cases mapSet ops e0.collisions key value with
        | none => rfl
        | some m => simp [hmap, rbTree.setRoot]

theorem Remove_of_no_collisions [DecidableEq K] (ops : keyOps K) (h : K → Int)
    (rb : rbTree K V) (hv : rb.structured h) (pick : Nat) (key : K)
    (hno : ∀ x ∈ rb.contents, x.keyHash = h key → x.collisions = []) :
    Remove ops rb pick key = hashmap.Remove rb pick key := by
  obtain ⟨hhf, hroot, hinc⟩ := hv
  rcases rb with ⟨root, hf⟩
  simp only at hhf
  subst hhf
  cases root with
  | none => rfl
  | some t =>
    obtain ⟨hleaf, n, ht⟩ := hroot t rfl
    have hinc2 : increasing (entries t) := hinc
    rcases findByKeyHash_spec t [] key (hf key) _ _ ht hleaf hinc2 with
      ⟨c, l, e, r, up2, hfind, hk, hcr, hmem⟩ | ⟨hfind, hnone⟩
    · have hcoll : ¬ e.collisions.length > 0 := by
        rw [hno e hmem hk]
        simp
      cases hrep : (getReplacementNode (.real c l e r)).bind copyNodeValue with
      | none => simp only [Remove, hashmap.Remove, hfind, hcoll, if_false, hrep]
      | some p =>
        obtain ⟨node, rel⟩ := p
        cases node with
        | sentinel c2 => simp only [Remove, hashmap.Remove, hfind, hcoll, if_false, hrep]
        | real rc rl re rr =>
          cases hru : rel ++ up2 with
          | nil => simp only [Remove, hashmap.Remove, hfind, hcoll, if_false, hrep, hru]
          | cons f rest => simp only [Remove, hashmap.Remove, hfind, hcoll, if_false, hrep, hru]
    · simp only [Remove, hashmap.Remove, hfind]

theorem Remove_at_collisions (ops : keyOps K) (h : K → Int) (rb : rbTree K V)
    (hv : rb.structured h) (key : K) (pick : Nat) (t : rbTreeNode K V) (hroot : rb.root = some t)
    (e : entry K V) (he : e ∈ entries t) (hk : e.keyHash = h key) (hcoll : e.collisions ≠ []) :
    Remove ops rb pick key = (drop ops e pick key).map fun e2 =>
      (rb.setRoot (some (t.mapData fun x => if x.keyHash = h key then e2 else x)), true) := by
  obtain ⟨hhf, hrt, hinc⟩ := hv
  rcases rb with ⟨root, hf⟩
  simp only at hhf hroot
  subst hhf hroot
  obtain ⟨hleaf, n, ht⟩ := hrt t rfl
  have hinc2 : increasing (entries t) := hinc
  rcases findByKeyHash_spec t [] key (hf key) _ _ ht hleaf hinc2 with
    ⟨c, l, e2, r, up2, hfind, hk2, hcr, hmem⟩ | ⟨_, hnone⟩
  · simp only [crawl] at hcr
    have hee : e2 = e := increasing_unique hinc2 hmem he (hk2.trans hk.symm)
    subst hee
    have hmap : ∀ e3 : entry K V,
        t.mapData (fun x => if x.keyHash = hf key then e3 else x) = crawl (.real c l e3 r) up2 := by
      intro e3
      have := mapData_at_hash (fun _ => e3) c l e2 r up2 (hcr ▸ hinc2)
      rw [hcr, hk] at this
      exact this
    have hlen : e2.collisions.length > 0 := List.length_pos.mpr hcoll
    unfold Remove drop
    simp only [hfind, hlen, if_true]
    cases ops.eq key e2.key with
    | none => rfl
    | some b =>
      simp only
      cases mapDelete ops (if b = true then promote pick e2 else e2).collisions
          (if b = true then (if b = true then promote pick e2 else e2).key else key) with
      | none => rfl
      | some m => simp [hmap, rbTree.setRoot]
  · exact absurd hk (hnone e he)

theorem Get_reads (ops : keyOps K) (h : K → Int) (rb : rbTree K V) (hv : rb.structured h)
    (key : K) :
    Get ops rb key =
      match rb.contents.find? (fun e => decide (e.keyHash = h key)) with
      | some e => find ops e key
      | none => some (none, false) := by
  obtain ⟨hhf, hroot, hinc⟩ := hv
  rcases rb with ⟨root, hf⟩
  simp only at hhf
  subst hhf
  cases root with
  | none => simp [Get, rbTree.contents]
  | some t =>
    obtain ⟨hleaf, n, ht⟩ := hroot t rfl
    have hinc2 : increasing (entries t) := hinc
    rcases findByKeyHash_spec t [] key (hf key) _ _ ht hleaf hinc2 with
      ⟨c, l, e, r, up2, hfind, hk, hcr, hmem⟩ | ⟨hfind, hnone⟩
    · simp only [Get, hfind, rbTree.contents, find_of_mem hinc2 hmem hk, find]
    · simp only [Get, hfind, rbTree.contents, hashmap.find_none hnone]


/-! ## Keys of any dynamic type: every reachable map is sound -/

theorem store_spec (ops : keyOps K) {e e2 : entry K V} {key : K} {value : V}
    (h : store ops e key value = some e2) :
    e2.keyHash = e.keyHash ∧
      ((∀ p ∈ e.collisions, ops.hashable p.1 = true) →
        ∀ p ∈ e2.collisions, ops.hashable p.1 = true) := by
  unfold store at h
  cases hb : ops.eq key e.key with
  | none => rw [hb] at h; cases h
  | some b =>
    rw [hb] at h
    cases b with
    | true =>
      simp only [Option.some.injEq] at h
      subst h
      exact ⟨rfl, fun hp => hp⟩
    | false =>
      obtain ⟨m, hm, rfl⟩ := Option.map_eq_some'.mp h
      refine ⟨rfl, ?_⟩
      intro hp p hmem
      unfold mapSet mapDelete at hm
      by_cases hh : ops.hashable key = true
      · simp only [hh, if_true, Option.map_some', Option.some.injEq] at hm
        subst hm
        rcases List.mem_cons.mp hmem with rfl | h2
        · exact hh
        · exact hp p (List.mem_filter.mp h2).1
      · simp [hh] at hm

theorem drop_spec (ops : keyOps K) {e e2 : entry K V} {pick : Nat} {key : K}
    (h : drop ops e pick key = some e2) :
    e2.keyHash = e.keyHash ∧
      ((∀ p ∈ e.collisions, ops.hashable p.1 = true) →
        ∀ p ∈ e2.collisions, ops.hashable p.1 = true) := by
  unfold drop at h
  cases hb : ops.eq key e.key with
  | none => rw [hb] at h; cases h
  | some b =>
    rw [hb] at h
    obtain ⟨m, hm, rfl⟩ := Option.map_eq_some'.mp h
    unfold mapDelete at hm
    have hcoll : (if b = true then promote pick e else e).collisions = e.collisions := by
      cases b
      · rfl
      · simp only [if_true]
        unfold promote
        split <;> rfl
    have hkh : (if b = true then promote pick e else e).keyHash = e.keyHash := by
      cases b
      · rfl
      · simp only [if_true]
        unfold promote
        split <;> rfl
    refine ⟨hkh, ?_⟩
    intro hp p hmem
    generalize (if b = true then (if b = true then promote pick e else e).key else key) = k1 at hm
    by_cases hh : ops.hashable k1 = true
    · simp only [hh, if_true, Option.some.injEq] at hm
      subst hm
      have := (List.mem_filter.mp hmem).1
      rw [hcoll] at this
      exact hp p this
    · simp [hh] at hm

theorem sound_replace (ops : keyOps K) {h : K → Int} {rb : rbTree K V}
    (hv : sound ops h rb) {t : rbTreeNode K V} (hroot : rb.root = some t) (keyHash : Int)
    (e2 : entry K V) (hk : e2.keyHash = keyHash)
    (hh : ∀ p ∈ e2.collisions, ops.hashable p.1 = true) :
    sound ops h (rb.setRoot (some (t.mapData fun x => if x.keyHash = keyHash then e2 else x))) := by
  refine ⟨structured_mapData hv.1 hroot _ ?_, ?_⟩
  · intro x
    by_cases hx : x.keyHash = keyHash
    · simp [hx, hk]
    · simp [hx]
  · intro x hx p hp
    simp only [rbTree.contents, rbTree.setRoot, entries_mapData, List.mem_map] at hx
    obtain ⟨y, hy, rfl⟩ := hx
    by_cases hyk : y.keyHash = keyHash
    · simp only [hyk, if_true] at hp
      exact hh p hp
    · simp only [hyk, if_false] at hp
      exact hv.2 y (by simp only [rbTree.contents, hroot]; exact hy) p hp

theorem root_of_mem {rb : rbTree K V} {e : entry K V} (he : e ∈ rb.contents) :
    ∃ t, rb.root = some t ∧ e ∈ entries t := by
  unfold rbTree.contents at he
  cases hr : rb.root with
  | none => rw [hr] at he; cases he
  | some t => rw [hr] at he; exact ⟨t, rfl, he⟩

theorem Insert_sound [DecidableEq K] (ops : keyOps K) {h : K → Int} {rb rb2 : rbTree K V}
    (hv : sound ops h rb) (key : K) (value : V) (hins : Insert ops rb key value = some rb2) :
    sound ops h rb2 := by
  by_cases hex : ∃ e ∈ rb.contents, e.keyHash = h key
  · obtain ⟨e, he, hk⟩ := hex
    obtain ⟨t, hroot, het⟩ := root_of_mem he
    rw [Insert_at_hash ops h rb hv.1 key value t hroot e het hk] at hins
    obtain ⟨e2, he2, rfl⟩ := Option.map_eq_some'.mp hins
    obtain ⟨h1, h2⟩ := store_spec ops he2
    exact sound_replace ops hv hroot _ e2 (h1.trans hk) (h2 (hv.2 e he))
  · have hno : ∀ x ∈ rb.contents, x.keyHash ≠ h key := fun x hx hxk => hex ⟨x, hx, hxk⟩
    rw [Insert_of_no_hash ops h rb hv.1 key value hno] at hins
    obtain ⟨rb3, h3, hst, hcase⟩ := Insert_structure h rb hv.1 key value
    rw [h3] at hins
    cases hins
    refine ⟨hst, ?_⟩
    rcases hcase with ⟨xs, ys, h1, h2, _, _⟩ | ⟨xs, e, ys, h1, hk, _⟩
    · intro x hx p hp
      rw [h2] at hx
      rcases List.mem_append.mp hx with hx3 | hx3
      · exact hv.2 x (by rw [h1]; exact List.mem_append_left _ hx3) p hp
      · rcases List.mem_cons.mp hx3 with rfl | hx4
        · cases hp
        · exact hv.2 x (by rw [h1]; exact List.mem_append_right _ hx4) p hp
    · exact absurd hk (hno e (by rw [h1]; simp))

theorem Remove_sound [DecidableEq K] (ops : keyOps K) {h : K → Int} {rb rb2 : rbTree K V}
    {b : Bool} (hv : sound ops h rb) (pick : Nat) (key : K)
    (hrem : Remove ops rb pick key = some (rb2, b)) : sound ops h rb2 := by
  by_cases hex : ∃ e ∈ rb.contents, e.keyHash = h key ∧ e.collisions ≠ []
  · obtain ⟨e, he, hk, hcoll⟩ := hex
    obtain ⟨t, hroot, het⟩ := root_of_mem he
    rw [Remove_at_collisions ops h rb hv.1 key pick t hroot e het hk hcoll] at hrem
    obtain ⟨e2, he2, h3⟩ := Option.map_eq_some'.mp hrem
    cases h3
    obtain ⟨h1, h2⟩ := drop_spec ops he2
    exact sound_replace ops hv hroot _ e2 (h1.trans hk) (h2 (hv.2 e he))
  · have hno : ∀ x ∈ rb.contents, x.keyHash = h key → x.collisions = [] := by
      intro x hx hxk
      by_contra hc
      exact hex ⟨x, hx, hxk, hc⟩
    rw [Remove_of_no_collisions ops h rb hv.1 pick key hno] at hrem
    obtain ⟨rb3, h3, hst, hcase⟩ := Remove_structure h rb hv.1 pick key
    rw [h3] at hrem
    cases hrem
    refine ⟨hst, ?_⟩
    rcases hcase with ⟨h1, _⟩ | ⟨xs, e, ys, h1, hk, ⟨hne, _⟩ | ⟨_, h2⟩⟩
    · rw [h1]
      exact hv.2
    · exact absurd (hno e (by rw [h1]; simp) hk) hne
    · intro x hx p hp
      rw [h2] at hx
      rcases List.mem_append.mp hx with hx3 | hx3
      · exact hv.2 x (by rw [h1]; exact List.mem_append_left _ hx3) p hp
      · exact hv.2 x (by rw [h1]; exact List.mem_append_right _ (List.mem_cons_of_mem _ hx3)) p hp

theorem New_sound (ops : keyOps K) (h : K → Int) : sound ops h (New h : rbTree K V) := by
  refine ⟨⟨rfl, ?_, ?_⟩, ?_⟩
  · intro t ht
    cases ht
  · simp [rbTree.contents, New, increasing]
  · intro e he
    simp [rbTree.contents, New] at he

theorem performAll_sound [DecidableEq K] (ops : keyOps K) {h : K → Int} {rb rb2 : rbTree K V}
    (cs : List (call K V)) (hv : sound ops h rb) (hp : performAll ops rb cs = some rb2) :
    sound ops h rb2 := by
  induction cs generalizing rb with
  | nil =>
    simp only [performAll, Option.some.injEq] at hp
    exact hp ▸ hv
  | cons c cs ih =>
    simp only [performAll] at hp
    rcases Option.bind_eq_some.mp hp with ⟨rb1, h1, h2⟩
    refine ih ?_ h2
    cases c with
    | insert key value => exact Insert_sound ops hv key value h1
    | remove key pick =>
      simp only [perform, Option.map_eq_some'] at h1
      obtain ⟨⟨rb3, b⟩, h3, rfl⟩ := h1
      exact Remove_sound ops hv pick key h3

theorem reachable_sound [DecidableEq K] (ops : keyOps K) {h : K → Int} {rb : rbTree K V}
    (hr : Reachable ops h rb) : sound ops h rb := by
  obtain ⟨cs, hcs⟩ := hr
  exact performAll_sound ops cs (New_sound ops h) hcs


/-! ## Keys of any dynamic type: calls on regular keys -/

theorem Remove_regular [DecidableEq K] (ops : keyOps K) (h : K → Int) (rb : rbTree K V)
    (hv : rb.structured h) (pick : Nat) {key : K} (hk : regular ops key)
    (hst : ∀ e ∈ rb.contents, ∀ p ∈ e.collisions, regular ops p.1) :
    Remove ops rb pick key = hashmap.Remove rb pick key := by
  by_cases hex : ∃ e ∈ rb.contents, e.keyHash = h key ∧ e.collisions ≠ []
  · obtain ⟨e, he, hkh, hcoll⟩ := hex
    obtain ⟨hhf, hroot, hinc⟩ := hv
    rcases rb with ⟨root, hf⟩
    simp only at hhf
    subst hhf
    cases root with
    | none => rfl
    | some t =>
      obtain ⟨hleaf, n, ht⟩ := hroot t rfl
      have hinc2 : increasing (entries t) := hinc
      rcases findByKeyHash_spec t [] key (hf key) _ _ ht hleaf hinc2 with
        ⟨c, l, e2, r, up2, hfind, hk2, hcr, hmem⟩ | ⟨hfind, hnone⟩
      · have hee : e2 = e := increasing_unique hinc2 hmem he (hk2.trans hkh.symm)
        subst hee
        have hlen : e2.collisions.length > 0 := List.length_pos.mpr hcoll
        simp only [Remove, hashmap.Remove, hfind, hlen, if_true, (hk.2 e2.key).1]
        by_cases hkey : key = e2.key
        · obtain ⟨k, v, hkv, hp⟩ := promote_spec pick e2 hcoll
          have hreg : regular ops (promote pick e2).key := by
            rw [hp]
            exact hst e2 hmem (k, v) hkv
          simp [hkey, mapDelete_regular ops hreg]
        · simp [hkey, mapDelete_regular ops hk]
      · exact absurd hkh (hnone e he)
  · have hno : ∀ x ∈ rb.contents, x.keyHash = h key → x.collisions = [] := by
      intro x hx hxk
      by_contra hc
      exact hex ⟨x, hx, hxk, hc⟩
    exact Remove_of_no_collisions ops h rb hv pick key hno

theorem store_keys [DecidableEq K] (e : entry K V) (key : K) (value : V) :
    ∀ k ∈ (e.store key value).keys, k = key ∨ k ∈ e.keys := by
  intro k hk
  unfold entry.store at hk
  by_cases hkey : key = e.key
  · simp only [hkey, if_true] at hk
    exact Or.inr hk
  · simp only [hkey, if_false, entry.keys, hashmap.mapSet, List.map_cons, List.mem_cons] at hk
    rcases hk with h1 | h1 | h1
    · exact Or.inr (by simp [entry.keys, h1])
    · exact Or.inl h1
    · right
      simp only [entry.keys, List.mem_cons]
      right
      obtain ⟨p, hp, rfl⟩ := List.mem_map.mp h1
      exact List.mem_map.mpr ⟨p, (List.mem_filter.mp hp).1, rfl⟩

theorem drop_keys [DecidableEq K] (e : entry K V) (pick : Nat) (key : K)
    (hcoll : e.collisions ≠ []) : ∀ k ∈ (e.drop pick key).keys, k ∈ e.keys := by
  intro k hk
  unfold entry.drop at hk
  have hsub : ∀ (m : List (K × V)) (k1 : K), ∀ x ∈ (hashmap.mapDelete m k1).map Prod.fst,
      x ∈ m.map Prod.fst := by
    intro m k1 x hx
    obtain ⟨p, hp, rfl⟩ := List.mem_map.mp hx
    exact List.mem_map.mpr ⟨p, (List.mem_filter.mp hp).1, rfl⟩
  by_cases hkey : key = e.key
  · obtain ⟨k2, v2, hkv, hp⟩ := promote_spec pick e hcoll
    simp only [hkey, if_true, hp, entry.keys, List.mem_cons] at hk
    simp only [entry.keys, List.mem_cons]
    rcases hk with h1 | h1
    · right
      rw [h1]
      exact List.mem_map.mpr ⟨(k2, v2), hkv, rfl⟩
    · exact Or.inr (hsub _ _ k h1)
  · simp only [hkey, if_false, entry.keys, List.mem_cons] at hk
    simp only [entry.keys, List.mem_cons]
    rcases hk with h1 | h1
    · exact Or.inl h1
    · exact Or.inr (hsub _ _ k h1)

theorem performAll_regular [DecidableEq K] (ops : keyOps K) {h : K → Int}
    (cs : List (call K V)) (rb : rbTree K V) (hv : rb.valid h)
    (hkeys : ∀ e ∈ rb.contents, ∀ k ∈ e.keys, regular ops k)
    (hcs : ∀ c ∈ cs, regular ops c.key) :
    performAll ops rb cs = hashmap.performAll rb cs := by
  induction cs generalizing rb with
  | nil => rfl
  | cons c cs ih =>
    have hc : regular ops c.key := hcs c (List.mem_cons_self _ _)
    have hstep : perform ops rb c = hashmap.perform rb c := by
      cases c with
      | insert key value => exact Insert_regular ops rb hc value
      | remove key pick =>
        have hc2 : regular ops key := hc
        simp only [perform, hashmap.perform]
        rw [Remove_regular ops h rb hv.to_structured pick hc2
          (fun e he p hp => hkeys e he p.1 (by
            simp only [entry.keys, List.mem_cons]
            exact Or.inr (List.mem_map.mpr ⟨p, hp, rfl⟩)))]
    simp only [performAll, hashmap.performAll, hstep]
    cases hp : hashmap.perform rb c with
    | none => rfl
    | some rb1 =>
      simp only [Option.some_bind]
      refine ih rb1 (perform_valid c hv hp) ?_ (fun c2 hc2 => hcs c2 (List.mem_cons_of_mem _ hc2))
      cases c with
      | insert key value =>
        obtain ⟨rb2, h1, _, hcase⟩ := Insert_spec h rb hv key value
        simp only [hashmap.perform, h1, Option.some.injEq] at hp
        subst hp
        intro e he k hk
        rcases hcase with ⟨xs, ys, h2, h3, _, _⟩ | ⟨xs, e0, ys, h2, _, h3⟩
        · rw [h3] at he
          rcases List.mem_append.mp he with he2 | he2
          · exact hkeys e (by rw [h2]; exact List.mem_append_left _ he2) k hk
          · rcases List.mem_cons.mp he2 with rfl | he3
            · simp only [entry.keys, List.map_nil, List.mem_singleton] at hk
              rw [hk]
              exact hc
            · exact hkeys e (by rw [h2]; exact List.mem_append_right _ he3) k hk
        · rw [h3] at he
          rcases List.mem_append.mp he with he2 | he2
          · exact hkeys e (by rw [h2]; exact List.mem_append_left _ he2) k hk
          · rcases List.mem_cons.mp he2 with rfl | he3
            · rcases store_keys e0 key value k hk with h4 | h4
              · rw [h4]
                exact hc
              · exact hkeys e0 (by rw [h2]; simp) k h4
            · have he4 : e ∈ e0 :: ys := List.mem_cons_of_mem _ he3
              exact hkeys e (by rw [h2]; exact List.mem_append_right _ he4) k hk
      | remove key pick =>
        obtain ⟨rb2, h1, _, hcase⟩ := Remove_spec h rb hv pick key
        simp only [hashmap.perform, h1, Option.map_some', Option.some.injEq] at hp
        subst hp
        intro e he k hk
        rcases hcase with ⟨h2, _⟩ | ⟨xs, e0, ys, h2, _, ⟨hne, h3⟩ | ⟨_, h3⟩⟩
        · rw [h2] at he
          exact hkeys e he k hk
        · rw [h3] at he
          rcases List.mem_append.mp he with he2 | he2
          · exact hkeys e (by rw [h2]; exact List.mem_append_left _ he2) k hk
          · rcases List.mem_cons.mp he2 with rfl | he3
            · exact hkeys e0 (by rw [h2]; simp) k (drop_keys e0 pick key hne k hk)
            · have he4 : e ∈ e0 :: ys := List.mem_cons_of_mem _ he3
              exact hkeys e (by rw [h2]; exact List.mem_append_right _ he4) k hk
        · rw [h3] at he
          rcases List.mem_append.mp he with he2 | he2
          · exact hkeys e (by rw [h2]; exact List.mem_append_left _ he2) k hk
          · have he4 : e ∈ e0 :: ys := List.mem_cons_of_mem _ he2
            exact hkeys e (by rw [h2]; exact List.mem_append_right _ he4) k hk


/-! ## Keys of any dynamic type: the calls made during a repair -/

theorem Insert_of_start [DecidableEq K] (ops : keyOps K) (rb : rbTree K V) (key : K)
    (value : V) (p0 : ptr K V) (h : insertStart rb key value = some p0) :
    Insert ops rb key value
      = (insertCase1 p0).map fun p => rb.setRoot (some (crawl p.node p.up)) := by
  unfold insertStart at h
  unfold Insert
  cases hroot : rb.root with
  | none =>
    simp only [hroot, Option.some.injEq] at h
    subst h
    rfl
  | some root =>
    simp only [hroot] at h ⊢
    split at h
    · rename_i hf
      simp only [Option.some.injEq] at h
      subst h
      simp only [hf]
    · rename_i hf
      simp only [Option.some.injEq] at h
      subst h
      simp only [hf]
    · cases h

theorem Remove_of_start [DecidableEq K] (ops : keyOps K) (rb : rbTree K V) (key : K)
    (pick : Nat) (p0 : ptr K V) (h : removeStart rb key = some p0) :
    Remove ops rb pick key
      = (deleteCase1 p0).map fun p =>
          (rb.setRoot (if isLeaf (crawl p.node p.up) then none else some (crawl p.node p.up)),
            true) := by
  unfold removeStart at h
  unfold Remove
  cases hroot : rb.root with
  | none =>
    simp only [hroot] at h
    cases h
  | some root =>
    simp only [hroot] at h ⊢
    split at h
    · rename_i hf
      simp only [hf]
      split at h
      · cases h
      · rename_i hc
        simp only [hc, if_false]
        split at h
        · rename_i rc rl re rr rel hrep
          simp only [hrep]
          by_cases hred : rc = color.red
          · simp [hred] at h
          · by_cases hred2 : (if isLeaf rr = true then rl else rr).colorOf = color.red
            · simp [hred, hred2] at h
            · simp only [hred, hred2, if_false, Option.some.injEq] at h
              subst h
              simp only [hred, hred2, if_false]
        · cases h
    · cases h

/-! ## Keys of any dynamic type: a call on a comparable key returns -/

theorem Insert_returns [DecidableEq K] (ops : keyOps K) {h : K → Int} {rb : rbTree K V}
    (hv : sound ops h rb) {key : K} (hk : comparable ops key) (value : V) :
    ∃ rb2, Insert ops rb key value = some rb2 := by
  by_cases hex : ∃ e ∈ rb.contents, e.keyHash = h key
  · obtain ⟨e, he, hkh⟩ := hex
    obtain ⟨t, hroot, het⟩ := root_of_mem he
    rw [Insert_at_hash ops h rb hv.1 key value t hroot e het hkh]
    have hst : ∃ e2, store ops e key value = some e2 := by
      unfold store
      cases hb : ops.eq key e.key with
      | none => exact absurd hb (hk.2 e.key).1
      | some b =>
        cases b with
        | true => exact ⟨_, rfl⟩
        | false => simp [mapSet, mapDelete, hk.1]
    obtain ⟨e2, he2⟩ := hst
    exact ⟨_, by rw [he2]; rfl⟩
  · have hno : ∀ x ∈ rb.contents, x.keyHash ≠ h key := fun x hx hxk => hex ⟨x, hx, hxk⟩
    rw [Insert_of_no_hash ops h rb hv.1 key value hno]
    obtain ⟨rb3, h3, _⟩ := Insert_structure h rb hv.1 key value
    exact ⟨rb3, h3⟩

theorem Get_returns (ops : keyOps K) {h : K → Int} {rb : rbTree K V}
    (hv : sound ops h rb) {key : K} (hk : comparable ops key) :
    ∃ res, Get ops rb key = some res := by
  rw [Get_reads ops h rb hv.1 key]
  cases rb.contents.find? (fun e => decide (e.keyHash = h key)) with
  | none => exact ⟨_, rfl⟩
  | some e =>
    simp only [find]
    cases hb : ops.eq e.key key with
    | none => exact absurd hb (hk.2 e.key).2
    | some b =>
      cases b with
      | true => exact ⟨_, rfl⟩
      | false =>
        simp only [mapGet, hk.1, if_true]
        cases (e.collisions.find? fun p => ops.eq p.1 key == some true) with
        | none => exact ⟨_, rfl⟩
        | some p => exact ⟨_, rfl⟩

theorem Remove_returns [DecidableEq K] (ops : keyOps K) {h : K → Int} {rb : rbTree K V}
    (hv : sound ops h rb) (pick : Nat) {key : K} (hk : comparable ops key) :
    ∃ rb2, Remove ops rb pick key = some (rb2, true) := by
  by_cases hex : ∃ e ∈ rb.contents, e.keyHash = h key ∧ e.collisions ≠ []
  · obtain ⟨e, he, hkh, hcoll⟩ := hex
    obtain ⟨t, hroot, het⟩ := root_of_mem he
    rw [Remove_at_collisions ops h rb hv.1 key pick t hroot e het hkh hcoll]
    have hdr : ∃ e2, drop ops e pick key = some e2 := by
      unfold drop
      cases hb : ops.eq key e.key with
      | none => exact absurd hb (hk.2 e.key).1
      | some b =>
        cases b with
        | true =>
          obtain ⟨k, v, hkv, hp⟩ := promote_spec pick e hcoll
          have hh : ops.hashable (promote pick e).key = true := by
            rw [hp]
            exact hv.2 e he (k, v) hkv
          simp [mapDelete, hh]
        | false => simp [mapDelete, hk.1]
    obtain ⟨e2, he2⟩ := hdr
    exact ⟨_, by rw [he2]; rfl⟩
  · have hno : ∀ x ∈ rb.contents, x.keyHash = h key → x.collisions = [] := by
      intro x hx hxk
      by_contra hc
      exact hex ⟨x, hx, hxk, hc⟩
    rw [Remove_of_no_collisions ops h rb hv.1 pick key hno]
    obtain ⟨rb3, h3, _⟩ := Remove_structure h rb hv.1 pick key
    exact ⟨rb3, h3⟩


/-! ## Regular keys and concrete maps -/

theorem regular_identity [DecidableEq K] (k : K) : regular (identityOps : keyOps K) k :=
  ⟨rfl, fun _ => ⟨rfl, rfl⟩⟩

theorem regular_int (n : Int) : regular goValue.ops (.int n) := by
  refine ⟨rfl, fun x => ?_⟩
  cases x <;> simp [goValue.ops]

theorem comparable_of_regular [DecidableEq K] {ops : keyOps K} {k : K} (h : regular ops k) :
    comparable ops k :=
  ⟨h.1, fun x => ⟨by rw [(h.2 x).1]; simp, by rw [(h.2 x).2]; simp⟩⟩

theorem reachable_of_equality [DecidableEq K] {h : K → Int} {rb : rbTree K V}
    (hr : hashmap.Reachable h rb) : Reachable identityOps h rb := by
  obtain ⟨cs, hcs⟩ := hr
  refine ⟨cs, ?_⟩
  rw [performAll_regular identityOps cs (New h) (New_valid h) (by simp [rbTree.contents, New])
    (fun c _ => regular_identity _)]
  exact hcs

theorem nanOnly_run :
    Insert goValue.ops (New zeroHash) goValue.nan "a" = some nanOnly := by
  simp [Insert, New, insertCase1, rbTree.setRoot, crawl, rbTreeNode.paint, nanOnly, zeroHash]

theorem nanOnly_reachable : Reachable goValue.ops zeroHash nanOnly :=
  ⟨[.insert .nan "a"], by simp [performAll, perform, nanOnly_run]⟩

theorem sliceOnly_run :
    Insert goValue.ops (New zeroHash) goValue.slice "a" = some sliceOnly := by
  simp [Insert, New, insertCase1, rbTree.setRoot, crawl, rbTreeNode.paint, sliceOnly, zeroHash]

theorem nanCollided_run :
    performAll goValue.ops (New zeroHash) [.insert (.int 1) "a", .insert .nan "b"]
      = some nanCollided := by
  simp [performAll, perform, Insert, New, insertCase1, findInsertionParent, zeroHash,
    rbTree.setRoot, crawl, rbTreeNode.paint, mapSet, mapDelete, goValue.ops, nanCollided]

theorem nanCollided_reachable : Reachable goValue.ops zeroHash nanCollided :=
  ⟨_, nanCollided_run⟩

theorem nanCollided_remove (pick : Nat) :
    Remove goValue.ops nanCollided pick (.int 1) = some (nanPromoted, true) := by
  simp [Remove, nanCollided, findByKeyHash, zeroHash, goValue.ops, promote, mapDelete,
    rbTree.setRoot, crawl, nanPromoted, Nat.mod_one]

/-! ## The claims about keys of any dynamic type -/

/-- C1, as the specification states it, fails: after `Insert(k, "a")` on the empty map, for a
key `k` that is a NaN, `Get(k)` returns `(nil, false)`; for a key `k` that is a slice, `Get(k)`
panics. -/
theorem nan_not_found_after_insert :
    Insert goValue.ops (New zeroHash) goValue.nan "a" = some nanOnly ∧
      Get goValue.ops nanOnly goValue.nan = some (none, false) ∧
      Insert goValue.ops (New zeroHash) goValue.slice "a" = some sliceOnly ∧
      Get goValue.ops sliceOnly goValue.slice = none := by
  refine ⟨nanOnly_run, ?_, sliceOnly_run, ?_⟩
  · simp [Get, nanOnly, findByKeyHash, zeroHash, goValue.ops, mapGet]
  · simp [Get, sliceOnly, findByKeyHash, zeroHash, goValue.ops]

/-- C1, as amended (round trip, overwrite): in every map reachable from `New(h)` by `Insert` and
`Remove` calls, whatever keys it holds, for every key `k` with `k == k` and every value,
`Insert(k, value)` returns and `Get(k)` called right after it returns `(value, true)`. -/
theorem get_after_insert [DecidableEq K] (ops : keyOps K) (h : K → Int) (rb : rbTree K V)
    (hr : Reachable ops h rb) (key : K) (value : V) (hk : regular ops key) :
    ∃ rb2, Insert ops rb key value = some rb2 ∧ Get ops rb2 key = some (some value, true) := by
  obtain ⟨rb2, hins, _, hget⟩ :=
    Insert_then_Get_structure h rb (reachable_sound ops hr).1 key value
  exact ⟨rb2, by rw [Insert_regular ops rb hk]; exact hins,
    by rw [Get_regular ops rb2 hk]; exact hget⟩

theorem get_after_insert_witness :
    Reachable goValue.ops zeroHash nanOnly ∧ regular goValue.ops (.int 1) ∧
      ∃ rb2, Insert goValue.ops nanOnly (.int 1) "b" = some rb2 ∧
        Get goValue.ops rb2 (.int 1) = some (some "b", true) :=
  ⟨nanOnly_reachable, regular_int 1,
    get_after_insert goValue.ops zeroHash nanOnly nanOnly_reachable (.int 1) "b" (regular_int 1)⟩

/-- C5, as the specification states it, fails: under a constant hash, after `Insert(NaN, "a")`,
`Insert(1, "b")`, `Remove(NaN)` and `Remove(1)` the node of the NaN is still the root. -/
theorem nan_left_after_removals :
    performAll goValue.ops (New zeroHash)
        [.insert .nan "a", .insert (.int 1) "b", .remove .nan 0, .remove (.int 1) 0]
      = some nanOnly ∧
      nanOnly.root ≠ none := by
  constructor
  · simp [performAll, perform, Insert, Remove, New, insertCase1, findInsertionParent,
      findByKeyHash, zeroHash, rbTree.setRoot, crawl, rbTreeNode.paint, mapSet, mapDelete,
      goValue.ops, nanOnly]
  · simp [nanOnly]

/-- C5, as amended (deletion completeness): for every list of key/value pairs whose keys satisfy
`k == k`, inserted into `New(h)`, and every order in which each of the inserted keys is then
removed exactly once (with any choice of the promoted collisions), all the calls return, the
tree is empty afterwards (`root` is `nil`) and `Get` reports `found = false` for every inserted
key. -/
theorem remove_all_inserted [DecidableEq K] (ops : keyOps K) (h : K → Int)
    (ins : List (K × V)) (rems : List (K × Nat))
    (hreg : ∀ k ∈ ins.map Prod.fst, regular ops k)
    (hnodup : (rems.map Prod.fst).Nodup)
    (hsame : ∀ k, k ∈ rems.map Prod.fst ↔ k ∈ ins.map Prod.fst) :
    ∃ rb : rbTree K V,
      performAll ops (New h) ((ins.map fun p => call.insert p.1 p.2) ++
        rems.map fun p => call.remove p.1 p.2) = some rb ∧
      rb.root = none ∧ ∀ k ∈ ins.map Prod.fst, Get ops rb k = some (none, false) := by
  obtain ⟨rb, hrun, hroot, _⟩ := all_inserted_removed_of_equality h ins rems hnodup hsame
  refine ⟨rb, ?_, hroot, ?_⟩
  · rw [performAll_regular ops _ (New h) (New_valid h) (by simp [rbTree.contents, New])]
    · exact hrun
    · intro c hc
      rcases List.mem_append.mp hc with hc2 | hc2
      · obtain ⟨p, hp, rfl⟩ := List.mem_map.mp hc2
        exact hreg p.1 (List.mem_map.mpr ⟨p, hp, rfl⟩)
      · obtain ⟨p, hp, rfl⟩ := List.mem_map.mp hc2
        exact hreg p.1 ((hsame p.1).mp (List.mem_map.mpr ⟨p, hp, rfl⟩))
  · intro k _
    simp [Get, hroot]

theorem remove_all_inserted_witness :
    (∀ k ∈ [(goValue.int 1, "a"), (.int 2, "b"), (.int 1, "c")].map Prod.fst,
        regular goValue.ops k) ∧
      ([(goValue.int 2, 0), (.int 1, 0)].map Prod.fst).Nodup ∧
      (∀ k, k ∈ [(goValue.int 2, 0), (.int 1, 0)].map Prod.fst ↔
        k ∈ [(goValue.int 1, "a"), (.int 2, "b"), (.int 1, "c")].map Prod.fst) ∧
      ∃ rb : rbTree goValue String,
        performAll goValue.ops (New zeroHash)
          (([(goValue.int 1, "a"), (.int 2, "b"), (.int 1, "c")].map
              fun p => call.insert p.1 p.2) ++
            [(goValue.int 2, 0), (.int 1, 0)].map fun p => call.remove p.1 p.2) = some rb ∧
        rb.root = none ∧
        ∀ k ∈ [(goValue.int 1, "a"), (.int 2, "b"), (.int 1, "c")].map Prod.fst,
          Get goValue.ops rb k = some (none, false) :=
  ⟨by intro k hk; simp at hk; rcases hk with rfl | rfl | rfl <;> exact regular_int _,
    by decide, by intro k; simp; tauto,
    remove_all_inserted goValue.ops zeroHash [(goValue.int 1, "a"), (.int 2, "b"), (.int 1, "c")]
      [(goValue.int 2, 0), (.int 1, 0)]
      (by intro k hk; simp at hk; rcases hk with rfl | rfl | rfl <;> exact regular_int _)
      (by decide) (by intro k; simp; tauto)⟩


/-- C16, as the specification states it, fails: in the reachable map whose only node has the
primary key `1` and the collisions `{NaN: "b"}`, `Remove(1)` makes the NaN the primary key and the
collisions are still `{NaN: "b"}`, not the old mapping without the promoted key; and `Remove(s)`
for a slice `s` panics. -/
theorem nan_stays_among_collisions :
    performAll goValue.ops (New zeroHash) [.insert (.int 1) "a", .insert .nan "b"]
        = some nanCollided ∧
      Remove goValue.ops nanCollided 0 (.int 1) = some (nanPromoted, true) ∧
      nanPromoted.contents = [⟨0, .nan, "b", [(.nan, "b")]⟩] ∧
      Remove goValue.ops nanCollided 0 .slice = none := by
  refine ⟨nanCollided_run, nanCollided_remove 0, rfl, ?_⟩
  simp [Remove, nanCollided, findByKeyHash, zeroHash, goValue.ops, mapDelete]

/-- C16, as amended (removal from a node that holds collisions): in every reachable map, when the
node with the hash of `key` holds collisions and `key` is comparable (it can be hashed and its
comparisons do not panic), `Remove(key)` returns `true` and leaves a tree with the same links and
colours in which every payload but the one with that hash is as before; in that one, when `key`
is `==` to the primary key, the new primary key and value are an entry `(k2, v2)` that was among
the collisions and the collisions are the old ones without the entries whose key is `==` to `k2`
(all of them stay when `k2` is not `==` to itself), and otherwise the primary key and value are
unchanged and the collisions are the old ones without the entries whose key is `==` to `key`. -/
theorem remove_from_node_with_collisions [DecidableEq K] (ops : keyOps K) (h : K → Int)
    (rb : rbTree K V) (hr : Reachable ops h rb) (key : K) (pick : Nat) (t : rbTreeNode K V)
    (hroot : rb.root = some t) (e : entry K V) (he : e ∈ entries t) (hk : e.keyHash = h key)
    (hcoll : e.collisions ≠ []) (hcmp : comparable ops key) :
    ∃ e2 t2, Remove ops rb pick key = some (rb.setRoot (some t2), true) ∧
      t2 = t.mapData (fun x => if x.keyHash = h key then e2 else x) ∧
      sameShape t2 t ∧
      entries t2 = (entries t).map (fun x => if x.keyHash = h key then e2 else x) ∧
      (ops.eq key e.key = some true → ∃ k2 v2, (k2, v2) ∈ e.collisions ∧
        e2 = ⟨e.keyHash, k2, v2,
          e.collisions.filter fun p => !(ops.eq p.1 k2 == some true)⟩) ∧
      (ops.eq key e.key = some false →
        e2 = { e with
          collisions := e.collisions.filter fun p => !(ops.eq p.1 key == some true) }) := by
  have hv := reachable_sound ops hr
  have hmem : e ∈ rb.contents := by
    simp only [rbTree.contents, hroot]
    exact he
  have hrem := Remove_at_collisions ops h rb hv.1 key pick t hroot e he hk hcoll
  cases hb : ops.eq key e.key with
  | none => exact absurd hb (hcmp.2 e.key).1
  | some b =>
    cases b with
    | true =>
      obtain ⟨k2, v2, hkv, hp⟩ := promote_spec pick e hcoll
      have hh : ops.hashable k2 = true := hv.2 e hmem (k2, v2) hkv
      have hdrop : drop ops e pick key
          = some ⟨e.keyHash, k2, v2,
              e.collisions.filter fun p => !(ops.eq p.1 k2 == some true)⟩ := by
        simp [drop, hb, hp, mapDelete, hh]
      rw [hdrop] at hrem
      exact ⟨_, _, hrem, rfl, sameShape_mapData _ t, entries_mapData _ t,
        fun _ => ⟨k2, v2, hkv, rfl⟩, fun h2 => (by cases h2)⟩
    | false =>
      have hdrop : drop ops e pick key
          = some { e with
              collisions := e.collisions.filter fun p => !(ops.eq p.1 key == some true) } := by
        simp [drop, hb, mapDelete, hcmp.1]
      rw [hdrop] at hrem
      exact ⟨_, _, hrem, rfl, sameShape_mapData _ t, entries_mapData _ t,
        fun h2 => (by cases h2), fun _ => rfl⟩

theorem comparable_int (n : Int) : comparable goValue.ops (.int n) :=
  comparable_of_regular (regular_int n)

theorem remove_from_node_with_collisions_witness :
    Reachable goValue.ops zeroHash nanCollided ∧ nanCollided.root = some nanCollidedTree ∧
      nanCollidedEntry ∈ entries nanCollidedTree ∧
      nanCollidedEntry.keyHash = zeroHash (.int 1) ∧ nanCollidedEntry.collisions ≠ [] ∧
      comparable goValue.ops (.int 1) ∧
      ∃ e2 t2, Remove goValue.ops nanCollided 0 (.int 1)
          = some (nanCollided.setRoot (some t2), true) ∧
        t2 = nanCollidedTree.mapData
          (fun x => if x.keyHash = zeroHash (.int 1) then e2 else x) ∧
        sameShape t2 nanCollidedTree ∧
        entries t2 = (entries nanCollidedTree).map
          (fun x => if x.keyHash = zeroHash (.int 1) then e2 else x) ∧
        (goValue.ops.eq (.int 1) nanCollidedEntry.key = some true →
          ∃ k2 v2, (k2, v2) ∈ nanCollidedEntry.collisions ∧
            e2 = ⟨nanCollidedEntry.keyHash, k2, v2,
              nanCollidedEntry.collisions.filter
                fun p => !(goValue.ops.eq p.1 k2 == some true)⟩) ∧
        (goValue.ops.eq (.int 1) nanCollidedEntry.key = some false →
          e2 = { nanCollidedEntry with
            collisions := nanCollidedEntry.collisions.filter
              fun p => !(goValue.ops.eq p.1 (.int 1) == some true) }) :=
  ⟨nanCollided_reachable, rfl, by simp [entries, nanCollidedTree], rfl,
    by simp [nanCollidedEntry], comparable_int 1,
    remove_from_node_with_collisions goValue.ops zeroHash nanCollided nanCollided_reachable
      (.int 1) 0 nanCollidedTree rfl nanCollidedEntry (by simp [entries, nanCollidedTree]) rfl
      (by simp [nanCollidedEntry]) (comparable_int 1)⟩

/-- C11, as the specification states it, fails: `Insert(s, "a")` for a slice `s` on the empty map
returns, and on the map it leaves `Insert(s, "b")` and `Get(s)` panic on the comparison of the
two slices. -/
theorem slice_key_panics :
    Insert goValue.ops (New zeroHash) goValue.slice "a" = some sliceOnly ∧
      Insert goValue.ops sliceOnly goValue.slice "b" = none ∧
      Get goValue.ops sliceOnly goValue.slice = none := by
  refine ⟨sliceOnly_run, ?_, ?_⟩
  · simp [Insert, sliceOnly, findInsertionParent, zeroHash, goValue.ops]
  · simp [Get, sliceOnly, findByKeyHash, zeroHash, goValue.ops]

/-- C11, as amended (no operation on a comparable key fails): in every reachable map, for all
keys that are comparable (they can be hashed and their comparisons do not panic) and every
value, `Insert`, `Get` and `Remove` run to completion, without a `nil` dereference and without
a panic of a comparison or of a map operation.  Moreover, in every call of `insertCase4` or
`insertCase5` made during the `Insert` the grandparent of the node exists, and in every call of
`deleteCase2` ... `deleteCase6` made during the `Remove` the sibling of the node exists and is a
real node, whose `left` and `right` are therefore present. -/
theorem no_operation_fails [DecidableEq K] (ops : keyOps K) (h : K → Int) (rb : rbTree K V)
    (hr : Reachable ops h rb) (key : K) (value : V) (key2 : K) (pick : Nat)
    (hk : comparable ops key) (hk2 : comparable ops key2) :
    (∃ rb2, Insert ops rb key value = some rb2) ∧ (∃ res, Get ops rb key = some res) ∧
      (∃ rb2 b, Remove ops rb pick key2 = some (rb2, b)) ∧
      (∀ p0 f q, insertStart rb key value = some p0 →
        reaches (routine.insertCase1, p0) (f, q) →
        f = routine.insertCase4 ∨ f = routine.insertCase5 →
        ∃ g, getGrandparent q = some g) ∧
      (∀ p0 f q, removeStart rb key2 = some p0 →
        reaches (routine.deleteCase1, p0) (f, q) →
        f = routine.deleteCase2 ∨ f = routine.deleteCase3 ∨ f = routine.deleteCase4 ∨
          f = routine.deleteCase5 ∨ f = routine.deleteCase6 →
        ∃ c l e r, getSibling q = some (.real c l e r)) := by
  have hv := reachable_sound ops hr
  obtain ⟨rb2, hins⟩ := Insert_returns ops hv hk value
  obtain ⟨rb3, hrem⟩ := Remove_returns ops hv pick hk2
  refine ⟨⟨rb2, hins⟩, Get_returns ops hv hk, ⟨rb3, true, hrem⟩, ?_, ?_⟩
  · intro p0 f q hstart hreach hf
    rw [Insert_of_start ops rb key value p0 hstart] at hins
    obtain ⟨r1, hr1, _⟩ := Option.map_eq_some'.mp hins
    have hrun : f.run q = some r1 := by
      rw [← reaches_run hreach]
      exact hr1
    rcases hf with rfl | rfl
    · exact insertCase4_grandparent hrun
    · exact insertCase5_grandparent hrun
  · intro p0 f q hstart hreach hf
    rw [Remove_of_start ops rb key2 pick p0 hstart] at hrem
    obtain ⟨r1, hr1, _⟩ := Option.map_eq_some'.mp hrem
    have hrun : f.run q = some r1 := by
      rw [← reaches_run hreach]
      exact hr1
    rcases hf with rfl | rfl | rfl | rfl | rfl
    · rcases q with ⟨n, up⟩
      cases up with
      | nil => simp [routine.run] at hrun
      | cons f up => exact deleteCase2_sibling hrun
    · exact deleteCase3_sibling hrun
    · exact deleteCase4_sibling hrun
    · exact deleteCase5_sibling hrun
    · exact deleteCase6_sibling hrun

theorem oneToFour_insert_reaches :
    insertStart oneToFour 6 "e" = some oneToFourInsertStart ∧
      reaches (routine.insertCase1, oneToFourInsertStart)
        (routine.insertCase4, oneToFourInsertStart) ∧
      reaches (routine.insertCase1, oneToFourInsertStart)
        (routine.insertCase5, oneToFourInsertStart) := by
  have h1 : routine.insertCase1.next oneToFourInsertStart
      = some (routine.insertCase2, oneToFourInsertStart) := rfl
  have h2 : routine.insertCase2.next oneToFourInsertStart
      = some (routine.insertCase3, oneToFourInsertStart) := rfl
  have h3 : routine.insertCase3.next oneToFourInsertStart
      = some (routine.insertCase4, oneToFourInsertStart) := rfl
  have h4 : routine.insertCase4.next oneToFourInsertStart
      = some (routine.insertCase5, oneToFourInsertStart) := rfl
  refine ⟨?_, ?_, ?_⟩
  · simp [insertStart, oneToFour, findInsertionParent, testHash, isLeaf, oneToFourInsertStart]
  · exact reaches.call h1 (reaches.call h2 (reaches.call h3 (reaches.here _)))
  · exact reaches.call h1 (reaches.call h2 (reaches.call h3 (reaches.call h4 (reaches.here _))))

theorem no_operation_fails_witness :
    Reachable identityOps testHash oneToFour ∧
      comparable (identityOps : keyOps Int) 6 ∧ comparable (identityOps : keyOps Int) 1 ∧
      ((∃ rb2, Insert identityOps oneToFour 6 "e" = some rb2) ∧
        (∃ res, Get identityOps oneToFour 6 = some res) ∧
        (∃ rb2 b, Remove identityOps oneToFour 0 1 = some (rb2, b)) ∧
        (∀ p0 f q, insertStart oneToFour 6 "e" = some p0 →
          reaches (routine.insertCase1, p0) (f, q) →
          f = routine.insertCase4 ∨ f = routine.insertCase5 →
          ∃ g, getGrandparent q = some g) ∧
        (∀ p0 f q, removeStart oneToFour 1 = some p0 →
          reaches (routine.deleteCase1, p0) (f, q) →
          f = routine.deleteCase2 ∨ f = routine.deleteCase3 ∨ f = routine.deleteCase4 ∨
            f = routine.deleteCase5 ∨ f = routine.deleteCase6 →
          ∃ c l e r, getSibling q = some (.real c l e r))) ∧
      (∃ g, getGrandparent oneToFourInsertStart = some g) ∧
      (∃ c l e r, getSibling oneToFourStart = some (.real c l e r)) :=
  have hr : Reachable identityOps testHash oneToFour := reachable_of_equality oneToFour_reachable
  have hc6 : comparable (identityOps : keyOps Int) 6 := comparable_of_regular (regular_identity 6)
  have hc1 : comparable (identityOps : keyOps Int) 1 := comparable_of_regular (regular_identity 1)
  have hall := no_operation_fails identityOps testHash oneToFour hr 6 "e" 1 0 hc6 hc1
  ⟨hr, hc6, hc1, hall,
    hall.2.2.2.1 _ _ _ oneToFour_insert_reaches.1 oneToFour_insert_reaches.2.2 (Or.inr rfl),
    hall.2.2.2.2 _ _ _ deleteCase6_reached.2.1 deleteCase6_reached.2.2.2.2.2.2
      (Or.inr (Or.inr (Or.inr (Or.inr rfl))))⟩

end anykey

end hashmap
